import Mathlib

/-!
# Case conversion and classification of component names (`scripts/rename`)

A shallow embedding of `scripts/rename/utils.go` and of `processFileName` of
`scripts/rename/converter.go`.

A Go `string` is a sequence of bytes; it is modelled as a list of byte values
(`GoString`).  Indexing `s[i]` reads a byte, `strings.Builder.WriteRune` appends
the UTF-8 encoding of a code point.  The library functions `strings.ToLower`,
`strings.ToUpper` and `strings.Title` are modelled exactly on ASCII bytes; bytes
`≥ 0x80` are left as they are.
-/

namespace Rename

/-- A Go string: its bytes, in order. -/
abbrev GoString := List Nat

/-- UTF-8 encoding of a code point, as `utf8.AppendRune` produces it
(surrogates and out-of-range values are written as U+FFFD). -/
def encodeRune (r : Nat) : GoString :=
  if r < 0x80 then [r]
  else if r < 0x800 then [0xC0 + r / 64, 0x80 + r % 64]
  else if (0xD800 ≤ r ∧ r ≤ 0xDFFF) ∨ 0x10FFFF < r then [0xEF, 0xBF, 0xBD]
  else if r < 0x10000 then [0xE0 + r / 4096, 0x80 + r / 64 % 64, 0x80 + r % 64]
  else [0xF0 + r / 262144, 0x80 + r / 4096 % 64, 0x80 + r / 64 % 64, 0x80 + r % 64]

/-- The bytes of a string literal. -/
def str (s : String) : GoString :=
  s.toList.flatMap (fun c => encodeRune c.toNat)

/-- The test `c >= 'A' && c <= 'Z'`. -/
def isUpper (c : Nat) : Bool := decide (65 ≤ c) && decide (c ≤ 90)

/-- The test `c >= 'a' && c <= 'z'`. -/
def isLower (c : Nat) : Bool := decide (97 ≤ c) && decide (c ≤ 122)

/-- The test `c >= '0' && c <= '9'`. -/
def isDigit (c : Nat) : Bool := decide (48 ≤ c) && decide (c ≤ 57)

/-- The character class `[a-z0-9]`. -/
def isLowerAlnum (c : Nat) : Bool := isLower c || isDigit c

/-- Lower-casing of one ASCII byte. -/
def lowerByte (c : Nat) : Nat := if isUpper c then c + 32 else c

/-- Upper-casing of one ASCII byte. -/
def upperByte (c : Nat) : Nat := if isLower c then c - 32 else c

/-- The library function `strings.ToLower`, on ASCII. -/
def toLower (s : GoString) : GoString := s.map lowerByte

/-- The library function `strings.ToUpper`, on ASCII. -/
def toUpper (s : GoString) : GoString := s.map upperByte

/-- The library predicate `isSeparator` behind `strings.Title`: ASCII letters, digits
and the underscore are not separators, every other ASCII byte is; bytes `≥ 0x80` are
taken as parts of letters. -/
def isSeparator (c : Nat) : Bool :=
  if c ≤ 0x7F then !(isDigit c || isLower c || isUpper c || c == 95) else false

/-- The loop of `strings.Title`: `prev` is the previously read byte. -/
def titleFrom : Nat → GoString → GoString
  | _, [] => []
  | prev, c :: cs => (if isSeparator prev then upperByte c else c) :: titleFrom c cs

/-- The library function `strings.Title`, on ASCII: `prev` starts as a space. -/
def title (s : GoString) : GoString := titleFrom 32 s

/-- The table `upperCaseAcronyms` of recognized acronyms. -/
def upperCaseAcronyms : List GoString :=
  [str "API", str "FAQ", str "UI", str "ID", str "URL", str "SDK", str "CSS", str "HTML",
   str "HTTP", str "HTTPS", str "JSON", str "XML", str "JWT", str "SEO", str "DX", str "AI",
   str "CTA"]

/-- The map lookup `upperCaseAcronyms[a]`. -/
def isAcronym (a : GoString) : Bool := upperCaseAcronyms.contains a

/-- The closure `findAcronym` of `camelToKebab`, applied to the suffix `s[start:]`:
returns the slice `s[start:end]` and the remaining suffix `s[end:]`. -/
def findAcronym (rest : GoString) : GoString × GoString :=
  let run := rest.takeWhile isUpper
  let after := rest.dropWhile isUpper
  match after with
  | c :: _ =>
    if decide (run.length > 1) && isLower c then
      (run.dropLast, run.drop (run.length - 1) ++ after)
    else (run, after)
  | [] => (run, after)

/-- What `camelToKebab` writes for the slice `acronym` that starts with the byte `c`:
a recognized acronym in lower case, otherwise the first byte in lower case
(`c - 'A' + 'a'` in byte arithmetic) followed by `acronym[1:]`. -/
def emitWord (c : Nat) (acronym : GoString) : GoString :=
  if decide (acronym.length > 1) && isAcronym acronym then toLower acronym
  else encodeRune ((c + 256 - 65 + 97) % 256) ++
    (if acronym.length > 1 then acronym.drop 1 else [])

/-- The main loop `for i < len(s)` of `camelToKebab` on the suffix `s[i:]`; the first
argument bounds the number of iterations. -/
def scanLoop : Nat → GoString → GoString
  | 0, _ => []
  | _ + 1, [] => []
  | fuel + 1, c :: cs =>
    if isUpper c then
      [45] ++ emitWord c (findAcronym (c :: cs)).1 ++ scanLoop fuel (findAcronym (c :: cs)).2
    else encodeRune c ++ scanLoop fuel cs

/-- The function `camelToKebab` of `utils.go`. -/
def camelToKebab (s : GoString) : GoString :=
  match s with
  | [] => []
  | c :: cs =>
    if s = str "Index" then str "index"
    else if decide (s.length > 1) && isUpper c && cs.all isLower then toLower s
    else if isUpper c then
      emitWord c (findAcronym s).1 ++ scanLoop s.length (findAcronym s).2
    else encodeRune c ++ scanLoop s.length cs

/-- The library function `strings.Split(s, "-")`. -/
def splitHyphen : GoString → List GoString
  | [] => [[]]
  | c :: cs =>
    if c = 45 then [] :: splitHyphen cs
    else
      match splitHyphen cs with
      | [] => [[c]]
      | p :: ps => (c :: p) :: ps

/-- The body of the loop of `kebabToCamel` for the part at index `i`. -/
def camelPart (i : Nat) (part : GoString) : GoString :=
  if isAcronym (toUpper part) then
    if i > 0 ∨ part.length > 1 then toUpper part else title part
  else if i > 0 then title part
  else title part

/-- The loop of `kebabToCamel` over the parts, starting at index `i`. -/
def camelParts : Nat → List GoString → List GoString
  | _, [] => []
  | i, p :: ps => camelPart i p :: camelParts (i + 1) ps

/-- The function `kebabToCamel` of `utils.go`. -/
def kebabToCamel (s : GoString) : GoString :=
  if s = [] then s else (camelParts 0 (splitHyphen s)).flatten

/-- The function `isCamelCase` of `utils.go`. -/
def isCamelCase (s : GoString) : Bool :=
  match s with
  | [] => false
  | c :: cs =>
    if s = str "Index" then true
    else if decide (s.length > 1) && isUpper c && cs.all isLower then true
    else if !isUpper c then false
    else if s.contains 45 then false
    else if s.contains 95 then false
    else true

/-- Matcher for the pattern `^[a-z0-9]+(-[a-z0-9]+)*$`: the flag tells whether the
token being read already has a character. -/
def matchKebab : Bool → GoString → Bool
  | inToken, [] => inToken
  | inToken, c :: cs =>
    if isLowerAlnum c then matchKebab true cs
    else if c = 45 ∧ inToken = true then matchKebab false cs
    else false

/-- The function `isKebabCase` of `utils.go`. -/
def isKebabCase (s : GoString) : Bool :=
  if s = [] then false else matchKebab false s


/-- The function `camelToKebab` without its two shortcuts (the literal `Index` and the
capital letter followed by lowercase letters only): the general scan alone. -/
def camelToKebabGeneral (s : GoString) : GoString :=
  match s with
  | [] => []
  | c :: cs =>
    if isUpper c then
      emitWord c (findAcronym s).1 ++ scanLoop s.length (findAcronym s).2
    else encodeRune c ++ scanLoop s.length cs

/-- The main loop of `camelToKebab` run on a suffix with as many iterations as the suffix
has bytes. -/
def scan (rest : GoString) : GoString := scanLoop rest.length rest

/-- The library function `strings.HasPrefix(s, pat)`. -/
def hasPrefix : GoString → GoString → Bool
  | _, [] => true
  | [], _ :: _ => false
  | c :: cs, p :: ps => c == p && hasPrefix cs ps

/-- The library function `strings.Contains(s, pat)`. -/
def containsSub : GoString → GoString → Bool
  | [], pat => hasPrefix [] pat
  | c :: cs, pat => hasPrefix (c :: cs) pat || containsSub cs pat

/-- The file name part of `filepath.Split`: the bytes after the last `/`, read from the
reversed path. -/
def fileNameRev : GoString → GoString → GoString
  | [], acc => acc
  | c :: r, acc => if c = 47 then acc else fileNameRev r (c :: acc)

/-- The library function `filepath.Split`: directory (with its final `/`) and file name. -/
def splitPath (path : GoString) : GoString × GoString :=
  let file := fileNameRev path.reverse []
  (path.take (path.length - file.length), file)

/-- The loop of `filepath.Ext`, reading the reversed name: the suffix from the last dot
of the last path element, empty when there is no dot. -/
def extRev : GoString → GoString → GoString
  | [], _ => []
  | c :: r, acc => if c = 47 then [] else if c = 46 then 46 :: acc else extRev r (c :: acc)

/-- The library function `filepath.Ext`. -/
def fileExtOf (name : GoString) : GoString := extRev name.reverse []

/-- The base name `fileName[:len(fileName)-len(fileExt)]` that `processFileName`
classifies and converts. -/
def baseNameOf (filePath : GoString) : GoString :=
  let fileName := (splitPath filePath).2
  fileName.take (fileName.length - (fileExtOf fileName).length)

/-- The struct `Config` of `types.go`. -/
structure Config where
  TargetDirs : List GoString
  TargetDir : GoString
  ExcludePatterns : List GoString
  ExcludeImportPatterns : List GoString
  ExcludeDirectories : List GoString
  ConversionDirection : GoString
  DryRun : Bool
  DebugMode : Bool
  deriving DecidableEq

/-- The struct `ConversionResult` of `types.go`. -/
structure ConversionResult where
  OldPath : GoString
  NewPath : GoString
  OldBaseName : GoString
  NewBaseName : GoString
  TargetDir : GoString
  TotalFiles : Int
  ProcessedFiles : Int
  SkippedFiles : Int
  ErrorFiles : Int
  ImportUpdateFiles : List GoString
  deriving DecidableEq

/-- The errors `processFileName` and `processDirComponent` return, one per message of
their `fmt.Errorf` calls. -/
inductive SkipReason where
  | excludedPattern
  | notCamelCase
  | notKebabCase
  | targetExists
  | indexNotFound
  | targetDirExists
  deriving DecidableEq

/-- The ways a call ends: a result, a returned error, or a run-time panic. -/
inductive Outcome (α : Type) where
  | ok (a : α)
  | error (e : SkipReason)
  | panic
  deriving DecidableEq

/-- What `processFileName` asks of its surroundings: `stat p` tells whether `os.Stat(p)`
succeeds, `join` is the library function `filepath.Join` on two elements. -/
structure Env where
  stat : GoString → Bool
  join : GoString → GoString → GoString

/-- The end of `processFileName`: destination path, collision test, result. -/
def finishFileName (env : Env) (filePath dir fileExt baseName newBaseName : GoString) :
    Outcome ConversionResult :=
  let newFilePath := env.join dir (newBaseName ++ fileExt)
  if env.stat newFilePath && decide (newFilePath ≠ filePath) then
    Outcome.error SkipReason.targetExists
  else
    Outcome.ok
      { OldPath := filePath, NewPath := newFilePath, OldBaseName := baseName,
        NewBaseName := newBaseName, TargetDir := [], TotalFiles := 0, ProcessedFiles := 0,
        SkippedFiles := 0, ErrorFiles := 0, ImportUpdateFiles := [] }

/-- The function `processFileName` of `converter.go`.  Printing is left out; the index
`baseName[0]` of the debug output is kept, as it panics on an empty base name. -/
def processFileName (env : Env) (filePath : GoString) (config : Config) :
    Outcome ConversionResult :=
  let dir := (splitPath filePath).1
  let fileName := (splitPath filePath).2
  let fileExt := fileExtOf fileName
  let baseName := fileName.take (fileName.length - fileExt.length)
  if config.ExcludePatterns.any (fun pattern => containsSub fileName pattern) then
    Outcome.error SkipReason.excludedPattern
  else if config.ConversionDirection = str "camel-to-kebab" then
    if !isCamelCase baseName then
      if config.DebugMode && baseName.isEmpty then Outcome.panic
      else Outcome.error SkipReason.notCamelCase
    else finishFileName env filePath dir fileExt baseName (camelToKebab baseName)
  else
    if !isKebabCase baseName then Outcome.error SkipReason.notKebabCase
    else finishFileName env filePath dir fileExt baseName (kebabToCamel baseName)

/-- A configuration with no exclusions for the given direction. -/
def plainConfig (direction : GoString) : Config :=
  { TargetDirs := [], TargetDir := [], ExcludePatterns := [], ExcludeImportPatterns := [],
    ExcludeDirectories := [], ConversionDirection := direction, DryRun := false,
    DebugMode := false }

/-- Surroundings in which exactly the file `path` exists, for paths without a directory
part (`filepath.Join("", name)` is `name`). -/
def singleFileEnv (path : GoString) : Env :=
  { stat := fun p => p == path, join := fun dir name => dir ++ name }

/-- A capitalised word in the wide sense: one ASCII uppercase letter followed by
(zero or more) lowercase letters. -/
def isCapitalised (t : GoString) : Bool :=
  match t with
  | [] => false
  | u :: ls => isUpper u && ls.all isLower

/-- A capitalised word: one ASCII uppercase letter followed by one or more lowercase
letters. -/
def isCapitalisedWord (t : GoString) : Bool :=
  match t with
  | u :: l :: ls => isUpper u && isLower l && ls.all isLower
  | _ => false

/-- A capitalised word that may carry digits: one ASCII uppercase letter, one lowercase
letter, then lowercase letters or digits. -/
def isCapitalisedAlnum (t : GoString) : Bool :=
  match t with
  | u :: l :: ls => isUpper u && isLower l && ls.all isLowerAlnum
  | _ => false

/-- No two neighbouring tokens are both recognized acronyms. -/
def noAdjacentAcronyms : List GoString → Bool
  | a :: b :: rest => !(isAcronym a && isAcronym b) && noAdjacentAcronyms (b :: rest)
  | _ => true

/-- A kebab token that begins with two lowercase letters, followed by lowercase letters
or digits. -/
def isLowerToken (t : GoString) : Bool :=
  match t with
  | a :: b :: rest => isLower a && isLower b && rest.all isLowerAlnum
  | _ => false

/-- Spec wording "only its first letter uppercased and the rest left unchanged". -/
def capitalizeFirst : GoString → GoString
  | [] => []
  | c :: cs => upperByte c :: cs

/-- Spec wording of the per-token transform of the B → A direction: a token whose
uppercased form is a recognized acronym is emitted fully uppercased, every other token
has its first letter uppercased. -/
def specCamelToken (t : GoString) : GoString :=
  if toUpper t ∈ upperCaseAcronyms then toUpper t else capitalizeFirst t

/-! ### Directory components (`converter.go`) -/

/-- The library call `strings.TrimSuffix(p, "/")`: one final `/` is removed. -/
def trimSuffixSlash (p : GoString) : GoString :=
  if p.getLast? = some 47 then p.dropLast else p

/-- The end of `processDirComponent`: destination path, collision test, result. -/
def finishDirComponent (env : Env) (dirPath dir dirName newDirName : GoString) :
    Outcome ConversionResult :=
  let newDirPath := env.join dir newDirName
  if env.stat newDirPath && decide (newDirPath ≠ dirPath) then
    Outcome.error SkipReason.targetDirExists
  else
    Outcome.ok
      { OldPath := dirPath, NewPath := newDirPath, OldBaseName := dirName,
        NewBaseName := newDirName, TargetDir := [], TotalFiles := 0, ProcessedFiles := 0,
        SkippedFiles := 0, ErrorFiles := 0, ImportUpdateFiles := [] }

/-- The function `processDirComponent` of `converter.go` (printing left out). -/
def processDirComponent (env : Env) (dirPath : GoString) (config : Config) :
    Outcome ConversionResult :=
  let dir := (splitPath (trimSuffixSlash dirPath)).1
  let dirName := (splitPath (trimSuffixSlash dirPath)).2
  let tsxPath := env.join dirPath (str "index.tsx")
  let jsxPath := env.join dirPath (str "index.jsx")
  if !(env.stat tsxPath || env.stat jsxPath) then Outcome.error SkipReason.indexNotFound
  else if config.ExcludePatterns.any (fun pattern => containsSub dirName pattern) then
    Outcome.error SkipReason.excludedPattern
  else if config.ConversionDirection = str "camel-to-kebab" then
    if !isCamelCase dirName then Outcome.error SkipReason.notCamelCase
    else finishDirComponent env dirPath dir dirName (camelToKebab dirName)
  else
    if !isKebabCase dirName then Outcome.error SkipReason.notKebabCase
    else finishDirComponent env dirPath dir dirName (kebabToCamel dirName)

/-- Surroundings given by the list of existing paths; `filepath.Join` of a directory part
that ends in `/` and a plain name is their concatenation, of a directory path without final
`/` and a plain name it is the two joined by `/`. -/
def listEnv (paths : List GoString) : Env :=
  { stat := fun p => paths.contains p,
    join := fun dir name =>
      if dir = [] then name
      else if dir.getLast? = some 47 then dir ++ name else dir ++ 47 :: name }

/-- A configuration with no exclusions and debug output switched on. -/
def debugConfig (direction : GoString) : Config :=
  { TargetDirs := [], TargetDir := [], ExcludePatterns := [], ExcludeImportPatterns := [],
    ExcludeDirectories := [], ConversionDirection := direction, DryRun := false,
    DebugMode := true }

/-! ### Import rewriting (`updateImportPaths`) -/

/-- The class `\\s` of the pattern: tab, newline, form feed, carriage return, space. -/
def isSpace (c : Nat) : Bool := c == 9 || c == 10 || c == 12 || c == 13 || c == 32

/-- The class `['"]` of the pattern. -/
def isQuote (c : Nat) : Bool := c == 39 || c == 34

/-- The ways group 2, `([.]{1,2}/)?`, can match at the head of `rest`, in the order the
matcher prefers them: `../` or `./` when present, then no match of the group. -/
def dotSlashOptions (rest : GoString) : List GoString :=
  (if hasPrefix rest (str "../") then [str "../"]
   else if hasPrefix rest (str "./") then [str "./"] else []) ++ [[]]

/-- The prefixes of `run` that end in `/`, longest first. -/
def slashPrefixes (run : GoString) : List GoString :=
  (run.inits.filter (fun pre => pre.getLast? == some 47)).reverse

/-- The ways group 3, `([^'"]*/)?`, can match at the head of `rest`, in the order the
matcher prefers them: the quote-free prefixes ending in `/`, longest first, then no match
of the group. -/
def dirOptions (rest : GoString) : List GoString :=
  slashPrefixes (rest.takeWhile (fun c => !isQuote c)) ++ [[]]

/-- The end of the pattern after groups 2 and 3: the quoted `oldName`, then group 4, a
quote; returns the quote and the text after the match. -/
def matchName (oldName rest : GoString) : Option (Nat × GoString) :=
  if hasPrefix rest oldName then
    match rest.drop oldName.length with
    | q :: after => if isQuote q then some (q, after) else none
    | [] => none
  else none

/-- The pattern after group 1 at the head of `rest`: the first choice of groups 2 and 3,
in the order of preference, after which `oldName` and a quote follow.  Returns groups 2, 3
and 4 and the text after the match. -/
def matchPath (oldName rest : GoString) : Option (GoString × GoString × Nat × GoString) :=
  (dotSlashOptions rest).findSome? (fun g2 =>
    (dirOptions (rest.drop g2.length)).findSome? (fun g3 =>
      (matchName oldName (rest.drop (g2.length + g3.length))).map
        (fun qa => (g2, g3, qa.1, qa.2))))

/-- A match of the pattern of `updateImportPaths`,
`(from\\s+['"])([.]{1,2}/)?([^'"]*/)?oldName(['"])`, at the head of `s`: groups 1 to 4
and the text after the match. -/
def matchImportAt (oldName s : GoString) :
    Option (GoString × GoString × GoString × GoString × GoString) :=
  if hasPrefix s (str "from") then
    let ws := (s.drop 4).takeWhile isSpace
    match (s.drop 4).dropWhile isSpace with
    | q :: rest =>
      if ws ≠ [] ∧ isQuote q = true then
        (matchPath oldName rest).map
          (fun m => (str "from" ++ ws ++ [q], m.1, m.2.1, [m.2.2.1], m.2.2.2))
      else none
    | [] => none
  else none

/-- The name test of the library function `extract` behind `Regexp.Expand`: ASCII
letters, digits and the underscore. -/
def isNameChar (c : Nat) : Bool := isUpper c || isLower c || isDigit c || c == 95

/-- The library function `extract`: the variable name at the head of the template text
after a `$`, braced or not, and the rest of the template. -/
def extractName (t : GoString) : Option (GoString × GoString) :=
  match t with
  | 123 :: t1 =>
    let name := t1.takeWhile isNameChar
    match t1.dropWhile isNameChar with
    | 125 :: rest => if name = [] then none else some (name, rest)
    | _ => none
  | _ =>
    let name := t.takeWhile isNameChar
    if name = [] then none else some (name, t.dropWhile isNameChar)

/-- The text a template variable stands for: group `n` for the numerals `0` to `4`, the
empty text for every other name (the pattern has four groups, none of them named). -/
def groupValue (name : GoString) (groups : List GoString) : GoString :=
  match name with
  | [d] => if 48 ≤ d ∧ d ≤ 52 then groups.getD (d - 48) [] else []
  | _ => []

/-- The library function `Regexp.Expand` on a replacement template; the first argument
bounds the number of steps. -/
def expandLoop : Nat → GoString → List GoString → GoString
  | 0, _, _ => []
  | _ + 1, [], _ => []
  | fuel + 1, c :: rest, groups =>
    if c = 36 then
      match rest with
      | 36 :: rest2 => 36 :: expandLoop fuel rest2 groups
      | _ =>
        match extractName rest with
        | some (name, rest2) => groupValue name groups ++ expandLoop fuel rest2 groups
        | none => 36 :: expandLoop fuel rest groups
    else c :: expandLoop fuel rest groups

/-- The replacement `fmt.Sprintf("${1}${2}${3}%s${4}", newName)` expanded for a match. -/
def expandReplacement (newName : GoString) (groups : List GoString) : GoString :=
  expandLoop (str "${1}${2}${3}" ++ newName ++ str "${4}").length
    (str "${1}${2}${3}" ++ newName ++ str "${4}") groups

/-- The library call `re.ReplaceAllString(content, template)` for the pattern of
`updateImportPaths`: the matches are taken from left to right without overlap; the first
argument bounds the number of steps. -/
def replaceLoop : Nat → GoString → GoString → GoString → GoString
  | 0, _, _, _ => []
  | _ + 1, _, _, [] => []
  | fuel + 1, oldName, newName, c :: cs =>
    match matchImportAt oldName (c :: cs) with
    | some (g1, g2, g3, g4, after) =>
      expandReplacement newName [g1 ++ g2 ++ g3 ++ oldName ++ g4, g1, g2, g3, g4] ++
        replaceLoop fuel oldName newName after
    | none => c :: replaceLoop fuel oldName newName cs

/-- The new content that `updateImportPaths` computes from the content of the file. -/
def rewriteImports (oldName newName content : GoString) : GoString :=
  replaceLoop content.length oldName newName content

/-- The function `updateImportPaths` of `converter.go` on the content read from the file
(`none` when `os.ReadFile` fails): the content written back, if any, and the values
returned (`none` for a returned error).  `writeOk` tells whether `os.WriteFile` succeeds. -/
def updateImportPaths (read : Option GoString) (writeOk : Bool)
    (oldName newName : GoString) (config : Config) : Option GoString × Option Bool :=
  match read with
  | none => (none, none)
  | some content =>
    let newContent := rewriteImports oldName newName content
    if newContent ≠ content then
      if !config.DryRun then
        if writeOk then (some newContent, some true) else (none, none)
      else (none, some true)
    else (none, some false)

/-- Spec wording: the final segment of an import path, the text after the last `/`, or
the whole path. -/
def finalSegment (path : GoString) : GoString := (splitPath path).2

/-- Spec wording: the text `s` starts with `from`, white space, the quote `q`, the
quote-free `path` and the quote `q2`. -/
def ImportAt (q q2 : Nat) (path s : GoString) : Prop :=
  ∃ ws post, s = str "from" ++ ws ++ [q] ++ path ++ [q2] ++ post ∧ ws ≠ [] ∧
    (∀ c ∈ ws, isSpace c = true) ∧ (∀ c ∈ path, isQuote c = false)

/-- Spec wording: no `from '<path>'` or `from "<path>"` occurrence of the content has a
path whose final segment is exactly `oldName`. -/
def NoExactImport (oldName content : GoString) : Prop :=
  ∀ (pre s : GoString) (q : Nat) (path : GoString), content = pre ++ s →
    isQuote q = true → ImportAt q q path s → finalSegment path ≠ oldName

/-! ### Exclusion by imports (`shouldExcludeByImports`) -/

/-- The first test of `shouldExcludeByImports`: the path contains `/_components/` or
`\\_components\\`, and contains `.tsx` or `.jsx`. -/
def isComponentsFile (filePath : GoString) : Bool :=
  (containsSub filePath (str "/_components/") ||
      containsSub filePath (str "\\_components\\")) &&
    (containsSub filePath (str ".tsx") || containsSub filePath (str ".jsx"))

/-- The function `shouldExcludeByImports` of `converter.go`: the returned flag, the
returned import path, and whether an error is returned.  `read` is `os.ReadFile`
(`none` on failure); `findImports content` is the list of the paths captured by the
library call `importRegex.FindAllStringSubmatch(content, -1)`, in the order of the file,
which `findAllImports` computes. -/
def shouldExcludeByImports (read : GoString → Option GoString)
    (findImports : GoString → List GoString) (filePath : GoString)
    (excludeImportPatterns : List GoString) : Bool × GoString × Bool :=
  if isComponentsFile filePath then (false, [], false)
  else
    match read filePath with
    | none => (false, [], true)
    | some content =>
      match (findImports content).find?
          (fun importPath =>
            excludeImportPatterns.any (fun pattern => containsSub importPath pattern)) with
      | some importPath => (true, importPath, false)
      | none => (false, [], false)

/-- The library function `strings.Split(path, "/")`: the elements of a path. -/
def pathElements : GoString → List GoString
  | [] => [[]]
  | c :: cs =>
    if c = 47 then [] :: pathElements cs
    else
      match pathElements cs with
      | [] => [[c]]
      | e :: es => (c :: e) :: es

/-- Spec wording: a `.tsx` or `.jsx` file under a `_components` directory, that is, with
one of these extensions and a directory named `_components` among the elements of its
path before the file name. -/
def isFileUnderComponents (filePath : GoString) : Bool :=
  (fileExtOf filePath == str ".tsx" || fileExtOf filePath == str ".jsx") &&
    (pathElements filePath).dropLast.contains (str "_components")

/-! ### The pattern `importRegex` -/

/-- The ways `\s+` can match at the head of `s`, in the order the matcher prefers them:
the text left after the longest run of white space, then after the shorter ones, down to
one byte of white space. -/
def spaceOptions (s : GoString) : List GoString :=
  ((List.range (s.takeWhile isSpace).length).map (fun k => s.drop (k + 1))).reverse

/-- The ways the group `(?:{[^}]*}|[^{;]*)` can match at the head of `s`, in the order
the matcher prefers them: a brace group up to its first `}`, then the prefixes without
`{` and `;`, longest first; each is given by the text left after it. -/
def clauseOptions (s : GoString) : List GoString :=
  (match s with
    | 123 :: t =>
      match t.dropWhile (fun c => c != 125) with
      | _ :: rest => [rest]
      | [] => []
    | _ => []) ++
  ((List.range ((s.takeWhile (fun c => c != 123 && c != 59)).length + 1)).map
    (fun k => s.drop k)).reverse

/-- The end of the pattern, `\s+from\s+['"]([^'"]+)['"]`, at the head of `s`: the captured
path and the text after the match. -/
def matchFromClause (s : GoString) : Option (GoString × GoString) :=
  if s.takeWhile isSpace ≠ [] ∧ hasPrefix (s.dropWhile isSpace) (str "from") then
    match ((s.dropWhile isSpace).drop 4).dropWhile isSpace with
    | q :: t =>
      if ((s.dropWhile isSpace).drop 4).takeWhile isSpace ≠ [] ∧ isQuote q = true then
        match t.dropWhile (fun c => !isQuote c) with
        | _ :: rest =>
          if t.takeWhile (fun c => !isQuote c) ≠ [] then
            some (t.takeWhile (fun c => !isQuote c), rest)
          else none
        | [] => none
      else none
    | [] => none
  else none

/-- A match of `importRegex`,
`(?m)^import\s+(?:{[^}]*}|[^{;]*)\s+from\s+['"]([^'"]+)['"]`, at the head of `s`, which
is at the start of a line: the first match a backtracking search finds, as the captured
path and the text after the match. -/
def matchImportStmt (s : GoString) : Option (GoString × GoString) :=
  if hasPrefix s (str "import") then
    (spaceOptions (s.drop 6)).findSome? (fun afterSpace =>
      (clauseOptions afterSpace).findSome? matchFromClause)
  else none

/-- The search of `importRegex.FindAllStringSubmatch(content, -1)` from the suffix `s`:
the captured paths of the successive matches, each search starting where the match before
ended.  `atLineStart` tells whether `s` begins the text or follows a newline; the first
argument bounds the number of steps. -/
def findImportsLoop : Nat → Bool → GoString → List GoString
  | 0, _, _ => []
  | _ + 1, _, [] => []
  | fuel + 1, atLineStart, c :: cs =>
    match (if atLineStart then matchImportStmt (c :: cs) else none) with
    | some (path, rest) => path :: findImportsLoop fuel false rest
    | none => findImportsLoop fuel (c == 10) cs

/-- The import paths of a file content: `match[1]` of every match the library call
`FindAllStringSubmatch(content, -1)` of `importRegex` gives, in the order of the file. -/
def findAllImports (content : GoString) : List GoString :=
  findImportsLoop content.length true content

/-! ### Directory trees and `filepath.Walk` -/

mutual
/-- A directory tree as `filepath.Walk` reads it: a file, or a directory with its entries
in the order of their names. -/
inductive Tree where
  | file (name : GoString)
  | dir (name : GoString) (entries : Forest)
/-- The entries of a directory. -/
inductive Forest where
  | nil
  | cons (entry : Tree) (more : Forest)
end

/-- The name of a directory entry. -/
def Tree.name : Tree → GoString
  | Tree.file name => name
  | Tree.dir name _ => name

/-- The library function `filepath.Base`. -/
def pathBase (path : GoString) : GoString :=
  if path = [] then [46]
  else
    let trimmed := (path.reverse.dropWhile (fun c => c == 47)).reverse
    let last := fileNameRev trimmed.reverse []
    if last = [] then [47] else last

/-- The path `filepath.Join(path, name)` that `filepath.Walk` gives to an entry `name` of
the directory `path` (a clean path and a plain name). -/
def joinName (path name : GoString) : GoString :=
  if path.getLast? = some 47 then path ++ name else path ++ 47 :: name

/-- The function `isExcludedDir` of `utils.go`. -/
def isExcludedDir (name : GoString) : Bool :=
  [str "node_modules", str "dist", str "build", str ".git", str ".next"].contains name ||
    (hasPrefix name [46] && name != [46])

/-- The directory test of the walk callbacks: `isExcludedDir(base)` or `base` equal to an
entry of `config.ExcludeDirectories`; the callback then returns `filepath.SkipDir`. -/
def skipsDir (config : Config) (base : GoString) : Bool :=
  isExcludedDir base || config.ExcludeDirectories.any (fun excludeDir => base == excludeDir)

/-- The extension test `ext == ".tsx" || ext == ".jsx"` on `filepath.Ext(path)`. -/
def isTsxJsx (path : GoString) : Bool :=
  fileExtOf path == str ".tsx" || fileExtOf path == str ".jsx"

mutual
/-- The walk of `findTsxJsxFiles` from `path`: the callback on the node, then, unless it
returned `filepath.SkipDir`, the walk of the entries. -/
def walkTsxJsx (config : Config) (path : GoString) : Tree → List GoString
  | Tree.file _ => if isTsxJsx path then [path] else []
  | Tree.dir _ entries =>
    if skipsDir config (pathBase path) then [] else walkTsxJsxEntries config path entries
/-- The loop of `filepath.Walk` over the entries of the directory `path`. -/
def walkTsxJsxEntries (config : Config) (path : GoString) : Forest → List GoString
  | Forest.nil => []
  | Forest.cons entry more =>
    walkTsxJsx config (joinName path entry.name) entry ++ walkTsxJsxEntries config path more
end

/-- The function `findTsxJsxFiles` of `converter.go` on the tree found at `rootDir`. -/
def findTsxJsxFiles (rootDir : GoString) (config : Config) (tree : Tree) : List GoString :=
  walkTsxJsx config rootDir tree

mutual
/-- Spec wording: every file of the tree at `path`, with the base names of the directories
it lies in or below (`above` holds those of the directories above `path`). -/
def allFiles (path : GoString) (above : List GoString) :
    Tree → List (GoString × List GoString)
  | Tree.file _ => [(path, above)]
  | Tree.dir _ entries => allFilesEntries path (above ++ [pathBase path]) entries
/-- Spec wording: the files of the entries of the directory `path`. -/
def allFilesEntries (path : GoString) (above : List GoString) :
    Forest → List (GoString × List GoString)
  | Forest.nil => []
  | Forest.cons entry more =>
    allFiles (joinName path entry.name) above entry ++ allFilesEntries path above more
end

/-- Spec wording: a directory base name is pruned when it is `node_modules`, `dist`,
`build`, `.git` or `.next`, starts with a dot (other than `.`), or is an entry of
`config.ExcludeDirectories`. -/
def isPrunedName (config : Config) (base : GoString) : Prop :=
  base = str "node_modules" ∨ base = str "dist" ∨ base = str "build" ∨ base = str ".git" ∨
    base = str ".next" ∨ ((∃ rest, base = 46 :: rest) ∧ base ≠ [46]) ∨
    base ∈ config.ExcludeDirectories

/-- The tree of the converter test suite below `components`. -/
def sampleTree : Tree :=
  Tree.dir (str "components")
    (Forest.cons (Tree.dir (str ".cache") (Forest.cons (Tree.file (str "Old.tsx")) Forest.nil))
    (Forest.cons (Tree.dir (str "common")
      (Forest.cons (Tree.file (str "Button.tsx"))
      (Forest.cons (Tree.dir (str "IconButton")
        (Forest.cons (Tree.file (str "index.tsx")) Forest.nil))
      (Forest.cons (Tree.file (str "helpers.ts"))
      (Forest.cons (Tree.file (str "input-field.tsx")) Forest.nil)))))
    (Forest.cons (Tree.dir (str "node_modules")
      (Forest.cons (Tree.file (str "Lib.jsx")) Forest.nil))
    (Forest.cons (Tree.file (str "README.md")) Forest.nil))))

/-! ### The run of `processFiles` -/

/-- The digits of `fmt.Sprintf("%d", n)` for a number that is not negative; the first
argument bounds the number of digits. -/
def decimalDigits : Nat → Nat → GoString
  | 0, _ => []
  | fuel + 1, n =>
    if n < 10 then [48 + n] else decimalDigits fuel (n / 10) ++ [48 + n % 10]

/-- The text of `fmt.Sprintf("%d", n)`. -/
def decimal (n : Nat) : GoString := decimalDigits (n + 1) n

/-- The name `fmt.Sprintf("_temp_%s_%d", dirName, nanos)` of the temporary directory. -/
def tempDirName (dirName : GoString) (nanos : Nat) : GoString :=
  str "_temp_" ++ dirName ++ [95] ++ decimal nanos

/-- The library function `filepath.Dir` on a clean path: the directory part without its
final `/`, `.` when there is none, `/` for an entry of the root. -/
def pathDir (path : GoString) : GoString :=
  let dir := (splitPath path).1
  let trimmed := (dir.reverse.dropWhile (fun c => c == 47)).reverse
  if dir = [] then [46] else if trimmed = [] then [47] else trimmed

/-- The test `filepath.Base(path) == "index.tsx" || filepath.Base(path) == "index.jsx"`. -/
def isIndexFile (path : GoString) : Bool :=
  pathBase path == str "index.tsx" || pathBase path == str "index.jsx"

mutual
/-- The walk of `findDirectoryComponents` from `path`; `found` is the list `dirComponents`
collected so far. -/
def walkDirComponents (config : Config) (path : GoString) (found : List GoString) :
    Tree → List GoString
  | Tree.file _ =>
    if isIndexFile path then
      if found.contains (pathDir path) then found else found ++ [pathDir path]
    else found
  | Tree.dir _ entries =>
    if skipsDir config (pathBase path) then found
    else walkDirComponentsEntries config path found entries
/-- The loop of `filepath.Walk` over the entries of the directory `path`. -/
def walkDirComponentsEntries (config : Config) (path : GoString) (found : List GoString) :
    Forest → List GoString
  | Forest.nil => found
  | Forest.cons entry more =>
    walkDirComponentsEntries config path
      (walkDirComponents config (joinName path entry.name) found entry) more
end

/-- The function `findDirectoryComponents` of `converter.go` on the tree found at
`rootDir`. -/
def findDirectoryComponents (rootDir : GoString) (config : Config) (tree : Tree) :
    List GoString :=
  walkDirComponents config rootDir [] tree

/-- The surroundings of a run over states `σ` of the file system: `stat`, `readFile`,
`writeFile` and `rename` are `os.Stat`, `os.ReadFile`, `os.WriteFile` and `os.Rename`
(the two changing calls return the state they leave and whether they succeeded),
`treeAt` is the tree `filepath.Walk` finds at a root (`none` when the root cannot be
read), `now` is `time.Now().UnixNano()`, `join` is `filepath.Join` and `findImports` the
paths captured by `importRegex`. -/
structure World (σ : Type) where
  stat : σ → GoString → Bool
  readFile : σ → GoString → Option GoString
  writeFile : σ → GoString → GoString → σ × Bool
  rename : σ → GoString → GoString → σ × Bool
  treeAt : σ → GoString → Option Tree
  now : σ → Nat
  join : GoString → GoString → GoString
  findImports : GoString → List GoString

/-- The surroundings `processFileName` and `processDirComponent` see in the state `st`. -/
def World.env {σ : Type} (w : World σ) (st : σ) : Env :=
  { stat := w.stat st, join := w.join }

/-- The variables of `processFiles` during the loops: the state of the file system, the
counters in `conversionResult`, the list `results`, and whether a panic has ended the
run. -/
structure Run (σ : Type) where
  state : σ
  counts : ConversionResult
  results : List ConversionResult
  panicked : Bool

/-- The value `ConversionResult{}`. -/
def emptyResult : ConversionResult :=
  { OldPath := [], NewPath := [], OldBaseName := [], NewBaseName := [], TargetDir := [],
    TotalFiles := 0, ProcessedFiles := 0, SkippedFiles := 0, ErrorFiles := 0,
    ImportUpdateFiles := [] }

/-- The statement `conversionResult.SkippedFiles++`. -/
def Run.skipped {σ : Type} (r : Run σ) : Run σ :=
  { r with counts := { r.counts with SkippedFiles := r.counts.SkippedFiles + 1 } }

/-- The statement `conversionResult.ErrorFiles++`, in the state `st`. -/
def Run.errored {σ : Type} (r : Run σ) (st : σ) : Run σ :=
  { r with state := st, counts := { r.counts with ErrorFiles := r.counts.ErrorFiles + 1 } }

/-- The statements `results = append(results, *result)` and
`conversionResult.ProcessedFiles++`, in the state `st`. -/
def Run.processed {σ : Type} (r : Run σ) (st : σ) (result : ConversionResult) : Run σ :=
  { r with state := st,
           counts := { r.counts with ProcessedFiles := r.counts.ProcessedFiles + 1 },
           results := r.results ++ [result] }

/-- What the body of the file loop decides before any renaming. -/
inductive Decision where
  | ignored
  | skip
  | convert (result : ConversionResult)
  | panic
  deriving DecidableEq

/-- The decision of the body of the file loop in the state `st`: an index file is passed
over without counting, a file is skipped by an exclusion pattern, by its imports or by an
error of `processFileName`, or it is to be renamed. -/
def fileDecision {σ : Type} (w : World σ) (config : Config) (st : σ) (file : GoString) :
    Decision :=
  if isIndexFile file then Decision.ignored
  else if config.ExcludePatterns.any (fun pattern => containsSub (pathBase file) pattern) then
    Decision.skip
  else if decide (config.ExcludeImportPatterns.length > 0) &&
      (shouldExcludeByImports (w.readFile st) w.findImports file
        config.ExcludeImportPatterns).1 then
    Decision.skip
  else
    match processFileName (w.env st) file config with
    | Outcome.ok result => Decision.convert result
    | Outcome.error _ => Decision.skip
    | Outcome.panic => Decision.panic

/-- The body of the loop `for _, file := range files` of `processFiles`. -/
def fileStep {σ : Type} (w : World σ) (config : Config) (r : Run σ) (file : GoString) :
    Run σ :=
  if r.panicked then r
  else
    match fileDecision w config r.state file with
    | Decision.ignored => r
    | Decision.skip => r.skipped
    | Decision.panic => { r with panicked := true }
    | Decision.convert result =>
      if !config.DryRun then
        match w.rename r.state result.OldPath result.NewPath with
        | (st, true) => r.processed st result
        | (st, false) => r.errored st
      else r.processed r.state result

/-- The decision of the body of the directory loop in the state `st`
(`processDirComponent` has no panic). -/
def dirDecision {σ : Type} (w : World σ) (config : Config) (st : σ) (dirPath : GoString) :
    Decision :=
  match processDirComponent (w.env st) dirPath config with
  | Outcome.ok result => Decision.convert result
  | Outcome.error _ => Decision.skip
  | Outcome.panic => Decision.panic

/-- The body of the loop `for _, dirPath := range dirComponents` of `processFiles`: in
apply mode the directory is moved to a temporary sibling, then to its new path, and moved
back when the second move fails. -/
def dirStep {σ : Type} (w : World σ) (config : Config) (r : Run σ) (dirPath : GoString) :
    Run σ :=
  if r.panicked then r
  else
    match dirDecision w config r.state dirPath with
    | Decision.ignored => r
    | Decision.skip => r.skipped
    | Decision.panic => { r with panicked := true }
    | Decision.convert result =>
      if !config.DryRun then
        match w.rename r.state dirPath
            (w.join (pathDir dirPath) (tempDirName (pathBase dirPath) (w.now r.state))) with
        | (st1, false) => r.errored st1
        | (st1, true) =>
          match w.rename st1
              (w.join (pathDir dirPath) (tempDirName (pathBase dirPath) (w.now r.state)))
              result.NewPath with
          | (st2, false) =>
            r.errored (w.rename st2
              (w.join (pathDir dirPath) (tempDirName (pathBase dirPath) (w.now r.state)))
              dirPath).1
          | (st2, true) => r.processed st2 result
      else r.processed r.state result

/-- One call `updateImportPaths(file, result.OldBaseName, result.NewBaseName, config)` of
the import pass, with the file read and written in the state of the file system: the
state it leaves and whether an update was reported for the file so far. -/
def importStep {σ : Type} (w : World σ) (config : Config) (file : GoString)
    (acc : σ × Bool) (result : ConversionResult) : σ × Bool :=
  match w.readFile acc.1 file with
  | none => acc
  | some content =>
    if rewriteImports result.OldBaseName result.NewBaseName content ≠ content then
      if !config.DryRun then
        match w.writeFile acc.1 file
            (rewriteImports result.OldBaseName result.NewBaseName content) with
        | (st, true) => (st, true)
        | (st, false) => (st, acc.2)
      else (acc.1, true)
    else acc

/-- The import pass over the files of the project: the state it leaves and the files for
which an update was reported (in the order of the walk; the program collects them in a
map, whose order is not fixed). -/
def importPass {σ : Type} (w : World σ) (config : Config) (results : List ConversionResult)
    (acc : σ × List GoString) (file : GoString) : σ × List GoString :=
  ((results.foldl (importStep w config file) (acc.1, false)).1,
    if (results.foldl (importStep w config file) (acc.1, false)).2 then acc.2 ++ [file]
    else acc.2)

/-- The two loops of `processFiles` over the files and the directory components found. -/
def runLoops {σ : Type} (w : World σ) (config : Config) (files dirComponents : List GoString)
    (start : Run σ) : Run σ :=
  dirComponents.foldl (dirStep w config) (files.foldl (fileStep w config) start)

/-- The end of `processFiles` after the two loops: the import pass over the files of the
project when something was converted, and the returned value. -/
def finishRun {σ : Type} (w : World σ) (root : GoString) (config : Config) (done : Run σ) :
    Outcome ConversionResult × σ :=
  if done.panicked then (Outcome.panic, done.state)
  else if done.results.length > 0 then
    match w.treeAt done.state (w.join root (pathDir config.TargetDir)) with
    | none => (Outcome.ok done.counts, done.state)
    | some projectTree =>
      (Outcome.ok
        { done.counts with
            ImportUpdateFiles :=
              ((findTsxJsxFiles (w.join root (pathDir config.TargetDir)) config
                projectTree).foldl (importPass w config done.results) (done.state, [])).2 },
       ((findTsxJsxFiles (w.join root (pathDir config.TargetDir)) config
          projectTree).foldl (importPass w config done.results) (done.state, [])).1)
  else (Outcome.ok done.counts, done.state)

/-- The variables of `processFiles` before the loops, with `TotalFiles` set. -/
def startRun {σ : Type} (config : Config) (files dirComponents : List GoString) (st : σ) :
    Run σ :=
  { state := st,
    counts :=
      { emptyResult with
          TargetDir := config.TargetDir,
          TotalFiles := (files.length : Int) + (dirComponents.length : Int) },
    results := [], panicked := false }

/-- The function `processFiles` of `converter.go` (printing left out): the returned
`ConversionResult`, or the panic that ended the run, and the state of the file system it
leaves.  `projectRoot` is the answer of `findProjectRoot`, `none` for an error. -/
def processFiles {σ : Type} (w : World σ) (projectRoot : Option GoString) (config : Config)
    (st : σ) : Outcome ConversionResult × σ :=
  match projectRoot with
  | none => (Outcome.ok emptyResult, st)
  | some root =>
    match w.treeAt st (w.join root config.TargetDir) with
    | none => (Outcome.ok { emptyResult with TargetDir := config.TargetDir }, st)
    | some tree =>
      if (startRun config (findTsxJsxFiles (w.join root config.TargetDir) config tree)
          (findDirectoryComponents (w.join root config.TargetDir) config tree)
          st).counts.TotalFiles = 0 then
        (Outcome.ok
          (startRun config (findTsxJsxFiles (w.join root config.TargetDir) config tree)
            (findDirectoryComponents (w.join root config.TargetDir) config tree) st).counts,
         st)
      else
        finishRun w root config
          (runLoops w config (findTsxJsxFiles (w.join root config.TargetDir) config tree)
            (findDirectoryComponents (w.join root config.TargetDir) config tree)
            (startRun config (findTsxJsxFiles (w.join root config.TargetDir) config tree)
              (findDirectoryComponents (w.join root config.TargetDir) config tree) st))

/-! ### Directory lists (`analyzer.go`) -/

/-- Byte-wise comparison `a <= b` of Go strings, the order of `sort.Strings`. -/
def lexLe : GoString → GoString → Bool
  | [], _ => true
  | _ :: _, [] => false
  | a :: as, b :: bs => decide (a < b) || (a == b && lexLe as bs)

/-- The inner loop of `removeChildDirectories`: is the entry `dir` at index `i` a child of
another entry (an entry at an index other than `i` followed by `/` is a prefix of it). -/
def isChildAt (directories : List GoString) (i : Nat) (dir : GoString) : Bool :=
  directories.enum.any (fun jp => jp.1 != i && hasPrefix dir (jp.2 ++ [47]))

/-- The function `removeChildDirectories` of `analyzer.go`.  The library call `sort.Slice`
(by length, not stable) is the parameter `sortSlice`; `sort.Strings` is the sort by
`lexLe`. -/
def removeChildDirectories (sortSlice : List GoString → List GoString)
    (directories : List GoString) : List GoString :=
  if directories.length ≤ 1 then directories
  else
    let sorted := sortSlice directories
    List.insertionSort (fun a b => lexLe a b = true)
      ((sorted.enum.filter (fun id => !isChildAt sorted id.1 id.2)).map Prod.snd)

/-- A stand-in for `sort.Slice` by length: insertion sort on the lengths. -/
def sortByLength (l : List GoString) : List GoString :=
  List.insertionSort (fun a b => a.length ≤ b.length) l

/-- Spec wording: an entry is kept when no entry `p` of the list makes it start with
`p + "/"`. -/
def hasListedAncestor (directories : List GoString) (d : GoString) : Bool :=
  directories.any (fun p => hasPrefix d (p ++ [47]))

/-! ### The two modes of a run -/

/-- The configuration `config` with the field `DryRun` set to `dryRun`. -/
def withDryRun (config : Config) (dryRun : Bool) : Config :=
  { config with DryRun := dryRun }

/-- The counts `ProcessedFiles` and `SkippedFiles` a run reports; nothing is reported by a
run that a panic ended. -/
def reportedCounts : Outcome ConversionResult → Option (Int × Int)
  | Outcome.ok result => some (result.ProcessedFiles, result.SkippedFiles)
  | _ => none

/-- The path `tempDir` of the directory loop for `dirPath` in the state `st`. -/
def tempDirPath {σ : Type} (w : World σ) (st : σ) (dirPath : GoString) : GoString :=
  w.join (pathDir dirPath) (tempDirName (pathBase dirPath) (w.now st))

/-- The rename of the file loop succeeds in the state `st` for what was decided. -/
def fileRenameOk {σ : Type} (w : World σ) (st : σ) : Decision → Bool
  | Decision.convert result => (w.rename st result.OldPath result.NewPath).2
  | _ => true

/-- Both renames of the directory loop succeed in the state `st` for what was decided. -/
def dirRenameOk {σ : Type} (w : World σ) (st : σ) (dirPath : GoString) : Decision → Bool
  | Decision.convert result =>
    (w.rename st dirPath (tempDirPath w st dirPath)).2 &&
      (w.rename (w.rename st dirPath (tempDirPath w st dirPath)).1
        (tempDirPath w st dirPath) result.NewPath).2
  | _ => true

/-- The file loop from `r` over `files` is steady with respect to the state `initial`:
each file the loop reaches is decided in the state reached as it is decided in `initial`,
and the rename of a file to convert succeeds. -/
def steadyFiles {σ : Type} (w : World σ) (config : Config) (initial : σ) :
    Run σ → List GoString → Bool
  | _, [] => true
  | r, file :: rest =>
    (r.panicked ||
      (decide (fileDecision w config r.state file = fileDecision w config initial file) &&
        fileRenameOk w r.state (fileDecision w config r.state file))) &&
    steadyFiles w config initial (fileStep w config r file) rest

/-- The directory loop from `r` over `dirComponents` is steady with respect to the state
`initial`, in the sense of `steadyFiles`. -/
def steadyDirs {σ : Type} (w : World σ) (config : Config) (initial : σ) :
    Run σ → List GoString → Bool
  | _, [] => true
  | r, dirPath :: rest =>
    (r.panicked ||
      (decide (dirDecision w config r.state dirPath = dirDecision w config initial dirPath) &&
        dirRenameOk w r.state dirPath (dirDecision w config r.state dirPath))) &&
    steadyDirs w config initial (dirStep w config r dirPath) rest

/-- The apply run of `processFiles` from the state `st` is steady: no rename fails, and
every file and directory component is decided, when its loop reaches it, as it is decided
in `st`. -/
def steadyRun {σ : Type} (w : World σ) (projectRoot : Option GoString) (config : Config)
    (st : σ) : Bool :=
  match projectRoot with
  | none => true
  | some root =>
    match w.treeAt st (w.join root config.TargetDir) with
    | none => true
    | some tree =>
      steadyFiles w (withDryRun config false) st
        (startRun config (findTsxJsxFiles (w.join root config.TargetDir) config tree)
          (findDirectoryComponents (w.join root config.TargetDir) config tree) st)
        (findTsxJsxFiles (w.join root config.TargetDir) config tree) &&
      steadyDirs w (withDryRun config false) st
        ((findTsxJsxFiles (w.join root config.TargetDir) config tree).foldl
          (fileStep w (withDryRun config false))
          (startRun config (findTsxJsxFiles (w.join root config.TargetDir) config tree)
            (findDirectoryComponents (w.join root config.TargetDir) config tree) st))
        (findDirectoryComponents (w.join root config.TargetDir) config tree)

/-! ### A file system of path lists, for concrete runs -/

/-- A state of a file system: the files with their contents, the directories, the paths
`os.Rename` refuses as a destination, and the clock. -/
structure FlatFS where
  files : List (GoString × GoString)
  dirs : List GoString
  denied : List GoString
  clock : Nat
  deriving DecidableEq

/-- The paths that exist. -/
def FlatFS.paths (fs : FlatFS) : List GoString := fs.dirs ++ fs.files.map Prod.fst

/-- Does `os.Stat(p)` succeed. -/
def FlatFS.stat (fs : FlatFS) (p : GoString) : Bool := fs.paths.contains p

/-- The content `os.ReadFile(p)` returns. -/
def FlatFS.readFile (fs : FlatFS) (p : GoString) : Option GoString := fs.files.lookup p

/-- The call `os.WriteFile(p, content, 0644)`: the file is replaced, or created. -/
def FlatFS.writeFile (fs : FlatFS) (p content : GoString) : FlatFS × Bool :=
  if fs.dirs.contains p then (fs, false)
  else if fs.files.any (fun e => e.1 == p) then
    ({ fs with files := fs.files.map (fun e => if e.1 == p then (p, content) else e) }, true)
  else ({ fs with files := fs.files ++ [(p, content)] }, true)

/-- Where the path `p` is after `old` has been moved to `new`. -/
def movePath (old new p : GoString) : GoString :=
  if p = old then new
  else if hasPrefix p (old ++ [47]) then new ++ p.drop old.length
  else p

/-- The call `os.Rename(old, new)`: it fails when `old` does not exist, when `new` is
refused or is another directory, and when a directory is to replace a file; a file that
is in the way of a file is replaced. -/
def FlatFS.rename (fs : FlatFS) (old new : GoString) : FlatFS × Bool :=
  if !fs.stat old || fs.denied.contains new || (fs.dirs.contains new && new != old) ||
      (fs.dirs.contains old && fs.files.any (fun e => e.1 == new)) then (fs, false)
  else
    ({ fs with
        files := (fs.files.filter (fun e => e.1 != new || e.1 == old)).map
          (fun e => (movePath old new e.1, e.2)),
        dirs := fs.dirs.map (movePath old new) }, true)

/-- One step of the sort of names. -/
def insertName (name : GoString) : List GoString → List GoString
  | [] => [name]
  | other :: rest =>
    if lexLe name other then name :: other :: rest else other :: insertName name rest

/-- The names in the order `os.ReadDir` gives them. -/
def sortNames (names : List GoString) : List GoString := names.foldr insertName []

/-- The names of the entries of the directory `dir`. -/
def FlatFS.entryNames (fs : FlatFS) (dir : GoString) : List GoString :=
  sortNames
    ((fs.paths.filter (fun p =>
        hasPrefix p (dir ++ [47]) && p.drop (dir.length + 1) != [] &&
          !(p.drop (dir.length + 1)).contains 47)).map
      (fun p => p.drop (dir.length + 1)))

/-- The entries of a directory as a `Forest`. -/
def forestOf : List Tree → Forest
  | [] => Forest.nil
  | entry :: more => Forest.cons entry (forestOf more)

/-- The tree at `path`, named `name`; the first argument bounds its depth. -/
def FlatFS.tree : Nat → FlatFS → GoString → GoString → Tree
  | 0, _, _, name => Tree.file name
  | depth + 1, fs, path, name =>
    if fs.dirs.contains path then
      Tree.dir name
        (forestOf ((fs.entryNames path).map
          (fun entry => FlatFS.tree depth fs (path ++ 47 :: entry) entry)))
    else Tree.file name

/-- The file system of path lists as surroundings of a run; the depth of a tree is at
most the number of directories. -/
def flatWorld : World FlatFS :=
  { stat := FlatFS.stat,
    readFile := FlatFS.readFile,
    writeFile := FlatFS.writeFile,
    rename := FlatFS.rename,
    treeAt := fun fs root =>
      if fs.stat root then some (FlatFS.tree (fs.dirs.length + 1) fs root (pathBase root))
      else none,
    now := FlatFS.clock,
    join := fun dir name =>
      if name = [] ∨ name = [46] then dir
      else if dir = [] then name
      else if dir.getLast? = some 47 then dir ++ name else dir ++ 47 :: name,
    findImports := findAllImports }

/-- A state with the given files, each with the content `text`, and directories. -/
def flatState (files dirs denied : List GoString) (text : GoString) : FlatFS :=
  { files := files.map (fun p => (p, text)), dirs := dirs, denied := denied, clock := 7 }

/-- The configuration of the runs below: the directory `components` of the project is
converted to kebab-case, with no exclusions. -/
def componentsConfig : Config :=
  { plainConfig (str "camel-to-kebab") with TargetDir := str "components" }

/-- The project `/p` with the directory component `components/common/IconButton` and the
file `components/pages/home.tsx` that imports it; `denied` are the destinations
`os.Rename` refuses. -/
def iconButtonState (denied : List GoString) : FlatFS :=
  { files :=
      [(str "/p/components/common/IconButton/index.tsx", str "export default 1"),
       (str "/p/components/pages/home.tsx",
        str "import IconButton from \x27../common/IconButton\x27")],
    dirs :=
      [str "/p", str "/p/components", str "/p/components/common",
       str "/p/components/common/IconButton", str "/p/components/pages"],
    denied := denied, clock := 7 }

/-- The project `/p` with the two files `UserID.tsx` and `UserId.tsx` in `components`. -/
def sameTargetState : FlatFS :=
  flatState [str "/p/components/UserID.tsx", str "/p/components/UserId.tsx"]
    [str "/p", str "/p/components"] [] (str "export default 1")

/-- The directory component of `iconButtonState`. -/
def iconButtonDir : GoString := str "/p/components/common/IconButton"

/-- The result `processDirComponent` gives for `iconButtonDir`. -/
def iconButtonResult : ConversionResult :=
  { emptyResult with
      OldPath := iconButtonDir, NewPath := str "/p/components/common/icon-button",
      OldBaseName := str "IconButton", NewBaseName := str "icon-button" }

/-- The state `iconButtonState []` with the directory component at its new path, the
text of `home.tsx` not yet rewritten. -/
def iconButtonMoved : FlatFS :=
  { files :=
      [(str "/p/components/common/icon-button/index.tsx", str "export default 1"),
       (str "/p/components/pages/home.tsx",
        str "import IconButton from \x27../common/IconButton\x27")],
    dirs :=
      [str "/p", str "/p/components", str "/p/components/common",
       str "/p/components/common/icon-button", str "/p/components/pages"],
    denied := [], clock := 7 }

/-- The variables of a run in the state `st` before anything was counted. -/
def freshRun {σ : Type} (st : σ) : Run σ :=
  { state := st, counts := emptyResult, results := [], panicked := false }

/-- The dry run `d` and the apply run `a` are in step: the dry run is in the state
`initial`, both runs have panicked or neither has, and their counts of processed and of
skipped entities agree. -/
def InStep {σ : Type} (initial : σ) (d a : Run σ) : Prop :=
  d.state = initial ∧ d.panicked = a.panicked ∧
    d.counts.ProcessedFiles = a.counts.ProcessedFiles ∧
    d.counts.SkippedFiles = a.counts.SkippedFiles

/-! ### The checker of `camelcase-finder` -/

/-- The function `isCamelCase` of `camelcase-finder/main.go`.  Its loop that looks for a
lowercase letter is kept, although both of its outcomes return true. -/
def Finder.isCamelCase (s : GoString) : Bool :=
  match s with
  | [] => false
  | firstChar :: _ =>
    if !isUpper firstChar then false
    else if s.contains 45 then false
    else if s.contains 95 then false
    else if !s.any isLower then true
    else true

/-- Spec wording: a token of two or more lowercase ASCII letters. -/
def isLetterToken (t : GoString) : Bool := decide (2 ≤ t.length) && t.all isLower

/-- Spec wording: the text after an uppercase word ends that word: it is empty, or starts
with a byte that is no ASCII letter, or starts with an uppercase letter followed by a
lowercase one (the letter that is given to the following word). -/
def endsRun : GoString → Bool
  | [] => true
  | c :: rest =>
    if isUpper c then
      match rest with
      | l :: _ => isLower l
      | [] => false
    else !isLower c

/-- The result of `processFileName` for `src/Button.tsx` in the direction
`camel-to-kebab`. -/
def buttonResult : ConversionResult :=
  { emptyResult with
      OldPath := str "src/Button.tsx", NewPath := str "src/button.tsx",
      OldBaseName := str "Button", NewBaseName := str "button" }

/-- The result of `processDirComponent` for `src/icon-button` in the direction
`kebab-to-camel`. -/
def iconButtonCamelResult : ConversionResult :=
  { emptyResult with
      OldPath := str "src/icon-button", NewPath := str "src/IconButton",
      OldBaseName := str "icon-button", NewBaseName := str "IconButton" }

/-- The tree `filepath.Walk` finds at `/p/components` in the state `iconButtonState`. -/
def iconButtonTree : Tree :=
  Tree.dir (str "components")
    (Forest.cons
      (Tree.dir (str "common")
        (Forest.cons
          (Tree.dir (str "IconButton")
            (Forest.cons (Tree.file (str "index.tsx")) Forest.nil))
          Forest.nil))
      (Forest.cons
        (Tree.dir (str "pages") (Forest.cons (Tree.file (str "home.tsx")) Forest.nil))
        Forest.nil))

/-- What the apply run over `iconButtonState []` returns. -/
def iconButtonCounts : ConversionResult :=
  { emptyResult with
      TargetDir := str "components", TotalFiles := 3, ProcessedFiles := 1,
      SkippedFiles := 1, ImportUpdateFiles := [str "/p/components/pages/home.tsx"] }

/-! ### The project of the converter test suite -/

/-- The project `SetupTest` of `converter_test.go` creates, at the root `/t`. -/
def testProject : FlatFS :=
  { files :=
      [(str "/t/components/common/Button.tsx",
        str "export const Button = () => <button>Click Me</button>;"),
       (str "/t/components/common/input-field.tsx",
        str "export const InputField = () => <input type=\x27text\x27 />"),
       (str "/t/components/features/UserProfile/AvatarImage.tsx",
        str "\nimport \x7b Button \x7d from \x27../common/Button\x27;\nexport const AvatarImage = () => <img src=\"avatar.png\" alt=\"avatar\" />;\n"),
       (str "/t/components/features/UserProfile/user-card.tsx",
        str "\nimport \x7b AvatarImage \x7d from \x27./AvatarImage\x27;\nimport \x7b InputField \x7d from \x27../common/input-field\x27;\nexport const UserCard = () => <div><AvatarImage /><InputField /></div>;\n"),
       (str "/t/utils/helpers.ts",
        str "export const formatName = (name: string) => name.toUpperCase();"),
       (str "/t/README.md", str "# Test Project"),
       (str "/t/components/common/IconButton/index.tsx",
        str "\nimport \x7b Button \x7d from \x27../Button\x27;\nexport const IconButton = (\x7b icon \x7d) => <Button>\x7bicon\x7d</Button>;\n"),
       (str "/t/components/features/user-avatar/index.tsx",
        str "\nimport \x7b IconButton \x7d from \x27../../common/IconButton\x27;\nexport const UserAvatar = (\x7b src \x7d) => <div><img src=\x7bsrc\x7d /><IconButton icon=\"edit\" /></div>;\n"),
       (str "/t/apps/web/app/AppLayout.tsx",
        str "\nexport const AppLayout = (\x7b children \x7d) => <div className=\"app-layout\">\x7bchildren\x7d</div>;\n"),
       (str "/t/apps/web/app/page-container.tsx",
        str "\nimport \x7b AppLayout \x7d from \x27./AppLayout\x27;\nexport const PageContainer = (\x7b content \x7d) => <AppLayout>\x7bcontent\x7d</AppLayout>;\n"),
       (str "/t/apps/admin/app/AdminDashboard.tsx",
        str "\nexport const AdminDashboard = () => <div>Admin Dashboard</div>;\n"),
       (str "/t/packages/ui/src/Theme.tsx",
        str "\nexport const Theme = (\x7b children \x7d) => <div className=\"theme-provider\">\x7bchildren\x7d</div>;\n"),
       (str "/t/packages/ui/src/button-styles.tsx",
        str "\nexport const buttonStyles = \x7b primary: \"bg-blue-500\", secondary: \"bg-gray-500\" \x7d;\n")],
    dirs :=
      [str "/t", str "/t/components", str "/t/components/common",
       str "/t/components/features", str "/t/components/features/UserProfile",
       str "/t/utils", str "/t/components/common/IconButton",
       str "/t/components/features/user-avatar", str "/t/apps", str "/t/apps/web",
       str "/t/apps/web/app", str "/t/apps/admin", str "/t/apps/admin/app",
       str "/t/packages", str "/t/packages/ui", str "/t/packages/ui/src"],
    denied := [], clock := 7 }

/-- The configuration `configActual` of `TestProcessFiles`. -/
def configActual : Config :=
  { plainConfig (str "camel-to-kebab") with TargetDir := str "components/common" }

/-- The file system of path lists on a volume that does not distinguish the case of
letters: `os.Stat` succeeds for a path that differs from an existing one only in case.
The other calls are those of `flatWorld`. -/
def foldWorld : World FlatFS :=
  { flatWorld with
      stat := fun fs p => fs.paths.any (fun existing => toLower existing == toLower p) }

/-- Spec wording: `out` is the text `s` with hyphens inserted and some ASCII uppercase
letters put in lower case, every other byte unchanged and in order. -/
inductive HyphensInserted : GoString → GoString → Prop
  | done : HyphensInserted [] []
  | hyphen (s out : GoString) : HyphensInserted s out → HyphensInserted s (45 :: out)
  | keep (c : Nat) (s out : GoString) :
    HyphensInserted s out → HyphensInserted (c :: s) (c :: out)
  | lower (c : Nat) (s out : GoString) :
    isUpper c = true → HyphensInserted s out → HyphensInserted (c :: s) (lowerByte c :: out)

/-! ## Basic facts about bytes and literals -/

theorem str_Index : str "Index" = [73, 110, 100, 101, 120] := by decide

theorem str_index : str "index" = [105, 110, 100, 101, 120] := by decide

theorem upperCaseAcronyms_eq : upperCaseAcronyms =
    [[65, 80, 73], [70, 65, 81], [85, 73], [73, 68], [85, 82, 76], [83, 68, 75], [67, 83, 83],
     [72, 84, 77, 76], [72, 84, 84, 80], [72, 84, 84, 80, 83], [74, 83, 79, 78], [88, 77, 76],
     [74, 87, 84], [83, 69, 79], [68, 88], [65, 73], [67, 84, 65]] := by decide

theorem isUpper_iff (c : Nat) : isUpper c = true ↔ 65 ≤ c ∧ c ≤ 90 := by
  simp [isUpper]

theorem isLower_iff (c : Nat) : isLower c = true ↔ 97 ≤ c ∧ c ≤ 122 := by
  simp [isLower]

theorem isDigit_iff (c : Nat) : isDigit c = true ↔ 48 ≤ c ∧ c ≤ 57 := by
  simp [isDigit]

theorem isLowerAlnum_iff (c : Nat) :
    isLowerAlnum c = true ↔ (97 ≤ c ∧ c ≤ 122) ∨ (48 ≤ c ∧ c ≤ 57) := by
  simp [isLowerAlnum, isLower_iff, isDigit_iff]

theorem isUpper_false_iff (c : Nat) : isUpper c = false ↔ c < 65 ∨ 90 < c := by
  rw [← Bool.not_eq_true, isUpper_iff]; omega

theorem isLower_false_iff (c : Nat) : isLower c = false ↔ c < 97 ∨ 122 < c := by
  rw [← Bool.not_eq_true, isLower_iff]; omega

/-! ## The classifiers -/

theorem all_isLower_not_mem (cs : GoString) (h : cs.all isLower = true) (x : Nat)
    (hx : x < 97) : x ∉ cs := by
  intro hmem
  have := (List.all_eq_true.mp h) x hmem
  rw [isLower_iff] at this
  omega

/-- Characterisation of `isCamelCase`: first byte in `A-Z`, no hyphen, no underscore. -/
theorem isCamelCase_iff (s : GoString) :
    isCamelCase s = true ↔
      ∃ c cs, s = c :: cs ∧ isUpper c = true ∧ 45 ∉ s ∧ 95 ∉ s := by
  cases s with
  | nil => simp [isCamelCase]
  | cons c cs =>
    simp only [isCamelCase]
    split_ifs with h1 h2 h3 h4 h5
    · rw [str_Index] at h1
      simp only [List.cons.injEq] at h1
      obtain ⟨rfl, rfl⟩ := h1
      simp [isUpper]
    · simp only [Bool.and_eq_true, decide_eq_true_eq] at h2
      obtain ⟨⟨-, hc⟩, hcs⟩ := h2
      have hc2 := (isUpper_iff c).mp hc
      have n45 := all_isLower_not_mem cs hcs 45 (by omega)
      have n95 := all_isLower_not_mem cs hcs 95 (by omega)
      simp only [true_iff]
      refine ⟨c, cs, rfl, hc, ?_, ?_⟩
      · simp only [List.mem_cons, not_or]; exact ⟨by omega, n45⟩
      · simp only [List.mem_cons, not_or]; exact ⟨by omega, n95⟩
    · simp only [Bool.not_eq_true_eq_eq_false, Bool.not_eq_true] at h3
      simp [h3]
    · have h4m : 45 ∈ c :: cs := by simpa using h4
      simp [h4m]
    · have h5m : 95 ∈ c :: cs := by simpa using h5
      simp [h5m]
    · simp only [Bool.not_eq_true_eq_eq_false, Bool.not_eq_true, Bool.not_eq_false] at h3
      have h4m : 45 ∉ c :: cs := by simpa using h4
      have h5m : 95 ∉ c :: cs := by simpa using h5
      simp only [true_iff]
      exact ⟨c, cs, rfl, h3, h4m, h5m⟩

theorem matchKebab_append (t r : GoString) (b : Bool)
    (ht : ∀ c ∈ t, isLowerAlnum c = true) :
    matchKebab b (t ++ r) = matchKebab (b || !t.isEmpty) r := by
  induction t generalizing b with
  | nil => simp
  | cons c t ih =>
    have hc : isLowerAlnum c = true := ht c (List.mem_cons_self _ _)
    have ih2 := ih true (fun x hx => ht x (List.mem_cons_of_mem _ hx))
    simp only [List.cons_append, matchKebab, hc, if_true, List.append_eq]
    rw [ih2]
    simp

theorem intercalate_hyphen_cons (t : GoString) (ts : List GoString) :
    List.intercalate [45] (t :: ts) = t ++ (ts.map (fun u => 45 :: u)).flatten := by
  induction ts generalizing t with
  | nil => simp [List.intercalate]
  | cons u us ih =>
    have := ih u
    simp only [List.intercalate, List.intersperse, List.flatten_cons, List.map_cons] at this ⊢
    rw [this]
    simp

theorem matchKebab_tail (ts : List GoString)
    (h : ∀ t ∈ ts, t ≠ [] ∧ ∀ c ∈ t, isLowerAlnum c = true) :
    matchKebab true ((ts.map (fun u => 45 :: u)).flatten) = true := by
  induction ts with
  | nil => simp [matchKebab]
  | cons t ts ih =>
    obtain ⟨hne, hal⟩ := h t (List.mem_cons_self _ _)
    have ih2 := ih (fun x hx => h x (List.mem_cons_of_mem _ hx))
    have h45 : isLowerAlnum 45 = false := by decide
    simp only [List.map_cons, List.flatten_cons, List.cons_append, matchKebab, h45]
    simp only [Bool.false_eq_true, if_false, and_self, if_true, List.append_eq]
    rw [matchKebab_append t _ false hal]
    cases t with
    | nil => exact absurd rfl hne
    | cons c t => simpa using ih2

theorem matchKebab_sound (s : GoString) (b : Bool) (h : matchKebab b s = true) :
    ∃ (t : GoString) (ts : List GoString),
      (∀ c ∈ t, isLowerAlnum c = true) ∧ (b = false → t ≠ []) ∧
      (∀ u ∈ ts, u ≠ [] ∧ ∀ c ∈ u, isLowerAlnum c = true) ∧
      s = t ++ (ts.map (fun u => 45 :: u)).flatten := by
  induction s generalizing b with
  | nil =>
    simp only [matchKebab] at h
    exact ⟨[], [], by simp, by simp [h], by simp, by simp⟩
  | cons c cs ih =>
    simp only [matchKebab] at h
    split_ifs at h with h1 h2
    · obtain ⟨t, ts, ht, -, hts, hs⟩ := ih true h
      refine ⟨c :: t, ts, ?_, by simp, hts, by simp [hs]⟩
      intro x hx
      rcases List.mem_cons.mp hx with rfl | hx
      · exact h1
      · exact ht x hx
    · obtain ⟨t, ts, ht, hne, hts, hs⟩ := ih false h
      refine ⟨[], t :: ts, by simp, ?_, ?_, by simp [hs, h2.1]⟩
      · intro hb; rw [h2.2] at hb; exact absurd hb (by simp)
      · intro u hu
        rcases List.mem_cons.mp hu with rfl | hu
        · exact ⟨hne rfl, ht⟩
        · exact hts u hu

/-- Token form of `isKebabCase`: non-empty `[a-z0-9]` tokens joined by single hyphens. -/
theorem isKebabCase_iff_tokens (s : GoString) :
    isKebabCase s = true ↔
      ∃ ts : List GoString, ts ≠ [] ∧
        (∀ t ∈ ts, t ≠ [] ∧ ∀ c ∈ t, isLowerAlnum c = true) ∧
        s = List.intercalate [45] ts := by
  constructor
  · intro h
    unfold isKebabCase at h
    split_ifs at h with h0
    obtain ⟨t, ts, ht, hne, hts, hs⟩ := matchKebab_sound s false h
    refine ⟨t :: ts, by simp, ?_, ?_⟩
    · intro u hu
      rcases List.mem_cons.mp hu with rfl | hu
      · exact ⟨hne rfl, ht⟩
      · exact hts u hu
    · rw [intercalate_hyphen_cons]; exact hs
  · rintro ⟨ts, hne, hts, rfl⟩
    cases ts with
    | nil => exact absurd rfl hne
    | cons t ts =>
      obtain ⟨htne, hta⟩ := hts t (List.mem_cons_self _ _)
      rw [intercalate_hyphen_cons]
      unfold isKebabCase
      have hn : t ++ (ts.map (fun u => 45 :: u)).flatten ≠ [] := by simp [htne]
      rw [if_neg hn, matchKebab_append t _ false hta]
      cases t with
      | nil => exact absurd rfl htne
      | cons c t =>
        simpa using matchKebab_tail ts (fun x hx => hts x (List.mem_cons_of_mem _ hx))

theorem isKebabCase_head (s : GoString) (h : isKebabCase s = true) :
    ∃ c cs, s = c :: cs ∧ isLowerAlnum c = true := by
  cases s with
  | nil => simp [isKebabCase] at h
  | cons c cs =>
    refine ⟨c, cs, rfl, ?_⟩
    simp only [isKebabCase, matchKebab] at h
    by_contra hc
    simp [hc] at h

theorem not_infix_hyphens_nil : ¬ ([45, 45] : GoString) <:+: [] := by
  intro h
  have := List.IsInfix.length_le h
  simp at this

theorem matchKebab_iff_chars (s : GoString) (b : Bool) :
    matchKebab b s = true ↔
      (∀ c ∈ s, isLowerAlnum c = true ∨ c = 45) ∧ (b = false → s.head? ≠ some 45) ∧
      s.getLast? ≠ some 45 ∧ ¬ ([45, 45] : GoString) <:+: s ∧ (s = [] → b = true) := by
  induction s generalizing b with
  | nil =>
    simp only [matchKebab]
    constructor
    · intro h
      exact ⟨by simp, by simp, by simp, not_infix_hyphens_nil, fun _ => h⟩
    · intro h; exact h.2.2.2.2 trivial
  | cons c cs ih =>
    have h45 : isLowerAlnum 45 = false := by decide
    simp only [matchKebab]
    by_cases h1 : isLowerAlnum c = true
    · have hc : c ≠ 45 := by rintro rfl; simp [h45] at h1
      have hc2 : ¬ (45 = c) := fun h => hc h.symm
      rw [if_pos h1, ih true, List.infix_cons_iff]
      cases cs with
      | nil => simp [h1, hc, hc2]
      | cons d ds => simp [h1, hc, hc2]
    · rw [if_neg h1]
      by_cases h2 : c = 45 ∧ b = true
      · obtain ⟨rfl, rfl⟩ := h2
        rw [if_pos ⟨rfl, rfl⟩, ih false, List.infix_cons_iff]
        cases cs with
        | nil => simp
        | cons d ds =>
          simp only [List.mem_cons, forall_eq_or_imp, List.head?_cons, ne_eq, Option.some.injEq,
            List.getLast?_cons_cons, List.cons_prefix_cons, true_and, forall_const, or_true,
            reduceCtorEq, false_imp_iff, imp_false, not_or, and_true, not_true_eq_false,
            Bool.true_eq_false, List.nil_prefix]
          constructor
          · rintro ⟨h, h2, h3, h4, -⟩
            exact ⟨h, not_false, h3, fun e => h2 e.symm, h4⟩
          · rintro ⟨h, -, h3, h2, h4⟩
            exact ⟨h, fun e => h2 e.symm, h3, h4, not_false⟩
      · rw [if_neg h2]
        simp only [Bool.false_eq_true, false_iff, not_and]
        intro hall hhead
        exfalso
        rcases hall c (List.mem_cons_self _ _) with h | h
        · exact h1 h
        · subst h
          cases b with
          | true => exact h2 ⟨rfl, rfl⟩
          | false => exact hhead rfl (by simp)

/-- Character form of `isKebabCase`: only `[a-z0-9-]`, no leading, trailing or doubled
hyphen. -/
theorem isKebabCase_iff_chars (s : GoString) :
    isKebabCase s = true ↔
      s ≠ [] ∧ (∀ c ∈ s, isLowerAlnum c = true ∨ c = 45) ∧ s.head? ≠ some 45 ∧
      s.getLast? ≠ some 45 ∧ ¬ ([45, 45] : GoString) <:+: s := by
  unfold isKebabCase
  by_cases h : s = []
  · simp [h]
  · rw [if_neg h, matchKebab_iff_chars]
    simp [h]

/-! ## The B → A direction -/

theorem isAcronym_iff (a : GoString) : isAcronym a = true ↔ a ∈ upperCaseAcronyms := by
  simp [isAcronym]

theorem isAcronym_length (a : GoString) (h : isAcronym a = true) : 1 < a.length := by
  rw [isAcronym_iff, upperCaseAcronyms_eq] at h
  simp only [List.mem_cons, List.mem_singleton, List.not_mem_nil, or_false] at h
  rcases h with h | h | h | h | h | h | h | h | h | h | h | h | h | h | h | h | h <;>
    (subst h; decide)

theorem isAcronym_all_upper (a : GoString) (h : isAcronym a = true) :
    a.all isUpper = true := by
  rw [isAcronym_iff, upperCaseAcronyms_eq] at h
  simp only [List.mem_cons, List.mem_singleton, List.not_mem_nil, or_false] at h
  rcases h with h | h | h | h | h | h | h | h | h | h | h | h | h | h | h | h | h <;>
    (subst h; decide)

/-- The per-part transform of `kebabToCamel`, which does not depend on the index. -/
theorem camelPart_eq (i : Nat) (p : GoString) :
    camelPart i p = if isAcronym (toUpper p) then toUpper p else title p := by
  unfold camelPart
  by_cases h : isAcronym (toUpper p) = true
  · have hl := isAcronym_length _ h
    simp only [toUpper, List.length_map] at hl
    simp [h, hl]
  · simp [h]

theorem camelParts_eq (i : Nat) (ps : List GoString) :
    camelParts i ps = ps.map (camelPart 0) := by
  induction ps generalizing i with
  | nil => rfl
  | cons p ps ih =>
    simp only [camelParts, List.map_cons, ih]
    rw [camelPart_eq i p, camelPart_eq 0 p]

theorem splitHyphen_ne_nil (s : GoString) : splitHyphen s ≠ [] := by
  cases s with
  | nil => simp [splitHyphen]
  | cons c cs =>
    simp only [splitHyphen]
    split_ifs
    · simp
    · split <;> simp

theorem splitHyphen_append (a b : GoString) :
    splitHyphen (a ++ 45 :: b) = splitHyphen a ++ splitHyphen b := by
  induction a with
  | nil => simp [splitHyphen]
  | cons c a ih =>
    simp only [List.cons_append, splitHyphen]
    by_cases hc : c = 45
    · simp [hc, ih]
    · simp only [hc, if_false, ih]
      cases h : splitHyphen a with
      | nil => exact absurd h (splitHyphen_ne_nil a)
      | cons p ps =>
        simp only [List.append_eq]
        rw [ih, h]
        rfl

theorem splitHyphen_of_not_mem (p : GoString) (h : 45 ∉ p) : splitHyphen p = [p] := by
  induction p with
  | nil => rfl
  | cons c p ih =>
    simp only [List.mem_cons, not_or] at h
    have hc : c ≠ 45 := fun e => h.1 e.symm
    simp [splitHyphen, hc, ih h.2]

theorem splitHyphen_not_mem (s : GoString) : ∀ p ∈ splitHyphen s, 45 ∉ p := by
  induction s with
  | nil => simp [splitHyphen]
  | cons c cs ih =>
    simp only [splitHyphen]
    by_cases hc : c = 45
    · simp only [hc, if_true, List.mem_cons]
      rintro p (rfl | hp)
      · simp
      · exact ih p hp
    · simp only [hc, if_false]
      cases h : splitHyphen cs with
      | nil => exact absurd h (splitHyphen_ne_nil cs)
      | cons q qs =>
        rw [h] at ih
        simp only [List.mem_cons]
        rintro p (rfl | hp)
        · have := ih q (List.mem_cons_self _ _)
          simp only [List.mem_cons, not_or]
          exact ⟨fun e => hc e.symm, this⟩
        · exact ih p (List.mem_cons_of_mem _ hp)

theorem splitHyphen_intercalate (t : GoString) (ts : List GoString)
    (h : ∀ u ∈ t :: ts, 45 ∉ u) : splitHyphen (List.intercalate [45] (t :: ts)) = t :: ts := by
  induction ts generalizing t with
  | nil =>
    simpa [List.intercalate] using splitHyphen_of_not_mem t (h t (List.mem_cons_self _ _))
  | cons u us ih =>
    have hu := ih u (fun x hx => h x (List.mem_cons_of_mem _ hx))
    rw [intercalate_hyphen_cons] at hu ⊢
    simp only [List.map_cons, List.flatten_cons, List.cons_append]
    rw [splitHyphen_append, splitHyphen_of_not_mem t (h t (List.mem_cons_self _ _)), hu]
    rfl

/-- The function `kebabToCamel` as a map over the parts. -/
theorem kebabToCamel_eq (s : GoString) :
    kebabToCamel s = ((splitHyphen s).map (camelPart 0)).flatten := by
  unfold kebabToCamel
  by_cases h : s = []
  · subst h; decide
  · rw [if_neg h, camelParts_eq]

theorem upperByte_ne_hyphen (c : Nat) (h : c ≠ 45) : upperByte c ≠ 45 := by
  unfold upperByte
  split_ifs with hl
  · rw [isLower_iff] at hl; omega
  · exact h

theorem titleFrom_not_mem (prev : Nat) (p : GoString) (h : 45 ∉ p) :
    45 ∉ titleFrom prev p := by
  induction p generalizing prev with
  | nil => simp [titleFrom]
  | cons c p ih =>
    simp only [List.mem_cons, not_or] at h
    have hc : c ≠ 45 := fun e => h.1 e.symm
    simp only [titleFrom, List.mem_cons, not_or]
    refine ⟨?_, ih c h.2⟩
    split_ifs
    · exact fun e => upperByte_ne_hyphen c hc e.symm
    · exact fun e => hc e.symm

theorem camelPart_not_mem (p : GoString) (h : 45 ∉ p) : 45 ∉ camelPart 0 p := by
  rw [camelPart_eq]
  split_ifs
  · simp only [toUpper, List.mem_map, not_exists, not_and]
    intro x hx e
    exact upperByte_ne_hyphen x (fun e2 => h (e2 ▸ hx)) e
  · exact titleFrom_not_mem 32 p h

theorem titleFrom_of_not_separator (prev : Nat) (p : GoString)
    (hprev : isSeparator prev = false) (h : ∀ c ∈ p, isSeparator c = false) :
    titleFrom prev p = p := by
  induction p generalizing prev with
  | nil => rfl
  | cons c p ih =>
    simp only [titleFrom, hprev, Bool.false_eq_true, if_false]
    rw [ih c (h c (List.mem_cons_self _ _)) (fun x hx => h x (List.mem_cons_of_mem _ hx))]

theorem title_eq_capitalizeFirst (p : GoString) (h : ∀ c ∈ p, isSeparator c = false) :
    title p = capitalizeFirst p := by
  cases p with
  | nil => rfl
  | cons c p =>
    have h32 : isSeparator 32 = true := by decide
    simp only [title, titleFrom, h32, if_true, capitalizeFirst]
    rw [titleFrom_of_not_separator c p (h c (List.mem_cons_self _ _))
      (fun x hx => h x (List.mem_cons_of_mem _ hx))]

theorem isSeparator_of_lowerAlnum (c : Nat) (h : isLowerAlnum c = true) :
    isSeparator c = false := by
  have h1 : c ≤ 127 := by rw [isLowerAlnum_iff] at h; omega
  simp only [isLowerAlnum, Bool.or_eq_true] at h
  rcases h with h | h <;> simp [isSeparator, h1, h]

/-! ## The A → B direction: the scan -/

theorem takeWhile_upper_append (R x : GoString) (hR : ∀ c ∈ R, isUpper c = true)
    (hx : ∀ c, x.head? = some c → isUpper c = false) :
    (R ++ x).takeWhile isUpper = R ∧ (R ++ x).dropWhile isUpper = x := by
  induction R with
  | nil =>
    cases x with
    | nil => simp
    | cons c x =>
      have := hx c rfl
      simp [List.takeWhile, List.dropWhile, this]
  | cons r R ih =>
    have hr := hR r (List.mem_cons_self _ _)
    have := ih (fun c hc => hR c (List.mem_cons_of_mem _ hc))
    simp [List.takeWhile, List.dropWhile, hr, this]

theorem findAcronym_end (R : GoString) (hR : ∀ c ∈ R, isUpper c = true) :
    findAcronym R = (R, []) := by
  have h := takeWhile_upper_append R [] hR (by simp)
  simp only [List.append_nil] at h
  simp [findAcronym, h.1, h.2]

theorem findAcronym_word (u l : Nat) (x : GoString) (hu : isUpper u = true)
    (hl : isLower l = true) : findAcronym (u :: l :: x) = ([u], l :: x) := by
  have hl2 : isUpper l = false := by
    rw [isLower_iff] at hl; rw [isUpper_false_iff]; omega
  simp [findAcronym, List.takeWhile, List.dropWhile, hu, hl2]

theorem findAcronym_run_word (R : GoString) (u l : Nat) (x : GoString)
    (hR : ∀ c ∈ R, isUpper c = true) (hne : R ≠ []) (hu : isUpper u = true)
    (hl : isLower l = true) : findAcronym (R ++ u :: l :: x) = (R, u :: l :: x) := by
  have hl2 : isUpper l = false := by
    rw [isLower_iff] at hl; rw [isUpper_false_iff]; omega
  have hRu : ∀ c ∈ R ++ [u], isUpper c = true := by
    intro c hc
    rcases List.mem_append.mp hc with h | h
    · exact hR c h
    · simp only [List.mem_singleton] at h; rw [h]; exact hu
  have h := takeWhile_upper_append (R ++ [u]) (l :: x) hRu (by simp [hl2])
  have e : R ++ u :: l :: x = (R ++ [u]) ++ l :: x := by simp
  have hlen : 1 < (R ++ [u]).length := by
    cases R with
    | nil => exact absurd rfl hne
    | cons r R => simp
  unfold findAcronym
  rw [e, h.1, h.2]
  simp only [gt_iff_lt, hlen, decide_True, hl, Bool.and_self, if_true, List.dropLast_concat]
  simp

theorem findAcronym_length (c : Nat) (cs : GoString) (hc : isUpper c = true) :
    (findAcronym (c :: cs)).2.length ≤ cs.length := by
  have hsum := congrArg List.length (List.takeWhile_append_dropWhile isUpper (c :: cs))
  simp only [List.length_append, List.length_cons] at hsum
  have hpos : 0 < ((c :: cs).takeWhile isUpper).length := by
    simp [List.takeWhile, hc]
  simp only [findAcronym]
  cases hd : List.dropWhile isUpper (c :: cs) with
  | nil =>
    rw [hd] at hsum
    simp only [List.length_nil] at hsum ⊢
    omega
  | cons d ds =>
    rw [hd] at hsum
    simp only [List.length_cons] at hsum
    dsimp only
    split_ifs with h
    · simp only [Bool.and_eq_true, decide_eq_true_eq] at h
      simp only [List.length_append, List.length_drop, List.length_cons]
      omega
    · simp only [List.length_cons]
      omega

theorem scanLoop_fuel (f g : Nat) (rest : GoString) (hf : rest.length ≤ f)
    (hg : rest.length ≤ g) : scanLoop f rest = scanLoop g rest := by
  induction f generalizing g rest with
  | zero =>
    have : rest = [] := List.eq_nil_of_length_eq_zero (by omega)
    subst this
    cases g <;> rfl
  | succ f ih =>
    cases rest with
    | nil => cases g <;> rfl
    | cons c cs =>
      cases g with
      | zero => simp at hg
      | succ g =>
        simp only [List.length_cons, Nat.add_le_add_iff_right] at hf hg
        simp only [scanLoop]
        by_cases hc : isUpper c = true
        · have hl := findAcronym_length c cs hc
          rw [if_pos hc, if_pos hc, ih g _ (by omega) (by omega)]
        · rw [if_neg hc, if_neg hc, ih g cs hf hg]

theorem scan_nil : scan [] = [] := rfl

theorem lowerByte_upper (c : Nat) (hc : isUpper c = true) : lowerByte c = c + 32 := by
  simp [lowerByte, hc]

theorem lowerByte_other (c : Nat) (hc : isUpper c = false) : lowerByte c = c := by
  simp [lowerByte, hc]

theorem toLower_other (w : GoString) (hw : ∀ c ∈ w, isUpper c = false) : toLower w = w := by
  induction w with
  | nil => rfl
  | cons c w ih =>
    simp only [toLower, List.map_cons, List.cons.injEq]
    exact ⟨lowerByte_other c (hw c (List.mem_cons_self _ _)),
      ih (fun d hd => hw d (List.mem_cons_of_mem _ hd))⟩

theorem isUpper_false_of_lowerAlnum (c : Nat) (h : isLowerAlnum c = true) :
    isUpper c = false := by
  rw [isLowerAlnum_iff] at h; rw [isUpper_false_iff]; omega

theorem emitWord_single (c : Nat) (hc : isUpper c = true) : emitWord c [c] = [c + 32] := by
  have hc2 := (isUpper_iff c).mp hc
  have h1 : (c + 256 - 65 + 97) % 256 = c + 32 := by omega
  have h2 : c + 32 < 128 := by omega
  unfold emitWord
  rw [h1]
  simp [encodeRune, h2]

theorem scan_cons_upper (c : Nat) (cs : GoString) (hc : isUpper c = true) :
    scan (c :: cs) =
      45 :: (emitWord c (findAcronym (c :: cs)).1 ++ scan (findAcronym (c :: cs)).2) := by
  have hl := findAcronym_length c cs hc
  simp only [scan, List.length_cons, scanLoop, hc, if_true, List.singleton_append,
    List.cons_append, List.nil_append, List.append_assoc]
  rw [scanLoop_fuel cs.length _ _ hl (le_refl _)]

theorem scan_cons_other (c : Nat) (cs : GoString) (hc : isUpper c = false)
    (h7 : c < 128) : scan (c :: cs) = c :: scan cs := by
  simp [scan, scanLoop, hc, encodeRune, h7]

theorem scan_passthrough (w x : GoString) (hw : ∀ c ∈ w, isLowerAlnum c = true) :
    scan (w ++ x) = w ++ scan x := by
  induction w with
  | nil => rfl
  | cons c w ih =>
    have hc := hw c (List.mem_cons_self _ _)
    rw [isLowerAlnum_iff] at hc
    have h1 : isUpper c = false := by rw [isUpper_false_iff]; omega
    rw [List.cons_append, scan_cons_other c _ h1 (by omega),
      ih (fun d hd => hw d (List.mem_cons_of_mem _ hd))]
    rfl

/-- The general scan started on an uppercase letter is the loop without its first
hyphen. -/
theorem camelToKebabGeneral_upper (c : Nat) (cs : GoString) (hc : isUpper c = true) :
    camelToKebabGeneral (c :: cs) = (scan (c :: cs)).drop 1 := by
  have hl := findAcronym_length c cs hc
  rw [scan_cons_upper c cs hc]
  simp only [camelToKebabGeneral, hc, if_true, List.drop_succ_cons, List.drop_zero]
  rw [scanLoop_fuel (c :: cs).length _ _ (by simp; omega) (le_refl _)]
  rfl

/-- The two shortcuts of `camelToKebab` agree with the general scan. -/
theorem camelToKebab_eq_general (s : GoString) : camelToKebab s = camelToKebabGeneral s := by
  cases s with
  | nil => rfl
  | cons c cs =>
    simp only [camelToKebab]
    split_ifs with h1 h2 h3
    · rw [h1]; decide
    · simp only [Bool.and_eq_true, decide_eq_true_eq, List.all_eq_true] at h2
      obtain ⟨⟨hlen, hc⟩, hcs⟩ := h2
      cases cs with
      | nil => simp at hlen
      | cons l x =>
        have hl := hcs l (List.mem_cons_self _ _)
        have hc2 := (isUpper_iff c).mp hc
        rw [camelToKebabGeneral_upper c _ hc, scan_cons_upper c _ hc,
          findAcronym_word c l x hc hl]
        have hw : ∀ d ∈ l :: x, isLowerAlnum d = true := by
          intro d hd; simp [isLowerAlnum, hcs d hd]
        have hp := scan_passthrough (l :: x) [] hw
        simp only [List.append_nil] at hp
        rw [hp]
        rw [emitWord_single c hc]
        have hlow : toLower (l :: x) = l :: x :=
          toLower_other _ (fun d hd => isUpper_false_of_lowerAlnum d (hw d hd))
        have hlow2 : toLower (c :: l :: x) = (c + 32) :: toLower (l :: x) := by
          simp [toLower, lowerByte_upper c hc]
        rw [hlow2, hlow]
        simp [scan_nil]
    · simp [camelToKebabGeneral, h3]
    · simp [camelToKebabGeneral, h3]

/-! ## The A → B direction on token sequences -/

theorem emitWord_acronym (c : Nat) (R : GoString) (h : isAcronym R = true) :
    emitWord c R = toLower R := by
  have hl := isAcronym_length R h
  simp [emitWord, h, hl]

theorem emitWord_other (b : Nat) (tl : GoString) (hb : isUpper b = true)
    (h : isAcronym (b :: tl) = false) : emitWord b (b :: tl) = (b + 32) :: tl := by
  have hb2 := (isUpper_iff b).mp hb
  have h1 : (b + 256 - 65 + 97) % 256 = b + 32 := by omega
  have h2 : b + 32 < 128 := by omega
  unfold emitWord
  rw [h1]
  cases tl with
  | nil => simp [encodeRune, h2]
  | cons d ds => simp [encodeRune, h2, h]

theorem scan_run_end (b : Nat) (tl : GoString) (hR : ∀ c ∈ b :: tl, isUpper c = true) :
    scan (b :: tl) = 45 :: emitWord b (b :: tl) := by
  rw [scan_cons_upper b tl (hR b (List.mem_cons_self _ _)), findAcronym_end _ hR]
  simp [scan_nil]

theorem scan_run_word (b : Nat) (tl : GoString) (u l : Nat) (x : GoString)
    (hR : ∀ c ∈ b :: tl, isUpper c = true) (hu : isUpper u = true) (hl : isLower l = true) :
    scan (b :: tl ++ u :: l :: x) = 45 :: (emitWord b (b :: tl) ++ scan (u :: l :: x)) := by
  have h := findAcronym_run_word (b :: tl) u l x hR (by simp) hu hl
  rw [List.cons_append] at h ⊢
  rw [scan_cons_upper b _ (hR b (List.mem_cons_self _ _)), h]

theorem scan_word (u l : Nat) (x : GoString) (hu : isUpper u = true)
    (hl : isLower l = true) : scan (u :: l :: x) = 45 :: (u + 32) :: scan (l :: x) := by
  rw [scan_cons_upper u _ hu, findAcronym_word u l x hu hl, emitWord_single u hu]
  rfl

theorem isCapitalisedAlnum_iff (t : GoString) :
    isCapitalisedAlnum t = true ↔
      ∃ u l ls, t = u :: l :: ls ∧ isUpper u = true ∧ isLower l = true ∧
        ∀ c ∈ ls, isLowerAlnum c = true := by
  constructor
  · intro h
    match t, h with
    | u :: l :: ls, h =>
      simp only [isCapitalisedAlnum, Bool.and_eq_true, List.all_eq_true] at h
      exact ⟨u, l, ls, rfl, h.1.1, h.1.2, h.2⟩
  · rintro ⟨u, l, ls, rfl, hu, hl, hls⟩
    simp only [isCapitalisedAlnum, Bool.and_eq_true, List.all_eq_true]
    exact ⟨⟨hu, hl⟩, hls⟩

theorem isAcronym_of_capitalisedAlnum (t : GoString) (h : isCapitalisedAlnum t = true) :
    isAcronym t = false := by
  obtain ⟨u, l, ls, rfl, -, hl, -⟩ := (isCapitalisedAlnum_iff t).mp h
  rw [← Bool.not_eq_true]
  intro ha
  have := List.all_eq_true.mp (isAcronym_all_upper _ ha) l (by simp)
  rw [isLower_iff] at hl
  rw [isUpper_iff] at this
  omega

theorem toLower_capitalisedAlnum (u l : Nat) (ls : GoString) (hu : isUpper u = true)
    (hl : isLower l = true) (hls : ∀ c ∈ ls, isLowerAlnum c = true) :
    toLower (u :: l :: ls) = (u + 32) :: l :: ls := by
  have hw : ∀ c ∈ l :: ls, isUpper c = false := by
    intro c hc
    rcases List.mem_cons.mp hc with rfl | hc
    · exact isUpper_false_of_lowerAlnum _ (by simp [isLowerAlnum, hl])
    · exact isUpper_false_of_lowerAlnum c (hls c hc)
  have := toLower_other (l :: ls) hw
  simp only [toLower, List.map_cons, List.cons.injEq] at this ⊢
  exact ⟨lowerByte_upper u hu, this.1, this.2⟩

/-- The scan of a token sequence: every token is written in lower case after a hyphen. -/
theorem scan_tokens (ts : List GoString)
    (htok : ∀ t ∈ ts, isAcronym t = true ∨ isCapitalisedAlnum t = true)
    (hadj : noAdjacentAcronyms ts = true) :
    scan ts.flatten = (ts.map (fun t => 45 :: toLower t)).flatten := by
  induction ts with
  | nil => rfl
  | cons t ts ih =>
    have ih2 := ih (fun x hx => htok x (List.mem_cons_of_mem _ hx))
    rcases htok t (List.mem_cons_self _ _) with ha | hw
    · have hup := List.all_eq_true.mp (isAcronym_all_upper t ha)
      have hlen := isAcronym_length t ha
      cases t with
      | nil => simp at hlen
      | cons b tl =>
        cases ts with
        | nil =>
          simp only [List.flatten_cons, List.flatten_nil, List.append_nil, List.map_cons,
            List.map_nil]
          rw [scan_run_end b tl hup, emitWord_acronym b _ ha]
        | cons t2 ts2 =>
          simp only [noAdjacentAcronyms, Bool.and_eq_true, Bool.not_eq_true'] at hadj
          have ht2 : isAcronym t2 = false := by
            have := hadj.1
            simpa [ha] using this
          have hw2 : isCapitalisedAlnum t2 = true := by
            rcases htok t2 (by simp) with h | h
            · rw [ht2] at h; exact absurd h (by simp)
            · exact h
          obtain ⟨u, l, ls, rfl, hu, hl, hls⟩ := (isCapitalisedAlnum_iff t2).mp hw2
          have ih3 := ih2 hadj.2
          simp only [List.flatten_cons, List.map_cons, List.cons_append] at ih3 ⊢
          have := scan_run_word b tl u l (ls ++ ts2.flatten) hup hu hl
          simp only [List.cons_append] at this
          rw [this, ih3, emitWord_acronym b _ ha]
    · obtain ⟨u, l, ls, rfl, hu, hl, hls⟩ := (isCapitalisedAlnum_iff t).mp hw
      have hadj2 : noAdjacentAcronyms ts = true := by
        cases ts with
        | nil => rfl
        | cons t2 ts2 =>
          simp only [noAdjacentAcronyms, Bool.and_eq_true] at hadj
          exact hadj.2
      have ih3 := ih2 hadj2
      have hpass := scan_passthrough (l :: ls) ts.flatten (by
        intro c hc
        rcases List.mem_cons.mp hc with rfl | hc
        · simp [isLowerAlnum, hl]
        · exact hls c hc)
      simp only [List.flatten_cons, List.map_cons, List.cons_append] at hpass ⊢
      rw [scan_word u l _ hu hl, hpass, ih3, toLower_capitalisedAlnum u l ls hu hl hls]
      simp

/-- The function `camelToKebab` on a token sequence: the lower-cased tokens joined by
single hyphens. -/
theorem camelToKebab_flatten (t : GoString) (ts : List GoString)
    (htok : ∀ x ∈ t :: ts, isAcronym x = true ∨ isCapitalisedAlnum x = true)
    (hadj : noAdjacentAcronyms (t :: ts) = true) :
    camelToKebab (t :: ts).flatten = List.intercalate [45] ((t :: ts).map toLower) := by
  have hhead : ∃ c cs, (t :: ts).flatten = c :: cs ∧ isUpper c = true := by
    rcases htok t (List.mem_cons_self _ _) with ha | hw
    · have hup := List.all_eq_true.mp (isAcronym_all_upper t ha)
      have hlen := isAcronym_length t ha
      cases t with
      | nil => simp at hlen
      | cons b tl => exact ⟨b, tl ++ ts.flatten, by simp, hup b (List.mem_cons_self _ _)⟩
    · obtain ⟨u, l, ls, rfl, hu, -, -⟩ := (isCapitalisedAlnum_iff t).mp hw
      exact ⟨u, l :: ls ++ ts.flatten, by simp, hu⟩
  obtain ⟨c, cs, hcs, hc⟩ := hhead
  rw [camelToKebab_eq_general, hcs, camelToKebabGeneral_upper c cs hc, ← hcs,
    scan_tokens _ htok hadj]
  simp only [List.map_cons]
  rw [intercalate_hyphen_cons]
  simp [List.map_map, Function.comp_def]

/-! ## Both directions on token sequences -/

theorem not_mem_hyphen_of_lowerAlnum (u : GoString) (h : ∀ c ∈ u, isLowerAlnum c = true) :
    45 ∉ u := by
  intro hm
  have := h 45 hm
  simp [isLowerAlnum, isLower, isDigit] at this

theorem camelPart_eq_spec (t : GoString) (h : ∀ c ∈ t, isLowerAlnum c = true) :
    camelPart 0 t = specCamelToken t := by
  rw [camelPart_eq]
  unfold specCamelToken
  have hsep : ∀ c ∈ t, isSeparator c = false :=
    fun c hc => isSeparator_of_lowerAlnum c (h c hc)
  rw [title_eq_capitalizeFirst t hsep]
  by_cases ha : isAcronym (toUpper t) = true
  · rw [if_pos ha, if_pos ((isAcronym_iff _).mp ha)]
  · rw [if_neg ha, if_neg (fun hm => ha ((isAcronym_iff _).mpr hm))]

/-- The function `kebabToCamel` on hyphen-joined `[a-z0-9]` tokens. -/
theorem kebabToCamel_intercalate (t : GoString) (ts : List GoString)
    (h : ∀ u ∈ t :: ts, ∀ c ∈ u, isLowerAlnum c = true) :
    kebabToCamel (List.intercalate [45] (t :: ts)) =
      ((t :: ts).map specCamelToken).flatten := by
  rw [kebabToCamel_eq,
    splitHyphen_intercalate t ts (fun u hu => not_mem_hyphen_of_lowerAlnum u (h u hu))]
  congr 1
  exact List.map_congr_left (fun u hu => camelPart_eq_spec u (h u hu))

theorem isCapitalisedAlnum_of_word (t : GoString) (h : isCapitalisedWord t = true) :
    isCapitalisedAlnum t = true := by
  match t, h with
  | u :: l :: ls, h =>
    simp only [isCapitalisedWord, Bool.and_eq_true, List.all_eq_true] at h
    simp only [isCapitalisedAlnum, Bool.and_eq_true, List.all_eq_true]
    exact ⟨h.1, fun c hc => by simp [isLowerAlnum, h.2 c hc]⟩

theorem toLower_acronym_lowerAlnum (t : GoString) (h : isAcronym t = true) :
    toLower t ≠ [] ∧ ∀ c ∈ toLower t, isLowerAlnum c = true := by
  have hup := List.all_eq_true.mp (isAcronym_all_upper t h)
  have hlen := isAcronym_length t h
  constructor
  · cases t with
    | nil => simp at hlen
    | cons b tl => simp [toLower]
  · intro c hc
    simp only [toLower, List.mem_map] at hc
    obtain ⟨d, hd, rfl⟩ := hc
    have hd2 := hup d hd
    rw [lowerByte_upper d hd2, isLowerAlnum_iff]
    rw [isUpper_iff] at hd2
    omega

theorem toLower_token_lowerAlnum (t : GoString)
    (h : isAcronym t = true ∨ isCapitalisedAlnum t = true) :
    toLower t ≠ [] ∧ ∀ c ∈ toLower t, isLowerAlnum c = true := by
  rcases h with h | h
  · exact toLower_acronym_lowerAlnum t h
  · obtain ⟨u, l, ls, rfl, hu, hl, hls⟩ := (isCapitalisedAlnum_iff t).mp h
    rw [toLower_capitalisedAlnum u l ls hu hl hls]
    refine ⟨by simp, ?_⟩
    intro c hc
    rw [isUpper_iff] at hu
    rcases List.mem_cons.mp hc with rfl | hc
    · rw [isLowerAlnum_iff]; omega
    · rcases List.mem_cons.mp hc with rfl | hc
      · simp [isLowerAlnum, hl]
      · exact hls c hc

theorem token_bytes_alnum (t : GoString)
    (h : isAcronym t = true ∨ isCapitalisedAlnum t = true) :
    ∀ c ∈ t, c ≠ 45 ∧ c ≠ 95 := by
  intro c hc
  rcases h with h | h
  · have := List.all_eq_true.mp (isAcronym_all_upper t h) c hc
    rw [isUpper_iff] at this
    omega
  · obtain ⟨u, l, ls, rfl, hu, hl, hls⟩ := (isCapitalisedAlnum_iff t).mp h
    rw [isUpper_iff] at hu
    rw [isLower_iff] at hl
    rcases List.mem_cons.mp hc with rfl | hc
    · omega
    · rcases List.mem_cons.mp hc with rfl | hc
      · omega
      · have := hls c hc
        rw [isLowerAlnum_iff] at this
        omega

theorem flatten_head_upper (t : GoString) (ts : List GoString)
    (h : isAcronym t = true ∨ isCapitalisedAlnum t = true) :
    ∃ c cs, (t :: ts).flatten = c :: cs ∧ isUpper c = true := by
  rcases h with ha | hw
  · have hup := List.all_eq_true.mp (isAcronym_all_upper t ha)
    have hlen := isAcronym_length t ha
    cases t with
    | nil => simp at hlen
    | cons b tl => exact ⟨b, tl ++ ts.flatten, by simp, hup b (List.mem_cons_self _ _)⟩
  · obtain ⟨u, l, ls, rfl, hu, -, -⟩ := (isCapitalisedAlnum_iff t).mp hw
    exact ⟨u, l :: ls ++ ts.flatten, by simp, hu⟩

/-- A token sequence is accepted by `isCamelCase` and converted to a name accepted by
`isKebabCase`. -/
theorem tokens_camel_to_kebab (t : GoString) (ts : List GoString)
    (htok : ∀ x ∈ t :: ts, isAcronym x = true ∨ isCapitalisedAlnum x = true)
    (hadj : noAdjacentAcronyms (t :: ts) = true) :
    isCamelCase (t :: ts).flatten = true ∧
      isKebabCase (camelToKebab (t :: ts).flatten) = true := by
  constructor
  · rw [isCamelCase_iff]
    obtain ⟨c, cs, hcs, hc⟩ := flatten_head_upper t ts (htok t (List.mem_cons_self _ _))
    refine ⟨c, cs, hcs, hc, ?_, ?_⟩
    · intro hm
      obtain ⟨l, hl, hml⟩ := List.mem_flatten.mp hm
      exact (token_bytes_alnum l (htok l hl) 45 hml).1 rfl
    · intro hm
      obtain ⟨l, hl, hml⟩ := List.mem_flatten.mp hm
      exact (token_bytes_alnum l (htok l hl) 95 hml).2 rfl
  · rw [camelToKebab_flatten t ts htok hadj, isKebabCase_iff_tokens]
    refine ⟨(t :: ts).map toLower, by simp, ?_, rfl⟩
    intro u hu
    obtain ⟨x, hx, rfl⟩ := List.mem_map.mp hu
    exact toLower_token_lowerAlnum x (htok x hx)

theorem isLowerToken_iff (t : GoString) :
    isLowerToken t = true ↔
      ∃ a b rest, t = a :: b :: rest ∧ isLower a = true ∧ isLower b = true ∧
        ∀ c ∈ rest, isLowerAlnum c = true := by
  constructor
  · intro h
    match t, h with
    | a :: b :: rest, h =>
      simp only [isLowerToken, Bool.and_eq_true, List.all_eq_true] at h
      exact ⟨a, b, rest, rfl, h.1.1, h.1.2, h.2⟩
  · rintro ⟨a, b, rest, rfl, ha, hb, hr⟩
    simp only [isLowerToken, Bool.and_eq_true, List.all_eq_true]
    exact ⟨⟨ha, hb⟩, hr⟩

theorem isLowerToken_lowerAlnum (t : GoString) (h : isLowerToken t = true) :
    ∀ c ∈ t, isLowerAlnum c = true := by
  obtain ⟨a, b, rest, rfl, ha, hb, hr⟩ := (isLowerToken_iff t).mp h
  intro c hc
  rcases List.mem_cons.mp hc with rfl | hc
  · simp [isLowerAlnum, ha]
  · rcases List.mem_cons.mp hc with rfl | hc
    · simp [isLowerAlnum, hb]
    · exact hr c hc

theorem lowerByte_upperByte (c : Nat) (h : isLowerAlnum c = true) :
    lowerByte (upperByte c) = c := by
  rw [isLowerAlnum_iff] at h
  by_cases hl : isLower c = true
  · have hl2 := (isLower_iff c).mp hl
    have hu : isUpper (c - 32) = true := by rw [isUpper_iff]; omega
    simp only [upperByte, hl, if_true, lowerByte, hu]
    omega
  · have hu : isUpper c = false := by rw [isUpper_false_iff]; omega
    simp [upperByte, hl, lowerByte, hu]

theorem toLower_toUpper (t : GoString) (h : ∀ c ∈ t, isLowerAlnum c = true) :
    toLower (toUpper t) = t := by
  induction t with
  | nil => rfl
  | cons c t ih =>
    have := ih (fun d hd => h d (List.mem_cons_of_mem _ hd))
    simp only [toLower, toUpper, List.map_cons, List.cons.injEq, List.map_map] at this ⊢
    exact ⟨lowerByte_upperByte c (h c (List.mem_cons_self _ _)), this⟩

theorem capitalizeFirst_lowerToken (a b : Nat) (rest : GoString) (ha : isLower a = true) :
    capitalizeFirst (a :: b :: rest) = (a - 32) :: b :: rest := by
  simp [capitalizeFirst, upperByte, ha]

/-- The camel form of a kebab token that begins with two lowercase letters is a token
of the A → B direction, an acronym exactly when the uppercased token is one, and its
lower-cased form is the kebab token. -/
theorem specCamelToken_lowerToken (t : GoString) (h : isLowerToken t = true) :
    (isAcronym (specCamelToken t) = true ∨ isCapitalisedAlnum (specCamelToken t) = true) ∧
    isAcronym (specCamelToken t) = isAcronym (toUpper t) ∧
    toLower (specCamelToken t) = t := by
  have hall := isLowerToken_lowerAlnum t h
  obtain ⟨a, b, rest, rfl, ha, hb, hr⟩ := (isLowerToken_iff _).mp h
  unfold specCamelToken
  by_cases hacr : toUpper (a :: b :: rest) ∈ upperCaseAcronyms
  · rw [if_pos hacr]
    exact ⟨Or.inl ((isAcronym_iff _).mpr hacr), rfl, toLower_toUpper _ hall⟩
  · rw [if_neg hacr, capitalizeFirst_lowerToken a b rest ha]
    have ha2 := (isLower_iff a).mp ha
    have hu : isUpper (a - 32) = true := by rw [isUpper_iff]; omega
    have hcap : isCapitalisedAlnum ((a - 32) :: b :: rest) = true :=
      (isCapitalisedAlnum_iff _).mpr ⟨a - 32, b, rest, rfl, hu, hb, hr⟩
    refine ⟨Or.inr hcap, ?_, ?_⟩
    · rw [isAcronym_of_capitalisedAlnum _ hcap]
      symm
      rw [← Bool.not_eq_true, isAcronym_iff]
      exact hacr
    · rw [toLower_capitalisedAlnum (a - 32) b rest hu hb hr]
      congr 1
      omega

theorem noAdjacentAcronyms_map (f g : GoString → GoString) (ts : List GoString)
    (h : ∀ t ∈ ts, isAcronym (f t) = isAcronym (g t)) :
    noAdjacentAcronyms (ts.map f) = noAdjacentAcronyms (ts.map g) := by
  induction ts with
  | nil => rfl
  | cons a ts ih =>
    cases ts with
    | nil => rfl
    | cons b ts =>
      have ih2 := ih (fun t ht => h t (List.mem_cons_of_mem _ ht))
      simp only [List.map_cons, noAdjacentAcronyms] at ih2 ⊢
      rw [h a (by simp), h b (by simp), ih2]

/-- Round trip B → A → B on kebab tokens that begin with two lowercase letters, no two
neighbours being acronyms. -/
theorem kebab_camel_kebab (t : GoString) (ts : List GoString)
    (htok : ∀ x ∈ t :: ts, isLowerToken x = true)
    (hadj : noAdjacentAcronyms ((t :: ts).map toUpper) = true) :
    camelToKebab (kebabToCamel (List.intercalate [45] (t :: ts))) =
      List.intercalate [45] (t :: ts) := by
  rw [kebabToCamel_intercalate t ts (fun u hu => isLowerToken_lowerAlnum u (htok u hu))]
  have htok2 : ∀ x ∈ specCamelToken t :: ts.map specCamelToken,
      isAcronym x = true ∨ isCapitalisedAlnum x = true := by
    intro x hx
    rw [← List.map_cons] at hx
    obtain ⟨y, hy, rfl⟩ := List.mem_map.mp hx
    exact (specCamelToken_lowerToken y (htok y hy)).1
  have hadj2 : noAdjacentAcronyms (specCamelToken t :: ts.map specCamelToken) = true := by
    rw [← List.map_cons, noAdjacentAcronyms_map specCamelToken toUpper (t :: ts)
      (fun y hy => (specCamelToken_lowerToken y (htok y hy)).2.1)]
    exact hadj
  rw [List.map_cons, camelToKebab_flatten _ _ htok2 hadj2, ← List.map_cons, List.map_map]
  congr 1
  have : ∀ y ∈ t :: ts, (toLower ∘ specCamelToken) y = id y :=
    fun y hy => (specCamelToken_lowerToken y (htok y hy)).2.2
  rw [List.map_congr_left this, List.map_id]

/-! ## Round trip A → B → A -/

theorem upperByte_upper (c : Nat) (hc : isUpper c = true) : upperByte c = c := by
  have hl : isLower c = false := by
    rw [isUpper_iff] at hc; rw [isLower_false_iff]; omega
  simp [upperByte, hl]

theorem upperByte_add (c : Nat) (hc : isUpper c = true) : upperByte (c + 32) = c := by
  have hl : isLower (c + 32) = true := by
    rw [isUpper_iff] at hc; rw [isLower_iff]; omega
  simp [upperByte, hl]

theorem toUpper_upper (R : GoString) (hR : ∀ c ∈ R, isUpper c = true) : toUpper R = R := by
  induction R with
  | nil => rfl
  | cons c R ih =>
    have := ih (fun d hd => hR d (List.mem_cons_of_mem _ hd))
    simp only [toUpper, List.map_cons, List.cons.injEq] at this ⊢
    exact ⟨upperByte_upper c (hR c (List.mem_cons_self _ _)), this⟩

theorem toUpper_toLower_upper (R : GoString) (hR : ∀ c ∈ R, isUpper c = true) :
    toUpper (toLower R) = R := by
  induction R with
  | nil => rfl
  | cons c R ih =>
    have := ih (fun d hd => hR d (List.mem_cons_of_mem _ hd))
    have hc := hR c (List.mem_cons_self _ _)
    simp only [toUpper, toLower, List.map_cons, List.cons.injEq, List.map_map] at this ⊢
    exact ⟨by rw [lowerByte_upper c hc, upperByte_add c hc], this⟩

theorem isSeparator_of_letter (c : Nat) (h : isUpper c = true ∨ isLower c = true) :
    isSeparator c = false := by
  have h1 : c ≤ 127 := by
    rcases h with h | h
    · rw [isUpper_iff] at h; omega
    · rw [isLower_iff] at h; omega
  rcases h with h | h <;> simp [isSeparator, h1, h]

/-- Converting back a word written by the scan: the lower-cased first letter followed by
letters, when the uppercased word is not an acronym. -/
theorem camelPart_word (b : Nat) (x : GoString) (hb : isUpper b = true)
    (hx : ∀ c ∈ x, isUpper c = true ∨ isLower c = true)
    (hacr : isAcronym (toUpper (b :: x)) = false) :
    camelPart 0 ((b + 32) :: x) = b :: x := by
  have hup : toUpper ((b + 32) :: x) = toUpper (b :: x) := by
    simp [toUpper, upperByte_add b hb, upperByte_upper b hb]
  have hsep : ∀ c ∈ (b + 32) :: x, isSeparator c = false := by
    intro c hc
    rcases List.mem_cons.mp hc with rfl | hc
    · apply isSeparator_of_letter
      right
      rw [isUpper_iff] at hb; rw [isLower_iff]; omega
    · exact isSeparator_of_letter c (hx c hc)
  rw [camelPart_eq, hup, hacr, title_eq_capitalizeFirst _ hsep]
  simp [capitalizeFirst, upperByte_add b hb]

theorem camelPart_emitWord (b : Nat) (tl : GoString)
    (hR : ∀ c ∈ b :: tl, isUpper c = true) :
    camelPart 0 (emitWord b (b :: tl)) = b :: tl ∧ 45 ∉ emitWord b (b :: tl) := by
  have hb := hR b (List.mem_cons_self _ _)
  have hb2 := (isUpper_iff b).mp hb
  by_cases ha : isAcronym (b :: tl) = true
  · rw [emitWord_acronym b _ ha]
    constructor
    · rw [camelPart_eq, toUpper_toLower_upper _ hR, if_pos ha]
    · exact not_mem_hyphen_of_lowerAlnum _ (toLower_acronym_lowerAlnum _ ha).2
  · simp only [Bool.not_eq_true] at ha
    rw [emitWord_other b tl hb ha]
    constructor
    · apply camelPart_word b tl hb
      · exact fun c hc => Or.inl (hR c (List.mem_cons_of_mem _ hc))
      · rw [toUpper_upper _ hR]; exact ha
    · simp only [List.mem_cons, not_or]
      refine ⟨by omega, ?_⟩
      intro hm
      have := hR 45 (List.mem_cons_of_mem _ hm)
      simp [isUpper] at this

theorem splitHyphen_words (w : GoString) (ws : List GoString) (hw : 45 ∉ w)
    (hws : ∀ v ∈ ws, 45 ∉ v) :
    splitHyphen (w ++ (ws.map (fun v => 45 :: v)).flatten) = w :: ws := by
  induction ws generalizing w with
  | nil => simpa using splitHyphen_of_not_mem w hw
  | cons v vs ih =>
    have := ih v (hws v (List.mem_cons_self _ _))
      (fun x hx => hws x (List.mem_cons_of_mem _ hx))
    simp only [List.map_cons, List.flatten_cons, List.cons_append]
    rw [splitHyphen_append, splitHyphen_of_not_mem w hw, this]
    rfl

/-- The scan of an uppercase run followed by tokens writes hyphen-led words, each of
which `kebabToCamel` converts back to the letters it was written for. -/
theorem scan_words (ts : List GoString)
    (htok : ∀ t ∈ ts, isAcronym t = true ∨
      (isCapitalised t = true ∧ isAcronym (toUpper t) = false)) :
    ∀ R : GoString, (∀ c ∈ R, isUpper c = true) →
      ∃ ws : List GoString,
        scan (R ++ ts.flatten) = (ws.map (fun v => 45 :: v)).flatten ∧
        (∀ w ∈ ws, 45 ∉ w) ∧ (ws.map (camelPart 0)).flatten = R ++ ts.flatten := by
  induction ts with
  | nil =>
    intro R hR
    cases R with
    | nil => exact ⟨[], by simp [scan_nil], by simp, by simp⟩
    | cons b tl =>
      obtain ⟨h1, h2⟩ := camelPart_emitWord b tl hR
      refine ⟨[emitWord b (b :: tl)], ?_, by simpa using h2, by simpa using h1⟩
      simp only [List.flatten_nil, List.append_nil, List.map_cons, List.map_nil,
        List.flatten_cons]
      exact scan_run_end b tl hR
  | cons t ts ih =>
    intro R hR
    have ih2 := ih (fun x hx => htok x (List.mem_cons_of_mem _ hx))
    have hrun : ∀ t2 : GoString, (∀ c ∈ t2, isUpper c = true) →
        ∃ ws : List GoString,
          scan (R ++ (t2 :: ts).flatten) = (ws.map (fun v => 45 :: v)).flatten ∧
          (∀ w ∈ ws, 45 ∉ w) ∧
          (ws.map (camelPart 0)).flatten = R ++ (t2 :: ts).flatten := by
      intro t2 ht2
      have := ih2 (R ++ t2) (by
        intro c hc
        rcases List.mem_append.mp hc with h | h
        · exact hR c h
        · exact ht2 c h)
      simpa [List.append_assoc] using this
    rcases htok t (List.mem_cons_self _ _) with ha | ⟨hcap, hnot⟩
    · exact hrun t (List.all_eq_true.mp (isAcronym_all_upper t ha))
    · cases t with
      | nil => simp [isCapitalised] at hcap
      | cons u ls =>
        simp only [isCapitalised, Bool.and_eq_true, List.all_eq_true] at hcap
        obtain ⟨hu, hls⟩ := hcap
        cases ls with
        | nil =>
          exact hrun [u] (by simpa using hu)
        | cons l ls =>
          have hl := hls l (List.mem_cons_self _ _)
          obtain ⟨ws, hscan, hws, hback⟩ := ih2 [] (by simp)
          simp only [List.nil_append] at hscan hback
          have hpass := scan_passthrough (l :: ls) ts.flatten (by
            intro c hc; simp [isLowerAlnum, hls c hc])
          have hword : scan ((u :: l :: ls) ++ ts.flatten) =
              45 :: ((u + 32) :: l :: ls ++ (ws.map (fun v => 45 :: v)).flatten) := by
            simp only [List.cons_append] at hpass ⊢
            rw [scan_word u l _ hu hl, hpass, hscan]
          have hconv : camelPart 0 ((u + 32) :: l :: ls) = u :: l :: ls :=
            camelPart_word u (l :: ls) hu (fun c hc => Or.inr (hls c hc)) hnot
          have hfree : 45 ∉ (u + 32) :: l :: ls := by
            intro hm
            rcases List.mem_cons.mp hm with h | h
            · rw [isUpper_iff] at hu; omega
            · have := hls 45 h
              simp [isLower] at this
          cases R with
          | nil =>
            refine ⟨((u + 32) :: l :: ls) :: ws, ?_, ?_, ?_⟩
            · simpa using hword
            · intro w hw
              rcases List.mem_cons.mp hw with rfl | hw
              · exact hfree
              · exact hws w hw
            · simp [hconv, hback]
          | cons b tl =>
            obtain ⟨h1, h2⟩ := camelPart_emitWord b tl hR
            refine ⟨emitWord b (b :: tl) :: ((u + 32) :: l :: ls) :: ws, ?_, ?_, ?_⟩
            · have := scan_run_word b tl u l (ls ++ ts.flatten) hR hu hl
              simp only [List.cons_append, List.flatten_cons, List.map_cons,
                List.append_assoc] at this hword ⊢
              rw [this, hword]
            · intro w hw
              rcases List.mem_cons.mp hw with rfl | hw
              · exact h2
              · rcases List.mem_cons.mp hw with rfl | hw
                · exact hfree
                · exact hws w hw
            · simp [h1, hconv, hback]

/-- Round trip A → B → A on token sequences whose capitalised words are not acronyms
when uppercased. -/
theorem camel_kebab_camel (t : GoString) (ts : List GoString)
    (htok : ∀ x ∈ t :: ts, isAcronym x = true ∨
      (isCapitalised x = true ∧ isAcronym (toUpper x) = false)) :
    kebabToCamel (camelToKebab (t :: ts).flatten) = (t :: ts).flatten := by
  have hhead : ∃ c cs, (t :: ts).flatten = c :: cs ∧ isUpper c = true := by
    rcases htok t (List.mem_cons_self _ _) with ha | ⟨hcap, -⟩
    · have hup := List.all_eq_true.mp (isAcronym_all_upper t ha)
      have hlen := isAcronym_length t ha
      cases t with
      | nil => simp at hlen
      | cons b tl => exact ⟨b, tl ++ ts.flatten, by simp, hup b (List.mem_cons_self _ _)⟩
    · cases t with
      | nil => simp [isCapitalised] at hcap
      | cons u ls =>
        simp only [isCapitalised, Bool.and_eq_true] at hcap
        exact ⟨u, ls ++ ts.flatten, by simp, hcap.1⟩
  obtain ⟨c, cs, hcs, hc⟩ := hhead
  obtain ⟨ws, hscan, hws, hback⟩ := scan_words (t :: ts) htok [] (by simp)
  simp only [List.nil_append] at hscan hback
  rw [camelToKebab_eq_general, hcs, camelToKebabGeneral_upper c cs hc, ← hcs, hscan,
    kebabToCamel_eq]
  cases ws with
  | nil =>
    rw [hcs] at hback
    simp at hback
  | cons w ws =>
    simp only [List.map_cons, List.flatten_cons, List.cons_append, List.drop_succ_cons,
      List.drop_zero]
    rw [splitHyphen_words w ws (hws w (List.mem_cons_self _ _))
      (fun v hv => hws v (List.mem_cons_of_mem _ hv))]
    exact hback

/-! ## Claims about the classifiers -/

/-- C6: for every string `s`, `isCamelCase s` and `isKebabCase s` are never both true. -/
theorem classification_exclusive (s : GoString) :
    (isCamelCase s && isKebabCase s) = false := by
  by_contra h
  simp only [Bool.not_eq_false, Bool.and_eq_true] at h
  obtain ⟨c, cs, rfl, hu, -, -⟩ := (isCamelCase_iff s).mp h.1
  obtain ⟨d, ds, hd, hl⟩ := isKebabCase_head _ h.2
  simp only [List.cons.injEq] at hd
  obtain ⟨rfl, -⟩ := hd
  rw [isUpper_iff] at hu
  rw [isLowerAlnum_iff] at hl
  omega

/-- C7: `isCamelCase name` is true exactly when `name` is non-empty, its first byte is an
ASCII uppercase letter `A-Z`, and it contains neither a hyphen nor an underscore.  In
particular every all-uppercase name (`API`) and every capital letter followed only by
lowercase letters (`Header`, `Index`, `Footer`) is accepted, and every name starting with a
lowercase letter (`myComponent`) is rejected. -/
theorem isCamelCase_spec :
    (∀ name : GoString, isCamelCase name = true ↔
      (name ≠ [] ∧ (∃ c, name.head? = some c ∧ 65 ≤ c ∧ c ≤ 90) ∧ 45 ∉ name ∧ 95 ∉ name)) ∧
    (∀ name : GoString, name ≠ [] → (∀ c ∈ name, 65 ≤ c ∧ c ≤ 90) →
      isCamelCase name = true) ∧
    (∀ (c : Nat) (cs : GoString), 65 ≤ c ∧ c ≤ 90 → (∀ x ∈ cs, 97 ≤ x ∧ x ≤ 122) →
      isCamelCase (c :: cs) = true) ∧
    (∀ (c : Nat) (cs : GoString), 97 ≤ c ∧ c ≤ 122 → isCamelCase (c :: cs) = false) ∧
    isCamelCase (str "API") = true ∧ isCamelCase (str "Header") = true ∧
    isCamelCase (str "Index") = true ∧ isCamelCase (str "Footer") = true ∧
    isCamelCase (str "MyComponent") = true ∧ isCamelCase (str "myComponent") = false ∧
    isCamelCase (str "my-component") = false := by
  have main : ∀ name : GoString, isCamelCase name = true ↔
      (name ≠ [] ∧ (∃ c, name.head? = some c ∧ 65 ≤ c ∧ c ≤ 90) ∧ 45 ∉ name ∧ 95 ∉ name) := by
    intro name
    rw [isCamelCase_iff]
    constructor
    · rintro ⟨c, cs, rfl, hu, h1, h2⟩
      exact ⟨by simp, ⟨c, by simp, (isUpper_iff c).mp hu⟩, h1, h2⟩
    · rintro ⟨hne, ⟨c, hc, hu⟩, h1, h2⟩
      cases name with
      | nil => exact absurd rfl hne
      | cons d ds =>
        simp only [List.head?_cons, Option.some.injEq] at hc
        subst hc
        exact ⟨d, ds, rfl, (isUpper_iff d).mpr hu, h1, h2⟩
  refine ⟨main, ?_, ?_, ?_, by decide, by decide, by decide, by decide, by decide, by decide,
    by decide⟩
  · intro name hne hall
    rw [main]
    cases name with
    | nil => exact absurd rfl hne
    | cons d ds =>
      refine ⟨by simp, ⟨d, by simp, hall d (List.mem_cons_self _ _)⟩, ?_, ?_⟩
      · intro hm; have := hall 45 hm; omega
      · intro hm; have := hall 95 hm; omega
  · intro c cs hc hcs
    rw [main]
    refine ⟨by simp, ⟨c, by simp, hc⟩, ?_, ?_⟩
    · intro hm
      rcases List.mem_cons.mp hm with h | h
      · omega
      · have := hcs 45 h; omega
    · intro hm
      rcases List.mem_cons.mp hm with h | h
      · omega
      · have := hcs 95 h; omega
  · intro c cs hc
    rw [← Bool.not_eq_true, main]
    rintro ⟨-, ⟨d, hd, hu⟩, -⟩
    simp only [List.head?_cons, Option.some.injEq] at hd
    omega

/-- C8: `isKebabCase name` is true exactly when `name` is a non-empty sequence of non-empty
tokens over `[a-z0-9]` joined by single hyphens; equivalently, when it is non-empty, has
only lowercase letters, digits and hyphens, and has no leading, trailing or doubled
hyphen.  Every name containing an uppercase letter is rejected. -/
theorem isKebabCase_spec :
    (∀ name : GoString, isKebabCase name = true ↔
      ∃ ts : List GoString, ts ≠ [] ∧
        (∀ t ∈ ts, t ≠ [] ∧ ∀ c ∈ t, (97 ≤ c ∧ c ≤ 122) ∨ (48 ≤ c ∧ c ≤ 57)) ∧
        name = List.intercalate [45] ts) ∧
    (∀ name : GoString, isKebabCase name = true ↔
      name ≠ [] ∧ (∀ c ∈ name, (97 ≤ c ∧ c ≤ 122) ∨ (48 ≤ c ∧ c ≤ 57) ∨ c = 45) ∧
      name.head? ≠ some 45 ∧ name.getLast? ≠ some 45 ∧ ¬ ([45, 45] : GoString) <:+: name) ∧
    (∀ name : GoString, (∃ c ∈ name, 65 ≤ c ∧ c ≤ 90) → isKebabCase name = false) ∧
    isKebabCase (str "my-component") = true ∧ isKebabCase (str "my-Component") = false ∧
    isKebabCase (str "MyComponent") = false := by
  have chars : ∀ name : GoString, isKebabCase name = true ↔
      name ≠ [] ∧ (∀ c ∈ name, (97 ≤ c ∧ c ≤ 122) ∨ (48 ≤ c ∧ c ≤ 57) ∨ c = 45) ∧
      name.head? ≠ some 45 ∧ name.getLast? ≠ some 45 ∧
      ¬ ([45, 45] : GoString) <:+: name := by
    intro name
    rw [isKebabCase_iff_chars]
    simp only [isLowerAlnum_iff, or_assoc]
  refine ⟨?_, chars, ?_, by decide, by decide, by decide⟩
  · intro name
    rw [isKebabCase_iff_tokens]
    simp only [isLowerAlnum_iff]
  · rintro name ⟨c, hc, hu⟩
    rw [← Bool.not_eq_true, chars]
    rintro ⟨-, hall, -⟩
    have := hall c hc
    omega

/-! ## Claims about the B → A direction -/

/-- C4: for every name `s` accepted by `isKebabCase`, with hyphen-separated tokens `ts`,
`kebabToCamel s` is the concatenation without separator of the transformed tokens: a
token whose uppercased form is a recognized acronym is emitted fully uppercased (first
token or not), every other token has only its first letter uppercased. -/
theorem kebabToCamel_tokens (s : GoString) (ts : List GoString)
    (hk : isKebabCase s = true) (hts : ∀ t ∈ ts, 45 ∉ t)
    (hs : s = List.intercalate [45] ts) :
    kebabToCamel s = (ts.map specCamelToken).flatten := by
  obtain ⟨us, hne, hus, hsu⟩ := (isKebabCase_iff_tokens s).mp hk
  have hus45 : ∀ u ∈ us, 45 ∉ u :=
    fun u hu => not_mem_hyphen_of_lowerAlnum u (hus u hu).2
  cases us with
  | nil => exact absurd rfl hne
  | cons u us =>
    have hsplit : splitHyphen s = u :: us := by
      rw [hsu]; exact splitHyphen_intercalate u us hus45
    have hsplit2 : splitHyphen s = ts := by
      cases ts with
      | nil =>
        exfalso
        rw [hs] at hk
        simp [List.intercalate, isKebabCase] at hk
      | cons t ts => rw [hs]; exact splitHyphen_intercalate t ts hts
    have heq : u :: us = ts := by rw [← hsplit, hsplit2]
    subst heq
    rw [hsu]
    exact kebabToCamel_intercalate u us (fun x hx => (hus x hx).2)

/-- Instance of C4 at `api-client`, which becomes `APIClient`. -/
theorem kebabToCamel_tokens_witness :
    isKebabCase (str "api-client") = true ∧
    kebabToCamel (str "api-client") =
      ([str "api", str "client"].map specCamelToken).flatten ∧
    ([str "api", str "client"].map specCamelToken).flatten = str "APIClient" :=
  ⟨by decide,
   kebabToCamel_tokens (str "api-client") [str "api", str "client"] (by decide) (by decide)
     (by decide),
   by decide⟩

/-- C10: for every string `s`, `kebabToCamel s` contains no hyphen, and the empty token of
a doubled hyphen is dropped: `kebabToCamel (a ++ "--" ++ b) = kebabToCamel (a ++ "-" ++ b)`
for all `a` and `b` (so `my--component` gives `MyComponent`). -/
theorem kebabToCamel_hyphens :
    (∀ s : GoString, 45 ∉ kebabToCamel s) ∧
    (∀ a b : GoString, kebabToCamel (a ++ [45, 45] ++ b) = kebabToCamel (a ++ [45] ++ b)) ∧
    kebabToCamel (str "my--component") = str "MyComponent" := by
  refine ⟨?_, ?_, by decide⟩
  · intro s
    rw [kebabToCamel_eq]
    simp only [List.mem_flatten, List.mem_map, not_exists, not_and]
    rintro l ⟨p, hp, rfl⟩
    exact camelPart_not_mem p (splitHyphen_not_mem s p hp)
  · intro a b
    have h1 : a ++ [45, 45] ++ b = a ++ 45 :: (45 :: b) := by simp
    have h2 : a ++ [45] ++ b = a ++ 45 :: b := by simp
    rw [h1, h2, kebabToCamel_eq, kebabToCamel_eq, splitHyphen_append, splitHyphen_append]
    have h3 : splitHyphen (45 :: b) = [] :: splitHyphen b := by simp [splitHyphen]
    have h4 : camelPart 0 [] = [] := by decide
    rw [h3]
    simp [h4]

/-! ## Claims about the A → B direction and the round trips -/

/-- C3: for every non-empty sequence of tokens, each a recognized acronym or a capitalised
word (one uppercase letter followed by one or more lowercase letters), with no two
acronyms adjacent, `camelToKebab` of the concatenated tokens is the lower-cased tokens
joined by single hyphens. -/
theorem camelToKebab_tokens (ts : List GoString) (hne : ts ≠ [])
    (htok : ∀ t ∈ ts, t ∈ upperCaseAcronyms ∨ isCapitalisedWord t = true)
    (hadj : noAdjacentAcronyms ts = true) :
    camelToKebab ts.flatten = List.intercalate [45] (ts.map toLower) := by
  cases ts with
  | nil => exact absurd rfl hne
  | cons t ts =>
    apply camelToKebab_flatten t ts _ hadj
    intro x hx
    rcases htok x hx with h | h
    · exact Or.inl ((isAcronym_iff x).mpr h)
    · exact Or.inr (isCapitalisedAlnum_of_word x h)

/-- Instance of C3 at `UserAPIService`, which becomes `user-api-service`. -/
theorem camelToKebab_tokens_witness :
    camelToKebab [str "User", str "API", str "Service"].flatten =
      List.intercalate [45] ([str "User", str "API", str "Service"].map toLower) ∧
    [str "User", str "API", str "Service"].flatten = str "UserAPIService" ∧
    List.intercalate [45] ([str "User", str "API", str "Service"].map toLower) =
      str "user-api-service" :=
  ⟨camelToKebab_tokens [str "User", str "API", str "Service"] (by decide) (by decide)
     (by decide),
   by decide, by decide⟩

/-- C5, as the claim states it, fails: `APIURLID` is accepted by `isCamelCase`, and
`camelToKebab` turns it into `aPIURLID`, which `isKebabCase` rejects. -/
theorem camelToKebab_not_kebab :
    isCamelCase (str "APIURLID") = true ∧
    camelToKebab (str "APIURLID") = str "aPIURLID" ∧
    isKebabCase (camelToKebab (str "APIURLID")) = false := by decide

/-- C5, amended: every name that is a concatenation of one or more tokens, each a
recognized acronym or a capitalised word (an uppercase letter, a lowercase letter, then
lowercase letters or digits), with no two acronyms adjacent, is accepted by `isCamelCase`
and `camelToKebab` maps it to a name accepted by `isKebabCase`. -/
theorem camelToKebab_isKebabCase (ts : List GoString) (hne : ts ≠ [])
    (htok : ∀ t ∈ ts, t ∈ upperCaseAcronyms ∨ isCapitalisedAlnum t = true)
    (hadj : noAdjacentAcronyms ts = true) :
    isCamelCase ts.flatten = true ∧ isKebabCase (camelToKebab ts.flatten) = true := by
  cases ts with
  | nil => exact absurd rfl hne
  | cons t ts =>
    apply tokens_camel_to_kebab t ts _ hadj
    intro x hx
    rcases htok x hx with h | h
    · exact Or.inl ((isAcronym_iff x).mpr h)
    · exact Or.inr h

/-- Instance of the amended C5 at `Step2FAQPage`. -/
theorem camelToKebab_isKebabCase_witness :
    isCamelCase [str "Step2", str "FAQ", str "Page"].flatten = true ∧
    isKebabCase (camelToKebab [str "Step2", str "FAQ", str "Page"].flatten) = true :=
  camelToKebab_isKebabCase [str "Step2", str "FAQ", str "Page"] (by decide) (by decide)
    (by decide)

/-- C2, as the claim states it, fails: `a-b` is accepted by `isKebabCase`, `kebabToCamel`
gives `AB`, and `camelToKebab` turns `AB` into `aB`. -/
theorem roundtrip_kebab_counterexample :
    isKebabCase (str "a-b") = true ∧ kebabToCamel (str "a-b") = str "AB" ∧
    camelToKebab (kebabToCamel (str "a-b")) = str "aB" ∧
    camelToKebab (kebabToCamel (str "a-b")) ≠ str "a-b" := by decide

/-- C2, amended: for every name accepted by `isKebabCase` whose tokens each begin with two
lowercase letters and of which no two neighbouring tokens are both recognized acronyms
(in upper case), `camelToKebab (kebabToCamel s) = s`. -/
theorem kebab_roundtrip (ts : List GoString) (hne : ts ≠ [])
    (htok : ∀ t ∈ ts, isLowerToken t = true)
    (hadj : noAdjacentAcronyms (ts.map toUpper) = true) :
    isKebabCase (List.intercalate [45] ts) = true ∧
    camelToKebab (kebabToCamel (List.intercalate [45] ts)) = List.intercalate [45] ts := by
  cases ts with
  | nil => exact absurd rfl hne
  | cons t ts =>
    refine ⟨?_, kebab_camel_kebab t ts htok hadj⟩
    rw [isKebabCase_iff_tokens]
    refine ⟨t :: ts, by simp, ?_, rfl⟩
    intro u hu
    have hall := isLowerToken_lowerAlnum u (htok u hu)
    obtain ⟨a, b, rest, rfl, -⟩ := (isLowerToken_iff u).mp (htok u hu)
    exact ⟨by simp, hall⟩

/-- Instance of the amended C2 at `user-api-service`. -/
theorem kebab_roundtrip_witness :
    isKebabCase (List.intercalate [45] [str "user", str "api", str "service"]) = true ∧
    camelToKebab (kebabToCamel (List.intercalate [45] [str "user", str "api", str "service"]))
      = List.intercalate [45] [str "user", str "api", str "service"] :=
  kebab_roundtrip [str "user", str "api", str "service"] (by decide) (by decide) (by decide)

/-- C1, as the claim states it, fails: `UserId` is the concatenation of the capitalised
words `User` and `Id`; `camelToKebab` gives `user-id`, and `kebabToCamel` turns that into
`UserID`, because `ID` is a recognized acronym. -/
theorem roundtrip_camel_counterexample :
    (∀ t ∈ [str "User", str "Id"], t ∈ upperCaseAcronyms ∨ isCapitalisedWord t = true) ∧
    [str "User", str "Id"].flatten = str "UserId" ∧
    camelToKebab (str "UserId") = str "user-id" ∧
    kebabToCamel (str "user-id") = str "UserID" ∧
    kebabToCamel (camelToKebab (str "UserId")) ≠ str "UserId" := by decide

/-- C1, amended: for every string that is a concatenation of one or more tokens, each a
recognized acronym or a capitalised word (one uppercase letter followed by lowercase
letters) whose uppercased form is not a recognized acronym,
`kebabToCamel (camelToKebab s) = s`. -/
theorem camel_roundtrip (ts : List GoString) (hne : ts ≠ [])
    (htok : ∀ t ∈ ts, t ∈ upperCaseAcronyms ∨
      (isCapitalised t = true ∧ toUpper t ∉ upperCaseAcronyms)) :
    kebabToCamel (camelToKebab ts.flatten) = ts.flatten := by
  cases ts with
  | nil => exact absurd rfl hne
  | cons t ts =>
    apply camel_kebab_camel t ts
    intro x hx
    rcases htok x hx with h | ⟨h1, h2⟩
    · exact Or.inl ((isAcronym_iff x).mpr h)
    · refine Or.inr ⟨h1, ?_⟩
      rw [← Bool.not_eq_true, isAcronym_iff]
      exact h2

/-- Instances of the amended C1 at `UserAPIService`, `FormUI` and `FAQPage`. -/
theorem camel_roundtrip_witness :
    kebabToCamel (camelToKebab [str "User", str "API", str "Service"].flatten) =
      [str "User", str "API", str "Service"].flatten ∧
    kebabToCamel (camelToKebab [str "Form", str "UI"].flatten) =
      [str "Form", str "UI"].flatten ∧
    kebabToCamel (camelToKebab [str "FAQ", str "Page"].flatten) =
      [str "FAQ", str "Page"].flatten :=
  ⟨camel_roundtrip [str "User", str "API", str "Service"] (by decide) (by decide),
   camel_roundtrip [str "Form", str "UI"] (by decide) (by decide),
   camel_roundtrip [str "FAQ", str "Page"] (by decide) (by decide)⟩

/-- The function `processFileName` in terms of the base name of the path. -/
theorem processFileName_unfold (env : Env) (filePath : GoString) (config : Config) :
    processFileName env filePath config =
      if config.ExcludePatterns.any
          (fun pattern => containsSub (splitPath filePath).2 pattern) then
        Outcome.error SkipReason.excludedPattern
      else if config.ConversionDirection = str "camel-to-kebab" then
        if !isCamelCase (baseNameOf filePath) then
          if config.DebugMode && (baseNameOf filePath).isEmpty then Outcome.panic
          else Outcome.error SkipReason.notCamelCase
        else finishFileName env filePath (splitPath filePath).1
          (fileExtOf (splitPath filePath).2) (baseNameOf filePath)
          (camelToKebab (baseNameOf filePath))
      else
        if !isKebabCase (baseNameOf filePath) then Outcome.error SkipReason.notKebabCase
        else finishFileName env filePath (splitPath filePath).1
          (fileExtOf (splitPath filePath).2) (baseNameOf filePath)
          (kebabToCamel (baseNameOf filePath)) := rfl

/-- C9, as the claim states it, fails: `2fa-code` starts with a digit and is accepted by
`isKebabCase`, and in the kebab-to-camel direction `processFileName` returns a result
that renames `2fa-code.tsx` to `2faCode.tsx`, not an error. -/
theorem digit_name_converted :
    isKebabCase (str "2fa-code") = true ∧
    baseNameOf (str "2fa-code.tsx") = str "2fa-code" ∧
    processFileName (singleFileEnv (str "2fa-code.tsx")) (str "2fa-code.tsx")
        (plainConfig (str "kebab-to-camel")) =
      Outcome.ok
        { OldPath := str "2fa-code.tsx", NewPath := str "2faCode.tsx",
          OldBaseName := str "2fa-code", NewBaseName := str "2faCode", TargetDir := [],
          TotalFiles := 0, ProcessedFiles := 0, SkippedFiles := 0, ErrorFiles := 0,
          ImportUpdateFiles := [] } := by
  decide

/-- C9, amended: every name that contains an underscore is rejected by both classifiers,
so `processFileName` returns an error for it in either conversion direction; every name
that starts with a digit is rejected by `isCamelCase`, so `processFileName` returns an
error for it in the camel-to-kebab direction. -/
theorem nonconvertible_names :
    (∀ name : GoString, 95 ∈ name → isCamelCase name = false ∧ isKebabCase name = false) ∧
    (∀ (d : Nat) (rest : GoString), 48 ≤ d ∧ d ≤ 57 → isCamelCase (d :: rest) = false) ∧
    (∀ (env : Env) (filePath : GoString) (config : Config), 95 ∈ baseNameOf filePath →
      ∃ e, processFileName env filePath config = Outcome.error e) ∧
    (∀ (env : Env) (filePath : GoString) (config : Config) (d : Nat) (rest : GoString),
      baseNameOf filePath = d :: rest → 48 ≤ d ∧ d ≤ 57 →
      config.ConversionDirection = str "camel-to-kebab" →
      ∃ e, processFileName env filePath config = Outcome.error e) ∧
    processFileName (singleFileEnv (str "my_card.tsx")) (str "my_card.tsx")
        (plainConfig (str "kebab-to-camel")) = Outcome.error SkipReason.notKebabCase ∧
    processFileName (singleFileEnv (str "My_Card.tsx")) (str "My_Card.tsx")
        (plainConfig (str "camel-to-kebab")) = Outcome.error SkipReason.notCamelCase ∧
    processFileName (singleFileEnv (str "2fa-code.tsx")) (str "2fa-code.tsx")
        (plainConfig (str "camel-to-kebab")) = Outcome.error SkipReason.notCamelCase := by
  have hunder : ∀ name : GoString, 95 ∈ name →
      isCamelCase name = false ∧ isKebabCase name = false := by
    intro name h
    constructor
    · rw [← Bool.not_eq_true, isCamelCase_iff]
      rintro ⟨c, cs, -, -, -, h95⟩
      exact h95 h
    · rw [← Bool.not_eq_true, isKebabCase_iff_chars]
      rintro ⟨-, hall, -⟩
      have := hall 95 h
      simp [isLowerAlnum, isLower, isDigit] at this
  have hdigit : ∀ (d : Nat) (rest : GoString), 48 ≤ d ∧ d ≤ 57 →
      isCamelCase (d :: rest) = false := by
    intro d rest hd
    rw [← Bool.not_eq_true, isCamelCase_iff]
    rintro ⟨c, cs, hc, hu, -⟩
    simp only [List.cons.injEq] at hc
    rw [← hc.1, isUpper_iff] at hu
    omega
  have hne : ∀ l : GoString, l ≠ [] → l.isEmpty = false := by
    intro l hl
    cases l with
    | nil => exact absurd rfl hl
    | cons a l => rfl
  refine ⟨hunder, hdigit, ?_, ?_, by decide, by decide, by decide⟩
  · intro env filePath config h
    have hb : (baseNameOf filePath).isEmpty = false :=
      hne _ (by intro e; rw [e] at h; simp at h)
    obtain ⟨h1, h2⟩ := hunder _ h
    rw [processFileName_unfold]
    by_cases hex : (config.ExcludePatterns.any
        (fun pattern => containsSub (splitPath filePath).2 pattern)) = true
    · rw [if_pos hex]; exact ⟨_, rfl⟩
    · rw [if_neg hex]
      by_cases hdir : config.ConversionDirection = str "camel-to-kebab"
      · rw [if_pos hdir, h1, hb]
        simp only [Bool.and_false, Bool.not_false, if_true, Bool.false_eq_true, if_false]
        exact ⟨_, rfl⟩
      · rw [if_neg hdir, h2]
        exact ⟨_, rfl⟩
  · intro env filePath config d rest hbase hd hdir
    have h1 := hdigit d rest hd
    rw [← hbase] at h1
    have hb : (baseNameOf filePath).isEmpty = false := hne _ (by rw [hbase]; simp)
    rw [processFileName_unfold]
    by_cases hex : (config.ExcludePatterns.any
        (fun pattern => containsSub (splitPath filePath).2 pattern)) = true
    · rw [if_pos hex]; exact ⟨_, rfl⟩
    · rw [if_neg hex, if_pos hdir, h1, hb]
      simp only [Bool.and_false, Bool.not_false, if_true, Bool.false_eq_true, if_false]
      exact ⟨_, rfl⟩

/-! ## Directory lists -/

theorem hasPrefix_length (s pat : GoString) (h : hasPrefix s pat = true) :
    pat.length ≤ s.length := by
  induction s generalizing pat with
  | nil =>
    cases pat with
    | nil => simp
    | cons p ps => simp [hasPrefix] at h
  | cons c cs ih =>
    cases pat with
    | nil => simp
    | cons p ps =>
      simp only [hasPrefix, Bool.and_eq_true] at h
      have := ih ps h.2
      simp only [List.length_cons]
      omega

theorem hasPrefix_self_slash (d : GoString) : hasPrefix d (d ++ [47]) = false := by
  rw [← Bool.not_eq_true]
  intro h
  have := hasPrefix_length _ _ h
  simp at this

theorem isChildAt_eq (l : List GoString) (i : Nat) (d : GoString) (h : (i, d) ∈ l.enum) :
    isChildAt l i d = hasListedAncestor l d := by
  rw [Bool.eq_iff_iff]
  simp only [isChildAt, hasListedAncestor, List.any_eq_true, Bool.and_eq_true, bne_iff_ne,
    ne_eq]
  constructor
  · rintro ⟨⟨j, p⟩, hjp, -, hp⟩
    obtain ⟨hlt, hpe⟩ := List.mem_enum hjp
    exact ⟨p, hpe ▸ List.getElem_mem hlt, hp⟩
  · rintro ⟨p, hp, hpre⟩
    obtain ⟨j, hj, hjp⟩ := List.getElem_of_mem hp
    have hmem : (j, p) ∈ l.enum := by
      rw [List.mk_mem_enum_iff_getElem?, List.getElem?_eq_getElem hj, hjp]
    refine ⟨(j, p), hmem, ?_, hpre⟩
    intro hji
    simp only at hji
    subst hji
    rw [List.mk_mem_enum_iff_getElem?] at h hmem
    rw [h] at hmem
    simp only [Option.some.injEq] at hmem
    subst hmem
    rw [hasPrefix_self_slash] at hpre
    exact absurd hpre (by simp)

theorem filter_enum_notChild (l : List GoString) :
    (l.enum.filter (fun id => !isChildAt l id.1 id.2)).map Prod.snd =
      l.filter (fun d => !hasListedAncestor l d) := by
  have h1 : l.enum.filter (fun id => !isChildAt l id.1 id.2) =
      l.enum.filter ((fun d => !hasListedAncestor l d) ∘ Prod.snd) := by
    apply List.filter_congr
    rintro ⟨i, d⟩ hid
    simp only [Function.comp]
    rw [isChildAt_eq l i d hid]
  rw [h1, ← List.filter_map, List.enum_map_snd]

theorem hasListedAncestor_perm (l1 l2 : List GoString) (h : l1.Perm l2) (d : GoString) :
    hasListedAncestor l1 d = hasListedAncestor l2 d := by
  rw [Bool.eq_iff_iff]
  simp only [hasListedAncestor, List.any_eq_true]
  constructor
  · rintro ⟨p, hp, hpre⟩; exact ⟨p, h.mem_iff.mp hp, hpre⟩
  · rintro ⟨p, hp, hpre⟩; exact ⟨p, h.mem_iff.mpr hp, hpre⟩

theorem lexLe_total (a b : GoString) : lexLe a b = true ∨ lexLe b a = true := by
  induction a generalizing b with
  | nil => left; cases b <;> rfl
  | cons x xs ih =>
    cases b with
    | nil => right; rfl
    | cons y ys =>
      simp only [lexLe, Bool.or_eq_true, decide_eq_true_eq, Bool.and_eq_true, beq_iff_eq]
      rcases Nat.lt_trichotomy x y with h | h | h
      · left; left; exact h
      · subst h
        rcases ih ys with h2 | h2
        · left; right; exact ⟨rfl, h2⟩
        · right; right; exact ⟨rfl, h2⟩
      · right; left; exact h

theorem lexLe_trans (a b c : GoString) (hab : lexLe a b = true) (hbc : lexLe b c = true) :
    lexLe a c = true := by
  induction a generalizing b c with
  | nil => cases c <;> rfl
  | cons x xs ih =>
    cases b with
    | nil => simp [lexLe] at hab
    | cons y ys =>
      cases c with
      | nil => simp [lexLe] at hbc
      | cons z zs =>
        simp only [lexLe, Bool.or_eq_true, decide_eq_true_eq, Bool.and_eq_true,
          beq_iff_eq] at hab hbc ⊢
        rcases hab with h1 | ⟨h1, h1'⟩
        · rcases hbc with h2 | ⟨h2, -⟩
          · left; omega
          · left; omega
        · rcases hbc with h2 | ⟨h2, h2'⟩
          · left; omega
          · right; exact ⟨h1.trans h2, ih ys zs h1' h2'⟩

/-- The result of `removeChildDirectories`: sorted, and the kept entries of the input. -/
theorem removeChildDirectories_sorted_perm (sortSlice : List GoString → List GoString)
    (hperm : ∀ l, (sortSlice l).Perm l) (directories : List GoString) :
    List.Sorted (fun a b => lexLe a b = true) (removeChildDirectories sortSlice directories) ∧
    (removeChildDirectories sortSlice directories).Perm
      (directories.filter (fun d => !hasListedAncestor directories d)) := by
  haveI : IsTotal GoString (fun a b => lexLe a b = true) := ⟨lexLe_total⟩
  haveI : IsTrans GoString (fun a b => lexLe a b = true) := ⟨lexLe_trans⟩
  unfold removeChildDirectories
  by_cases hlen : directories.length ≤ 1
  · rw [if_pos hlen]
    match directories, hlen with
    | [], _ => simp
    | [d], _ =>
      have : hasListedAncestor [d] d = false := by
        simp [hasListedAncestor, hasPrefix_self_slash]
      simp [this]
  · rw [if_neg hlen]
    refine ⟨List.sorted_insertionSort _ _, ?_⟩
    refine (List.perm_insertionSort _ _).trans ?_
    rw [filter_enum_notChild]
    have hf : (fun d => !hasListedAncestor (sortSlice directories) d) =
        (fun d => !hasListedAncestor directories d) := by
      funext d
      rw [hasListedAncestor_perm _ _ (hperm directories) d]
    rw [hf]
    exact (hperm directories).filter _


theorem hasPrefix_iff (s pat : GoString) :
    hasPrefix s pat = true ↔ ∃ rest, s = pat ++ rest := by
  induction s generalizing pat with
  | nil =>
    cases pat with
    | nil => simp [hasPrefix]
    | cons p ps => simp [hasPrefix]
  | cons c cs ih =>
    cases pat with
    | nil => simp [hasPrefix]
    | cons p ps =>
      simp only [hasPrefix, Bool.and_eq_true, beq_iff_eq, ih, List.cons_append,
        List.cons.injEq]
      constructor
      · rintro ⟨rfl, rest, rfl⟩; exact ⟨rest, rfl, rfl⟩
      · rintro ⟨rest, rfl, rfl⟩; exact ⟨rfl, rest, rfl⟩

theorem sortByLength_perm (l : List GoString) : (sortByLength l).Perm l :=
  List.perm_insertionSort _ l

/-- C20: for every list of directory paths, `removeChildDirectories` returns, in ascending
byte-wise order, exactly the input entries `d` for which no input entry `p` makes `d`
start with `p + "/"` (whatever permutation the unstable sort by length produces). -/
theorem removeChildDirectories_spec (sortSlice : List GoString → List GoString)
    (hperm : ∀ l, (sortSlice l).Perm l) (directories : List GoString) :
    List.Sorted (fun a b => lexLe a b = true) (removeChildDirectories sortSlice directories) ∧
    (removeChildDirectories sortSlice directories).Perm
      (directories.filter (fun d => !hasListedAncestor directories d)) ∧
    (∀ d, d ∈ removeChildDirectories sortSlice directories ↔
      d ∈ directories ∧ ¬ ∃ p ∈ directories, ∃ rest, d = p ++ [47] ++ rest) := by
  obtain ⟨h1, h2⟩ := removeChildDirectories_sorted_perm sortSlice hperm directories
  refine ⟨h1, h2, ?_⟩
  intro d
  rw [h2.mem_iff, List.mem_filter]
  simp only [hasListedAncestor, Bool.not_eq_true', List.any_eq_false, hasPrefix_iff,
    not_exists, not_and]

/-- Instance of C20 at the list of the test suite, with a sibling that shares a string
prefix (`apps/web/application`) added. -/
theorem removeChildDirectories_spec_witness :
    (List.Sorted (fun a b => lexLe a b = true)
      (removeChildDirectories sortByLength
        [str "apps/web/app", str "apps/web/app/components", str "apps/admin/app",
         str "packages/ui/src", str "packages/ui/src/components",
         str "packages/ui/components", str "apps/web/application"]) ∧
    (removeChildDirectories sortByLength
        [str "apps/web/app", str "apps/web/app/components", str "apps/admin/app",
         str "packages/ui/src", str "packages/ui/src/components",
         str "packages/ui/components", str "apps/web/application"]).Perm
      ([str "apps/web/app", str "apps/web/app/components", str "apps/admin/app",
         str "packages/ui/src", str "packages/ui/src/components",
         str "packages/ui/components", str "apps/web/application"].filter
        (fun d => !hasListedAncestor
          [str "apps/web/app", str "apps/web/app/components", str "apps/admin/app",
           str "packages/ui/src", str "packages/ui/src/components",
           str "packages/ui/components", str "apps/web/application"] d))) ∧
    removeChildDirectories sortByLength
        [str "apps/web/app", str "apps/web/app/components", str "apps/admin/app",
         str "packages/ui/src", str "packages/ui/src/components",
         str "packages/ui/components", str "apps/web/application"] =
      [str "apps/admin/app", str "apps/web/app", str "apps/web/application",
       str "packages/ui/components", str "packages/ui/src"] :=
  ⟨⟨(removeChildDirectories_spec sortByLength sortByLength_perm _).1,
    (removeChildDirectories_spec sortByLength sortByLength_perm _).2.1⟩, by decide⟩

/-! ## Files and directory components -/

theorem fileNameRev_append (r rest acc : GoString) (h : 47 ∉ r) :
    fileNameRev (r ++ rest) acc = fileNameRev rest (r.reverse ++ acc) := by
  induction r generalizing acc with
  | nil => rfl
  | cons c r ih =>
    simp only [List.mem_cons, not_or] at h
    have hc : c ≠ 47 := fun e => h.1 e.symm
    simp only [List.cons_append, fileNameRev, hc, if_false, List.append_eq]
    rw [ih (c :: acc) h.2]
    simp

theorem getLast?_eq_some_reverse (l : GoString) (c : Nat) (h : l.getLast? = some c) :
    ∃ r, l.reverse = c :: r := by
  cases hr : l.reverse with
  | nil =>
    have : l = [] := by simpa using hr
    subst this
    simp at h
  | cons d r =>
    have : l = (d :: r).reverse := by rw [← hr, List.reverse_reverse]
    subst this
    simp at h
    exact ⟨r, by rw [h]⟩

/-- The library function `filepath.Split` on a directory part followed by a plain name. -/
theorem splitPath_append (dir name : GoString) (hdir : dir = [] ∨ dir.getLast? = some 47)
    (hname : 47 ∉ name) : splitPath (dir ++ name) = (dir, name) := by
  have hrev : 47 ∉ name.reverse := by simpa using hname
  have hfile : fileNameRev (dir ++ name).reverse [] = name := by
    rw [List.reverse_append, fileNameRev_append _ _ _ hrev]
    rcases hdir with h | h
    · subst h; simp [fileNameRev]
    · obtain ⟨r, hr⟩ := getLast?_eq_some_reverse dir 47 h
      rw [hr]
      simp [fileNameRev]
  simp only [splitPath, hfile, List.length_append, Nat.add_sub_cancel, List.take_left']

theorem trimSuffixSlash_append (dir name : GoString) (hname : 47 ∉ name) (hne : name ≠ []) :
    trimSuffixSlash (dir ++ name) = dir ++ name := by
  unfold trimSuffixSlash
  rw [if_neg]
  rw [List.getLast?_append_of_ne_nil _ hne]
  intro h
  exact hname (List.mem_of_getLast?_eq_some h)

/-- The function `processDirComponent` on a directory part followed by a plain name. -/
theorem processDirComponent_unfold (env : Env) (dir name : GoString) (config : Config)
    (hdir : dir = [] ∨ dir.getLast? = some 47) (hname : 47 ∉ name) (hne : name ≠ []) :
    processDirComponent env (dir ++ name) config =
      if !(env.stat (env.join (dir ++ name) (str "index.tsx")) ||
          env.stat (env.join (dir ++ name) (str "index.jsx"))) then
        Outcome.error SkipReason.indexNotFound
      else if config.ExcludePatterns.any (fun pattern => containsSub name pattern) then
        Outcome.error SkipReason.excludedPattern
      else if config.ConversionDirection = str "camel-to-kebab" then
        if !isCamelCase name then Outcome.error SkipReason.notCamelCase
        else finishDirComponent env (dir ++ name) dir name (camelToKebab name)
      else
        if !isKebabCase name then Outcome.error SkipReason.notKebabCase
        else finishDirComponent env (dir ++ name) dir name (kebabToCamel name) := by
  simp only [processDirComponent, trimSuffixSlash_append dir name hname hne,
    splitPath_append dir name hdir hname]


/-- When `processFileName` does not panic, it returns an error exactly when a skip rule
applies: an exclusion pattern occurs in the file name, the base name is not in the source
convention of the direction, or the destination exists and differs from the source. -/
theorem processFileName_error_iff (env : Env) (filePath : GoString) (config : Config)
    (hnp : processFileName env filePath config ≠ Outcome.panic) :
    (∃ e, processFileName env filePath config = Outcome.error e) ↔
      ((∃ pattern ∈ config.ExcludePatterns,
          containsSub (splitPath filePath).2 pattern = true) ∨
       (if config.ConversionDirection = str "camel-to-kebab"
          then isCamelCase (baseNameOf filePath) = false
          else isKebabCase (baseNameOf filePath) = false) ∨
       (env.stat (env.join (splitPath filePath).1
            ((if config.ConversionDirection = str "camel-to-kebab"
                then camelToKebab (baseNameOf filePath)
                else kebabToCamel (baseNameOf filePath)) ++
              fileExtOf (splitPath filePath).2)) = true ∧
         env.join (splitPath filePath).1
            ((if config.ConversionDirection = str "camel-to-kebab"
                then camelToKebab (baseNameOf filePath)
                else kebabToCamel (baseNameOf filePath)) ++
              fileExtOf (splitPath filePath).2) ≠ filePath)) := by
  rw [processFileName_unfold] at hnp ⊢
  by_cases hex : (config.ExcludePatterns.any
      (fun pattern => containsSub (splitPath filePath).2 pattern)) = true
  · rw [if_pos hex]
    simp only [List.any_eq_true] at hex
    exact ⟨fun _ => Or.inl hex, fun _ => ⟨_, rfl⟩⟩
  · rw [if_neg hex] at hnp ⊢
    have hex2 : ¬ ∃ pattern ∈ config.ExcludePatterns,
        containsSub (splitPath filePath).2 pattern = true := by
      simpa [List.any_eq_true] using hex
    by_cases hdir : config.ConversionDirection = str "camel-to-kebab"
    · simp only [hdir, if_true] at hnp ⊢
      cases hc : isCamelCase (baseNameOf filePath) with
      | false =>
        simp only [hc, Bool.not_false, if_true] at hnp ⊢
        split_ifs at hnp ⊢ with hd
        · exact absurd rfl hnp
        · exact ⟨fun _ => Or.inr (Or.inl trivial), fun _ => ⟨_, rfl⟩⟩
      | true =>
        simp only [Bool.not_true, Bool.false_eq_true, if_false, finishFileName,
          Bool.and_eq_true, decide_eq_true_eq]
        split_ifs with hcol
        · exact ⟨fun _ => Or.inr (Or.inr hcol), fun _ => ⟨_, rfl⟩⟩
        · constructor
          · rintro ⟨e, he⟩; exact absurd he (by simp)
          · rintro (h | h | h)
            · exact absurd h hex2
            · exact absurd h (by simp)
            · exact absurd h hcol
    · simp only [hdir, if_false] at hnp ⊢
      cases hc : isKebabCase (baseNameOf filePath) with
      | false =>
        simp only [Bool.not_false, if_true]
        exact ⟨fun _ => Or.inr (Or.inl trivial), fun _ => ⟨_, rfl⟩⟩
      | true =>
        simp only [Bool.not_true, Bool.false_eq_true, if_false, finishFileName,
          Bool.and_eq_true, decide_eq_true_eq]
        split_ifs with hcol
        · exact ⟨fun _ => Or.inr (Or.inr hcol), fun _ => ⟨_, rfl⟩⟩
        · constructor
          · rintro ⟨e, he⟩; exact absurd he (by simp)
          · rintro (h | h | h)
            · exact absurd h hex2
            · exact absurd h (by simp)
            · exact absurd h hcol

/-- With `UserCard.tsx` and `user-card.tsx` both present, converting either of them in
its direction is skipped with the error of an existing destination. -/
theorem processFileName_collision :
    processFileName (listEnv [str "src/UserCard.tsx", str "src/user-card.tsx"])
        (str "src/UserCard.tsx") (plainConfig (str "camel-to-kebab")) =
      Outcome.error SkipReason.targetExists ∧
    processFileName (listEnv [str "src/UserCard.tsx", str "src/user-card.tsx"])
        (str "src/user-card.tsx") (plainConfig (str "kebab-to-camel")) =
      Outcome.error SkipReason.targetExists := by decide

/-- C14, failing input: for the file `.tsx` (empty base name) with debug output on and the
camel-to-kebab direction, the skip rule "base name not in the source convention" applies,
and `processFileName` panics at `baseName[0]` instead of returning an error. -/
theorem processFileName_empty_base_debug :
    baseNameOf (str ".tsx") = [] ∧ isCamelCase (baseNameOf (str ".tsx")) = false ∧
    processFileName (singleFileEnv (str ".tsx")) (str ".tsx")
        (debugConfig (str "camel-to-kebab")) = Outcome.panic ∧
    processFileName (singleFileEnv (str ".tsx")) (str ".tsx")
        (plainConfig (str "camel-to-kebab")) = Outcome.error SkipReason.notCamelCase := by
  decide

/-- C18: for every directory `dir ++ name` (a directory part, empty or ending in `/`,
followed by the plain name) that contains `index.tsx` or `index.jsx`, whose name matches
no exclusion pattern and is in the source convention of the requested direction, and
whose destination does not exist, `processDirComponent` returns the result with the
directory's name as old base name, the converted name as new base name, the given path as
old path and the directory part joined with the converted name as new path. -/
theorem processDirComponent_result (env : Env) (dir name : GoString) (config : Config)
    (hdir : dir = [] ∨ dir.getLast? = some 47) (hname : 47 ∉ name) (hne : name ≠ [])
    (hindex : env.stat (env.join (dir ++ name) (str "index.tsx")) = true ∨
      env.stat (env.join (dir ++ name) (str "index.jsx")) = true)
    (hexcl : ∀ pattern ∈ config.ExcludePatterns, containsSub name pattern = false)
    (hconv : (config.ConversionDirection = str "camel-to-kebab" ∧ isCamelCase name = true) ∨
      (config.ConversionDirection = str "kebab-to-camel" ∧ isKebabCase name = true))
    (hdest : env.stat (env.join dir
      (if config.ConversionDirection = str "camel-to-kebab" then camelToKebab name
        else kebabToCamel name)) = false) :
    processDirComponent env (dir ++ name) config =
      Outcome.ok
        { OldPath := dir ++ name,
          NewPath := env.join dir
            (if config.ConversionDirection = str "camel-to-kebab" then camelToKebab name
              else kebabToCamel name),
          OldBaseName := name,
          NewBaseName :=
            (if config.ConversionDirection = str "camel-to-kebab" then camelToKebab name
              else kebabToCamel name),
          TargetDir := [], TotalFiles := 0, ProcessedFiles := 0, SkippedFiles := 0,
          ErrorFiles := 0, ImportUpdateFiles := [] } := by
  rw [processDirComponent_unfold env dir name config hdir hname hne]
  have h1 : (env.stat (env.join (dir ++ name) (str "index.tsx")) ||
      env.stat (env.join (dir ++ name) (str "index.jsx"))) = true := by
    rcases hindex with h | h <;> simp [h]
  have h2 : (config.ExcludePatterns.any (fun pattern => containsSub name pattern)) = false := by
    rw [List.any_eq_false]
    intro x hx
    simp [hexcl x hx]
  rw [h1, h2]
  simp only [Bool.not_true, Bool.false_eq_true, if_false]
  rcases hconv with ⟨hd, hc⟩ | ⟨hd, hc⟩
  · simp only [hd, if_true] at hdest ⊢
    simp [hc, finishDirComponent, hdest]
  · have hd2 : ¬ config.ConversionDirection = str "camel-to-kebab" := by
      rw [hd]; decide
    simp only [hd2, if_false] at hdest ⊢
    simp [hc, finishDirComponent, hdest]

/-- Instances of C18: `IconButton` becomes `icon-button`, `user-avatar` becomes
`UserAvatar`. -/
theorem processDirComponent_result_witness :
    processDirComponent
        (listEnv [str "src/common/IconButton", str "src/common/IconButton/index.tsx"])
        (str "src/common/" ++ str "IconButton") (plainConfig (str "camel-to-kebab")) =
      Outcome.ok
        { OldPath := str "src/common/IconButton", NewPath := str "src/common/icon-button",
          OldBaseName := str "IconButton", NewBaseName := str "icon-button", TargetDir := [],
          TotalFiles := 0, ProcessedFiles := 0, SkippedFiles := 0, ErrorFiles := 0,
          ImportUpdateFiles := [] } ∧
    processDirComponent
        (listEnv [str "src/features/user-avatar", str "src/features/user-avatar/index.jsx"])
        (str "src/features/" ++ str "user-avatar") (plainConfig (str "kebab-to-camel")) =
      Outcome.ok
        { OldPath := str "src/features/user-avatar", NewPath := str "src/features/UserAvatar",
          OldBaseName := str "user-avatar", NewBaseName := str "UserAvatar", TargetDir := [],
          TotalFiles := 0, ProcessedFiles := 0, SkippedFiles := 0, ErrorFiles := 0,
          ImportUpdateFiles := [] } :=
  ⟨(processDirComponent_result _ (str "src/common/") (str "IconButton")
      (plainConfig (str "camel-to-kebab")) (by decide) (by decide) (by decide) (by decide)
      (by decide) (by decide) (by decide)).trans (by decide),
   (processDirComponent_result _ (str "src/features/") (str "user-avatar")
      (plainConfig (str "kebab-to-camel")) (by decide) (by decide) (by decide) (by decide)
      (by decide) (by decide) (by decide)).trans (by decide)⟩

/-! ## The walk of `findTsxJsxFiles` -/

mutual
theorem allFiles_above (path : GoString) (above : List GoString) (t : Tree) :
    ∀ pd ∈ allFiles path above t, ∀ a ∈ above, a ∈ pd.2 := by
  cases t with
  | file name =>
    intro pd hpd a ha
    simp only [allFiles, List.mem_singleton] at hpd
    subst hpd
    exact ha
  | dir name entries =>
    intro pd hpd a ha
    simp only [allFiles] at hpd
    exact allFilesEntries_above path (above ++ [pathBase path]) entries pd hpd a
      (List.mem_append_left _ ha)
theorem allFilesEntries_above (path : GoString) (above : List GoString) (f : Forest) :
    ∀ pd ∈ allFilesEntries path above f, ∀ a ∈ above, a ∈ pd.2 := by
  cases f with
  | nil =>
    intro pd hpd
    simp [allFilesEntries] at hpd
  | cons entry more =>
    intro pd hpd a ha
    simp only [allFilesEntries, List.mem_append] at hpd
    rcases hpd with h | h
    · exact allFiles_above _ above entry pd h a ha
    · exact allFilesEntries_above path above more pd h a ha
end

/-- The filter of the specification: extension `.tsx` or `.jsx`, no pruned directory
above. -/
theorem filter_pruned_above (config : Config) (l : List (GoString × List GoString))
    (base : GoString) (hbase : skipsDir config base = true) (h : ∀ pd ∈ l, base ∈ pd.2) :
    l.filter (fun pd => isTsxJsx pd.1 && !pd.2.any (skipsDir config)) = [] := by
  rw [List.filter_eq_nil_iff]
  intro pd hpd
  have : pd.2.any (skipsDir config) = true :=
    List.any_eq_true.mpr ⟨base, h pd hpd, hbase⟩
  simp [this]

mutual
theorem walkTsxJsx_eq (config : Config) (path : GoString) (above : List GoString)
    (habove : above.any (skipsDir config) = false) (t : Tree) :
    walkTsxJsx config path t =
      ((allFiles path above t).filter
        (fun pd => isTsxJsx pd.1 && !pd.2.any (skipsDir config))).map Prod.fst := by
  cases t with
  | file name =>
    simp only [walkTsxJsx, allFiles]
    by_cases h : isTsxJsx path = true
    · simp [h, habove]
    · simp [h]
  | dir name entries =>
    simp only [walkTsxJsx, allFiles]
    by_cases h : skipsDir config (pathBase path) = true
    · rw [if_pos h, filter_pruned_above config _ (pathBase path) h]
      · rfl
      · intro pd hpd
        exact allFilesEntries_above path _ entries pd hpd (pathBase path) (by simp)
    · rw [if_neg h]
      apply walkTsxJsxEntries_eq
      simp only [Bool.not_eq_true] at h
      simp [List.any_append, habove, h]
theorem walkTsxJsxEntries_eq (config : Config) (path : GoString) (above : List GoString)
    (habove : above.any (skipsDir config) = false) (f : Forest) :
    walkTsxJsxEntries config path f =
      ((allFilesEntries path above f).filter
        (fun pd => isTsxJsx pd.1 && !pd.2.any (skipsDir config))).map Prod.fst := by
  cases f with
  | nil => simp [walkTsxJsxEntries, allFilesEntries]
  | cons entry more =>
    simp only [walkTsxJsxEntries, allFilesEntries, List.filter_append, List.map_append]
    rw [walkTsxJsx_eq config _ above habove entry,
      walkTsxJsxEntries_eq config path above habove more]
end

theorem skipsDir_iff (config : Config) (base : GoString) :
    skipsDir config base = true ↔ isPrunedName config base := by
  simp only [skipsDir, isExcludedDir, isPrunedName, Bool.or_eq_true, Bool.and_eq_true,
    List.contains_iff_exists_mem_beq, List.any_eq_true, beq_iff_eq, bne_iff_ne,
    hasPrefix_iff, List.mem_cons, List.mem_singleton, List.not_mem_nil, or_false,
    List.singleton_append]
  constructor
  · rintro ((⟨a, (rfl | rfl | rfl | rfl | rfl), rfl⟩ | h) | ⟨x, hx, rfl⟩)
    · exact Or.inl rfl
    · exact Or.inr (Or.inl rfl)
    · exact Or.inr (Or.inr (Or.inl rfl))
    · exact Or.inr (Or.inr (Or.inr (Or.inl rfl)))
    · exact Or.inr (Or.inr (Or.inr (Or.inr (Or.inl rfl))))
    · exact Or.inr (Or.inr (Or.inr (Or.inr (Or.inr (Or.inl h)))))
    · exact Or.inr (Or.inr (Or.inr (Or.inr (Or.inr (Or.inr hx)))))
  · rintro (h | h | h | h | h | h | h)
    · exact Or.inl (Or.inl ⟨_, Or.inl rfl, h⟩)
    · exact Or.inl (Or.inl ⟨_, Or.inr (Or.inl rfl), h⟩)
    · exact Or.inl (Or.inl ⟨_, Or.inr (Or.inr (Or.inl rfl)), h⟩)
    · exact Or.inl (Or.inl ⟨_, Or.inr (Or.inr (Or.inr (Or.inl rfl))), h⟩)
    · exact Or.inl (Or.inl ⟨_, Or.inr (Or.inr (Or.inr (Or.inr rfl))), h⟩)
    · exact Or.inl (Or.inr h)
    · exact Or.inr ⟨base, h, rfl⟩


/-- C19: for every directory tree, `findTsxJsxFiles` returns, in walk order, exactly the
files whose extension is `.tsx` or `.jsx` and that do not lie in or below a pruned
directory (base name `node_modules`, `dist`, `build`, `.git` or `.next`, a name starting
with a dot other than `.`, or an entry of `config.ExcludeDirectories`); files with another
extension (`.ts`, `.md`) are never returned. -/
theorem findTsxJsxFiles_spec :
    (∀ (rootDir : GoString) (config : Config) (tree : Tree),
      findTsxJsxFiles rootDir config tree =
        ((allFiles rootDir [] tree).filter
          (fun pd => isTsxJsx pd.1 && !pd.2.any (skipsDir config))).map Prod.fst) ∧
    (∀ (rootDir : GoString) (config : Config) (tree : Tree) (p : GoString),
      p ∈ findTsxJsxFiles rootDir config tree ↔
        ∃ dirs, (p, dirs) ∈ allFiles rootDir [] tree ∧
          (fileExtOf p = str ".tsx" ∨ fileExtOf p = str ".jsx") ∧
          ∀ d ∈ dirs, ¬ isPrunedName config d) ∧
    (∀ (rootDir : GoString) (config : Config) (tree : Tree) (p : GoString),
      p ∈ findTsxJsxFiles rootDir config tree →
        fileExtOf p ≠ str ".ts" ∧ fileExtOf p ≠ str ".md") ∧
    findTsxJsxFiles (str "/p/components") (plainConfig []) sampleTree =
      [str "/p/components/common/Button.tsx",
       str "/p/components/common/IconButton/index.tsx",
       str "/p/components/common/input-field.tsx"] := by
  have h1 : ∀ (rootDir : GoString) (config : Config) (tree : Tree),
      findTsxJsxFiles rootDir config tree =
        ((allFiles rootDir [] tree).filter
          (fun pd => isTsxJsx pd.1 && !pd.2.any (skipsDir config))).map Prod.fst :=
    fun rootDir config tree => walkTsxJsx_eq config rootDir [] (by simp) tree
  have h2 : ∀ (rootDir : GoString) (config : Config) (tree : Tree) (p : GoString),
      p ∈ findTsxJsxFiles rootDir config tree ↔
        ∃ dirs, (p, dirs) ∈ allFiles rootDir [] tree ∧
          (fileExtOf p = str ".tsx" ∨ fileExtOf p = str ".jsx") ∧
          ∀ d ∈ dirs, ¬ isPrunedName config d := by
    intro rootDir config tree p
    rw [h1]
    simp only [List.mem_map, List.mem_filter, Bool.and_eq_true, Bool.not_eq_true',
      List.any_eq_false, isTsxJsx, Bool.or_eq_true, beq_iff_eq, Prod.exists,
      exists_and_right, exists_eq_right, ← skipsDir_iff, Bool.not_eq_true]
  refine ⟨h1, h2, ?_, by decide⟩
  intro rootDir config tree p hp
  obtain ⟨dirs, -, hext, -⟩ := (h2 rootDir config tree p).mp hp
  rcases hext with h | h <;> rw [h] <;> decide

/-! ## Import rewriting -/

theorem expandLoop_nil (fuel : Nat) (groups : List GoString) :
    expandLoop fuel [] groups = [] := by
  cases fuel <;> rfl

theorem expandLoop_plain (w t : GoString) (f : Nat) (groups : List GoString)
    (hw : 36 ∉ w) :
    expandLoop (w.length + f) (w ++ t) groups = w ++ expandLoop f t groups := by
  induction w with
  | nil => simp
  | cons c w ih =>
    simp only [List.mem_cons, not_or] at hw
    have hc : c ≠ 36 := fun e => hw.1 e.symm
    have hlen : (c :: w).length + f = (w.length + f) + 1 := by simp; omega
    rw [hlen]
    simp only [List.cons_append, expandLoop, hc, if_false, List.append_eq]
    rw [ih hw.2]

theorem expandLoop_group (d : Nat) (t : GoString) (f : Nat) (groups : List GoString)
    (hd : 48 ≤ d ∧ d ≤ 52) :
    expandLoop (f + 1) (36 :: 123 :: d :: 125 :: t) groups =
      groups.getD (d - 48) [] ++ expandLoop f t groups := by
  have h1 : isNameChar d = true := by
    simp only [isNameChar, Bool.or_eq_true, isDigit_iff]
    left; right; omega
  have h2 : isNameChar 125 = false := by decide
  have hex : extractName (123 :: d :: 125 :: t) = some ([d], t) := by
    simp [extractName, List.takeWhile, List.dropWhile, h1, h2]
  simp only [expandLoop, if_true, hex, groupValue, hd, and_self]

/-- The replacement for a new name without `$`: groups 1 to 3, the new name, group 4. -/
theorem expandReplacement_plain (newName g0 g1 g2 g3 g4 : GoString) (h : 36 ∉ newName) :
    expandReplacement newName [g0, g1, g2, g3, g4] = g1 ++ g2 ++ g3 ++ newName ++ g4 := by
  have e1 : str "${1}${2}${3}" = [36, 123, 49, 125, 36, 123, 50, 125, 36, 123, 51, 125] := by
    decide
  have e4 : str "${4}" = [36, 123, 52, 125] := by decide
  unfold expandReplacement
  rw [e1, e4]
  have hlen : ([36, 123, 49, 125, 36, 123, 50, 125, 36, 123, 51, 125] ++ newName ++
      [36, 123, 52, 125] : GoString).length = (newName.length + 13) + 1 + 1 + 1 := by
    simp
  rw [hlen]
  simp only [List.cons_append, List.nil_append]
  rw [expandLoop_group 49 _ _ _ (by omega), expandLoop_group 50 _ _ _ (by omega),
    expandLoop_group 51 _ _ _ (by omega), expandLoop_plain newName _ 13 _ h,
    expandLoop_group 52 _ 12 _ (by omega), expandLoop_nil]
  simp

theorem matchName_some (oldName rest : GoString) (q : Nat) (after : GoString)
    (h : matchName oldName rest = some (q, after)) :
    rest = oldName ++ q :: after ∧ isQuote q = true := by
  unfold matchName at h
  split_ifs at h with hp
  obtain ⟨r, rfl⟩ := (hasPrefix_iff _ _).mp hp
  simp only [List.drop_left'] at h
  cases r with
  | nil => simp at h
  | cons c r =>
    simp only at h
    split_ifs at h with hq
    simp only [Option.some.injEq, Prod.mk.injEq] at h
    obtain ⟨rfl, rfl⟩ := h
    exact ⟨rfl, hq⟩

theorem dotSlashOptions_mem (rest g2 : GoString) (h : g2 ∈ dotSlashOptions rest) :
    (∃ r, rest = g2 ++ r) ∧ (g2 = [] ∨ g2.getLast? = some 47) ∧
      ∀ c ∈ g2, isQuote c = false := by
  have e1 : str "../" = [46, 46, 47] := by decide
  have e2 : str "./" = [46, 47] := by decide
  unfold dotSlashOptions at h
  rw [e1, e2] at h
  simp only [List.mem_append, List.mem_singleton] at h
  rcases h with h | h
  · split_ifs at h with h1 h2
    · simp only [List.mem_singleton] at h
      subst h
      exact ⟨(hasPrefix_iff _ _).mp h1, Or.inr rfl, by decide⟩
    · simp only [List.mem_singleton] at h
      subst h
      exact ⟨(hasPrefix_iff _ _).mp h2, Or.inr rfl, by decide⟩
    · simp at h
  · subst h
    exact ⟨⟨rest, rfl⟩, Or.inl rfl, by simp⟩

theorem dirOptions_mem (rest g3 : GoString) (h : g3 ∈ dirOptions rest) :
    (∃ r, rest = g3 ++ r) ∧ (g3 = [] ∨ g3.getLast? = some 47) ∧
      ∀ c ∈ g3, isQuote c = false := by
  unfold dirOptions slashPrefixes at h
  simp only [List.mem_append, List.mem_reverse, List.mem_filter, List.mem_inits,
    beq_iff_eq, List.mem_singleton] at h
  rcases h with ⟨hpre, hlast⟩ | h
  · refine ⟨?_, Or.inr hlast, ?_⟩
    · obtain ⟨r1, hr1⟩ := hpre
      obtain ⟨r2, hr2⟩ := List.takeWhile_prefix (fun c => !isQuote c) (l := rest)
      exact ⟨r1 ++ r2, by rw [← hr2, ← hr1, List.append_assoc]⟩
    · intro c hc
      have hmem : c ∈ rest.takeWhile (fun c => !isQuote c) := hpre.subset hc
      have := List.mem_takeWhile_imp hmem
      simpa using this
  · subst h
    exact ⟨⟨rest, rfl⟩, Or.inl rfl, by simp⟩

theorem getLast?_append_slash (a b : GoString) (ha : a = [] ∨ a.getLast? = some 47)
    (hb : b = [] ∨ b.getLast? = some 47) : a ++ b = [] ∨ (a ++ b).getLast? = some 47 := by
  rcases hb with rfl | hb
  · simpa using ha
  · right
    have hne : b ≠ [] := by rintro rfl; simp at hb
    rw [List.getLast?_append_of_ne_nil _ hne]
    exact hb

/-- A match of the pattern after group 1 splits the text into groups 2 and 3, the old
name, a quote and the rest. -/
theorem matchPath_some (oldName rest g2 g3 : GoString) (q : Nat) (after : GoString)
    (h : matchPath oldName rest = some (g2, g3, q, after)) :
    rest = g2 ++ g3 ++ oldName ++ q :: after ∧ isQuote q = true ∧
      (∀ c ∈ g2 ++ g3, isQuote c = false) ∧
      (g2 ++ g3 = [] ∨ (g2 ++ g3).getLast? = some 47) := by
  unfold matchPath at h
  obtain ⟨a2, ha2, h2⟩ := List.exists_of_findSome?_eq_some h
  obtain ⟨a3, ha3, h3⟩ := List.exists_of_findSome?_eq_some h2
  simp only [Option.map_eq_some', Prod.mk.injEq, Prod.exists] at h3
  obtain ⟨q1, after1, hm, rfl, rfl, rfl, rfl⟩ := h3
  obtain ⟨⟨r2, hr2⟩, hl2, hq2⟩ := dotSlashOptions_mem rest _ ha2
  obtain ⟨⟨r3, hr3⟩, hl3, hq3⟩ := dirOptions_mem _ _ ha3
  obtain ⟨hrest, hq⟩ := matchName_some _ _ _ _ hm
  have hdrop2 : rest.drop a2.length = r2 := by
    conv_lhs => rw [hr2]
    simp
  rw [hdrop2] at hr3
  have hdrop3 : rest.drop (a2.length + a3.length) = r3 := by
    conv_lhs => rw [hr2, hr3]
    rw [← List.append_assoc, ← List.length_append]
    simp
  rw [hdrop3] at hrest
  refine ⟨?_, hq, ?_, getLast?_append_slash a2 a3 hl2 hl3⟩
  · rw [hr2, hr3, hrest]; simp
  · intro c hc
    rcases List.mem_append.mp hc with h | h
    · exact hq2 c h
    · exact hq3 c h

/-- A match of the pattern at the head of `s` splits `s` into `from`, white space, a
quote, groups 2 and 3, the old name, a quote and the rest. -/
theorem matchImportAt_some (oldName s g1 g2 g3 g4 after : GoString)
    (h : matchImportAt oldName s = some (g1, g2, g3, g4, after)) :
    ∃ (ws : GoString) (q q2 : Nat),
      g1 = str "from" ++ ws ++ [q] ∧ g4 = [q2] ∧ ws ≠ [] ∧
      (∀ c ∈ ws, isSpace c = true) ∧ isQuote q = true ∧ isQuote q2 = true ∧
      s = g1 ++ g2 ++ g3 ++ oldName ++ g4 ++ after ∧
      (∀ c ∈ g2 ++ g3, isQuote c = false) ∧
      (g2 ++ g3 = [] ∨ (g2 ++ g3).getLast? = some 47) := by
  unfold matchImportAt at h
  split_ifs at h with hp
  obtain ⟨r, hr⟩ := (hasPrefix_iff _ _).mp hp
  have hlen : (str "from").length = 4 := by decide
  have hdrop : s.drop 4 = r := by
    rw [hr, ← hlen]; simp
  rw [hdrop] at h
  have hsplit := List.takeWhile_append_dropWhile isSpace r
  cases hd : r.dropWhile isSpace with
  | nil => rw [hd] at h; simp at h
  | cons q rest =>
    rw [hd] at h hsplit
    simp only at h
    split_ifs at h with hc
    simp only [Option.map_eq_some', Prod.mk.injEq, Prod.exists] at h
    obtain ⟨a2, a3, q2, after2, hm, rfl, rfl, rfl, rfl, rfl⟩ := h
    obtain ⟨hrest, hq2, hfree, hlast⟩ := matchPath_some _ _ _ _ _ _ hm
    have hws : ∀ c ∈ r.takeWhile isSpace, isSpace c = true :=
      fun c hc2 => List.mem_takeWhile_imp hc2
    generalize r.takeWhile isSpace = ws at hsplit hc hws ⊢
    refine ⟨ws, q, q2, rfl, rfl, hc.1, hws, hc.2, hq2, ?_, hfree, hlast⟩
    rw [hr, ← hsplit, hrest]
    simp

theorem matchImportAt_length (oldName : GoString) (c : Nat) (cs g1 g2 g3 g4 after : GoString)
    (h : matchImportAt oldName (c :: cs) = some (g1, g2, g3, g4, after)) :
    after.length ≤ cs.length := by
  obtain ⟨ws, q, q2, hg1, -, -, -, -, -, hs, -, -⟩ := matchImportAt_some _ _ _ _ _ _ _ h
  have := congrArg List.length hs
  rw [hg1] at this
  simp only [List.length_cons, List.length_append, List.length_singleton] at this
  omega

theorem replaceLoop_fuel (f g : Nat) (oldName newName s : GoString) (hf : s.length ≤ f)
    (hg : s.length ≤ g) : replaceLoop f oldName newName s = replaceLoop g oldName newName s := by
  induction f generalizing g s with
  | zero =>
    have : s = [] := List.eq_nil_of_length_eq_zero (by omega)
    subst this
    cases g <;> rfl
  | succ f ih =>
    cases s with
    | nil => cases g <;> rfl
    | cons c cs =>
      cases g with
      | zero => simp at hg
      | succ g =>
        simp only [List.length_cons, Nat.add_le_add_iff_right] at hf hg
        simp only [replaceLoop]
        cases hm : matchImportAt oldName (c :: cs) with
        | none => simp only; rw [ih g cs hf hg]
        | some m =>
          obtain ⟨g1, g2, g3, g4, after⟩ := m
          have hl := matchImportAt_length _ _ _ _ _ _ _ _ hm
          simp only
          rw [ih g after (by omega) (by omega)]

theorem rewriteImports_nil (oldName newName : GoString) :
    rewriteImports oldName newName [] = [] := rfl

theorem rewriteImports_cons_none (oldName newName : GoString) (c : Nat) (cs : GoString)
    (h : matchImportAt oldName (c :: cs) = none) :
    rewriteImports oldName newName (c :: cs) = c :: rewriteImports oldName newName cs := by
  simp only [rewriteImports, List.length_cons, replaceLoop, h]

theorem rewriteImports_cons_some (oldName newName : GoString) (c : Nat)
    (cs g1 g2 g3 g4 after : GoString)
    (h : matchImportAt oldName (c :: cs) = some (g1, g2, g3, g4, after)) :
    rewriteImports oldName newName (c :: cs) =
      expandReplacement newName [g1 ++ g2 ++ g3 ++ oldName ++ g4, g1, g2, g3, g4] ++
        rewriteImports oldName newName after := by
  have hl := matchImportAt_length _ _ _ _ _ _ _ _ h
  simp only [rewriteImports, List.length_cons, replaceLoop, h]
  rw [replaceLoop_fuel cs.length after.length _ _ after hl (le_refl _)]

theorem matchName_self (oldName post : GoString) (q : Nat) (hq : isQuote q = true) :
    matchName oldName (oldName ++ q :: post) = some (q, post) := by
  have hp : hasPrefix (oldName ++ q :: post) oldName = true :=
    (hasPrefix_iff _ _).mpr ⟨_, rfl⟩
  simp [matchName, hp, hq]

theorem first_quote_unique (a b x y : GoString) (q q2 : Nat)
    (ha : ∀ c ∈ a, isQuote c = false) (hb : ∀ c ∈ b, isQuote c = false)
    (hq : isQuote q = true) (hq2 : isQuote q2 = true) (h : a ++ q :: x = b ++ q2 :: y) :
    a = b ∧ q = q2 ∧ x = y := by
  induction a generalizing b with
  | nil =>
    cases b with
    | nil => simpa using h
    | cons d b =>
      simp only [List.nil_append, List.cons_append, List.cons.injEq] at h
      have := hb d (List.mem_cons_self _ _)
      rw [← h.1, hq] at this
      exact absurd this (by simp)
  | cons c a ih =>
    cases b with
    | nil =>
      simp only [List.nil_append, List.cons_append, List.cons.injEq] at h
      have := ha c (List.mem_cons_self _ _)
      rw [h.1, hq2] at this
      exact absurd this (by simp)
    | cons d b =>
      simp only [List.cons_append, List.cons.injEq] at h
      obtain ⟨h1, h2, h3⟩ := ih b (fun e he => ha e (List.mem_cons_of_mem _ he))
        (fun e he => hb e (List.mem_cons_of_mem _ he)) h.2
      exact ⟨by rw [h.1, h1], h2, h3⟩

theorem takeWhile_notQuote (a x : GoString) (q : Nat) (ha : ∀ c ∈ a, isQuote c = false)
    (hq : isQuote q = true) : (a ++ q :: x).takeWhile (fun c => !isQuote c) = a := by
  induction a with
  | nil => simp [List.takeWhile, hq]
  | cons c a ih =>
    have hc := ha c (List.mem_cons_self _ _)
    simp [List.takeWhile, hc, ih (fun e he => ha e (List.mem_cons_of_mem _ he))]

/-- The pattern after group 1 matches a quote-free path that ends with the old name, and
groups 2 and 3 together are the text before the old name. -/
theorem matchPath_complete (oldName p post : GoString) (q2 : Nat)
    (hp : ∀ c ∈ p, isQuote c = false) (hlast : p = [] ∨ p.getLast? = some 47)
    (hold : ∀ c ∈ oldName, isQuote c = false) (hq2 : isQuote q2 = true) :
    ∃ g2 g3, matchPath oldName (p ++ oldName ++ q2 :: post) = some (g2, g3, q2, post) ∧
      g2 ++ g3 = p := by
  have hfree : ∀ c ∈ p ++ oldName, isQuote c = false := by
    intro c hc
    rcases List.mem_append.mp hc with h | h
    · exact hp c h
    · exact hold c h
  cases hm : matchPath oldName (p ++ oldName ++ q2 :: post) with
  | none =>
    exfalso
    unfold matchPath at hm
    rw [List.findSome?_eq_none_iff] at hm
    have h0 := hm [] (by simp [dotSlashOptions])
    rw [List.findSome?_eq_none_iff] at h0
    have hmem : p ∈ dirOptions (p ++ oldName ++ q2 :: post) := by
      unfold dirOptions slashPrefixes
      rcases hlast with rfl | hl
      · simp
      · rw [takeWhile_notQuote (p ++ oldName) post q2 hfree hq2]
        simp only [List.mem_append, List.mem_reverse, List.mem_filter, List.mem_inits,
          beq_iff_eq, List.mem_singleton]
        exact Or.inl ⟨⟨oldName, rfl⟩, hl⟩
    have h1 := h0 p (by simpa using hmem)
    simp only [List.length_nil, Nat.zero_add, List.append_assoc, List.drop_left',
      Option.map_eq_none'] at h1
    rw [matchName_self oldName post q2 hq2] at h1
    exact absurd h1 (by simp)
  | some m =>
    obtain ⟨g2, g3, q, after⟩ := m
    obtain ⟨hrest, hq, hfree2, -⟩ := matchPath_some _ _ _ _ _ _ hm
    have hfree3 : ∀ c ∈ g2 ++ g3 ++ oldName, isQuote c = false := by
      intro c hc
      rcases List.mem_append.mp hc with h | h
      · exact hfree2 c h
      · exact hold c h
    obtain ⟨h1, h2, h3⟩ := first_quote_unique _ _ _ _ _ _ hfree hfree3 hq2 hq hrest
    subst h2 h3
    exact ⟨g2, g3, rfl, (List.append_cancel_right h1).symm⟩

/-- The pattern matches at the head of an occurrence `from`, white space, quote, path
prefix, old name, quote. -/
theorem matchImportAt_complete (oldName ws p post : GoString) (q q2 : Nat)
    (hws : ws ≠ []) (hspace : ∀ c ∈ ws, isSpace c = true) (hq : isQuote q = true)
    (hq2 : isQuote q2 = true) (hp : ∀ c ∈ p, isQuote c = false)
    (hlast : p = [] ∨ p.getLast? = some 47) (hold : ∀ c ∈ oldName, isQuote c = false) :
    ∃ g2 g3,
      matchImportAt oldName (str "from" ++ ws ++ [q] ++ p ++ oldName ++ [q2] ++ post) =
        some (str "from" ++ ws ++ [q], g2, g3, [q2], post) ∧ g2 ++ g3 = p := by
  obtain ⟨g2, g3, hm, hg⟩ := matchPath_complete oldName p post q2 hp hlast hold hq2
  refine ⟨g2, g3, ?_, hg⟩
  have hshape : str "from" ++ ws ++ [q] ++ p ++ oldName ++ [q2] ++ post =
      str "from" ++ (ws ++ q :: (p ++ oldName ++ q2 :: post)) := by simp
  rw [hshape]
  have hpre : hasPrefix (str "from" ++ (ws ++ q :: (p ++ oldName ++ q2 :: post)))
      (str "from") = true := (hasPrefix_iff _ _).mpr ⟨_, rfl⟩
  have hlen : (str "from").length = 4 := by decide
  have hdrop : (str "from" ++ (ws ++ q :: (p ++ oldName ++ q2 :: post))).drop 4 =
      ws ++ q :: (p ++ oldName ++ q2 :: post) := by
    rw [← hlen]; simp
  have hqs : isSpace q = false := by
    simp only [isQuote, Bool.or_eq_true, beq_iff_eq] at hq
    rcases hq with rfl | rfl <;> decide
  have htw : ∀ (w x : GoString), (∀ c ∈ w, isSpace c = true) →
      (w ++ q :: x).takeWhile isSpace = w ∧ (w ++ q :: x).dropWhile isSpace = q :: x := by
    intro w x hw
    induction w with
    | nil => simp [List.takeWhile, List.dropWhile, hqs]
    | cons c w ih =>
      have hc := hw c (List.mem_cons_self _ _)
      have := ih (fun e he => hw e (List.mem_cons_of_mem _ he))
      simp [List.takeWhile, List.dropWhile, hc, this]
  obtain ⟨h1, h2⟩ := htw ws (p ++ oldName ++ q2 :: post) hspace
  unfold matchImportAt
  rw [if_pos hpre, hdrop, h1, h2]
  simp only [hm, hws, hq, ne_eq, not_false_eq_true, and_self, if_true, Option.map_some']

theorem finalSegment_append (dir name : GoString)
    (hdir : dir = [] ∨ dir.getLast? = some 47) (hname : 47 ∉ name) :
    finalSegment (dir ++ name) = name := by
  unfold finalSegment
  rw [splitPath_append dir name hdir hname]

/-- Where the pattern matches nowhere, the content is left as it is. -/
theorem rewriteImports_id (oldName newName s : GoString)
    (h : ∀ pre t, s = pre ++ t → matchImportAt oldName t = none) :
    rewriteImports oldName newName s = s := by
  induction s with
  | nil => rfl
  | cons c cs ih =>
    rw [rewriteImports_cons_none _ _ _ _ (h [] _ rfl),
      ih (fun pre t ht => h (c :: pre) t (by rw [ht]; rfl))]

/-- A match of the pattern is an occurrence whose path ends in the old name as its final
segment. -/
theorem matchImportAt_importAt (oldName s g1 g2 g3 g4 after : GoString)
    (hslash : 47 ∉ oldName) (hquote : ∀ c ∈ oldName, isQuote c = false)
    (h : matchImportAt oldName s = some (g1, g2, g3, g4, after)) :
    ∃ q q2, isQuote q = true ∧ isQuote q2 = true ∧
      ImportAt q q2 (g2 ++ g3 ++ oldName) s ∧ finalSegment (g2 ++ g3 ++ oldName) = oldName := by
  obtain ⟨ws, q, q2, hg1, hg4, hws, hspace, hq, hq2, hs, hfree, hlast⟩ :=
    matchImportAt_some _ _ _ _ _ _ _ h
  refine ⟨q, q2, hq, hq2, ⟨ws, after, ?_, hws, hspace, ?_⟩,
    finalSegment_append _ _ hlast hslash⟩
  · rw [hs, hg1, hg4]; simp
  · intro c hc
    rcases List.mem_append.mp hc with h1 | h1
    · exact hfree c h1
    · exact hquote c h1

theorem fileNameRev_split (r acc : GoString) :
    ∃ a b, r = a ++ b ∧ (b = [] ∨ b.head? = some 47) ∧
      fileNameRev r acc = a.reverse ++ acc := by
  induction r generalizing acc with
  | nil => exact ⟨[], [], rfl, Or.inl rfl, rfl⟩
  | cons c r ih =>
    by_cases hc : c = 47
    · subst hc
      exact ⟨[], 47 :: r, rfl, Or.inr rfl, by simp [fileNameRev]⟩
    · obtain ⟨a, b, hr, hb, hf⟩ := ih (c :: acc)
      refine ⟨c :: a, b, by rw [hr]; rfl, hb, ?_⟩
      simp [fileNameRev, hc, hf]

theorem finalSegment_split (path : GoString) :
    ∃ p, path = p ++ finalSegment path ∧ (p = [] ∨ p.getLast? = some 47) := by
  obtain ⟨a, b, hr, hb, hf⟩ := fileNameRev_split path.reverse []
  have hpath : path = b.reverse ++ a.reverse := by
    rw [← List.reverse_append, ← hr, List.reverse_reverse]
  refine ⟨b.reverse, ?_, ?_⟩
  · have : finalSegment path = a.reverse := by
      simp only [finalSegment, splitPath]
      rw [hf]; simp
    rw [this]; exact hpath
  · rcases hb with rfl | hb
    · left; rfl
    · right
      rw [List.getLast?_reverse]; exact hb

/-- Having no match of the pattern at any place is the same as having no occurrence
whose path has the old name as final segment. -/
theorem noMatch_iff (oldName content : GoString) (hslash : 47 ∉ oldName)
    (hquote : ∀ c ∈ oldName, isQuote c = false) :
    (∀ t ∈ content.tails, matchImportAt oldName t = none) ↔
      (∀ (pre s : GoString) (q q2 : Nat) (path : GoString), content = pre ++ s →
        isQuote q = true → isQuote q2 = true → ImportAt q q2 path s →
        finalSegment path ≠ oldName) := by
  constructor
  · intro h pre s q q2 path hc hq hq2 ⟨ws, post, hs, hws, hspace, hfree⟩ hseg
    obtain ⟨p, hp, hlast⟩ := finalSegment_split path
    rw [hseg] at hp
    have hpfree : ∀ c ∈ p, isQuote c = false :=
      fun c hc2 => hfree c (by rw [hp]; exact List.mem_append_left _ hc2)
    obtain ⟨g2, g3, hm, -⟩ :=
      matchImportAt_complete oldName ws p post q q2 hws hspace hq hq2 hpfree hlast hquote
    have hmem : s ∈ content.tails := by
      rw [List.mem_tails]; exact ⟨pre, hc.symm⟩
    have hnone := h s hmem
    have hs2 : s = str "from" ++ ws ++ [q] ++ p ++ oldName ++ [q2] ++ post := by
      rw [hs, hp]; simp
    rw [hs2, hm] at hnone
    exact absurd hnone (by simp)
  · intro h t ht
    rw [List.mem_tails] at ht
    obtain ⟨pre, hpre⟩ := ht
    cases hm : matchImportAt oldName t with
    | none => rfl
    | some m =>
      exfalso
      obtain ⟨g1, g2, g3, g4, after⟩ := m
      obtain ⟨q, q2, hq, hq2, himp, hseg⟩ :=
        matchImportAt_importAt _ _ _ _ _ _ _ hslash hquote hm
      exact h pre t q q2 _ hpre.symm hq hq2 himp hseg

/-- C11, as the claim states it, fails: the content `from './Button"` has no occurrence
quoted by one quote character on both sides, and `updateImportPaths` rewrites it, because
the pattern accepts either quote character at each end. -/
theorem mixed_quotes_rewritten :
    NoExactImport (str "Button") (str "from './Button\"") ∧
    rewriteImports (str "Button") (str "button") (str "from './Button\"") =
      str "from './button\"" ∧
    updateImportPaths (some (str "from './Button\"")) true (str "Button") (str "button")
        (plainConfig (str "camel-to-kebab")) =
      (some (str "from './button\""), some true) := by
  refine ⟨?_, by decide, by decide⟩
  rintro pre s q path hc hq ⟨ws, post, hs, -, -, -⟩ -
  have h := congrArg (List.count q) hc
  rw [hs] at h
  simp only [isQuote, Bool.or_eq_true, beq_iff_eq] at hq
  rcases hq with rfl | rfl
  · have e : List.count 39 (str "from './Button\"") = 1 := by decide
    rw [e] at h
    simp only [List.count_append, List.count_singleton_self] at h
    omega
  · have e : List.count 34 (str "from './Button\"") = 1 := by decide
    rw [e] at h
    simp only [List.count_append, List.count_singleton_self] at h
    omega

/-- C11, amended: for every old name without `/` and quote characters and every file
content in which no occurrence of `from`, white space, a quote character, a path and a
quote character (the same or the other one) has a path whose final segment is exactly the
old name, the content is left unchanged and `updateImportPaths` returns false without
writing. -/
theorem updateImportPaths_exact_only (oldName newName content : GoString) (config : Config)
    (writeOk : Bool) (hslash : 47 ∉ oldName) (hquote : ∀ c ∈ oldName, isQuote c = false)
    (hno : ∀ (pre s : GoString) (q q2 : Nat) (path : GoString), content = pre ++ s →
      isQuote q = true → isQuote q2 = true → ImportAt q q2 path s →
      finalSegment path ≠ oldName) :
    rewriteImports oldName newName content = content ∧
    updateImportPaths (some content) writeOk oldName newName config = (none, some false) := by
  have hnone := (noMatch_iff oldName content hslash hquote).mpr hno
  have hid : rewriteImports oldName newName content = content := by
    apply rewriteImports_id
    intro pre t ht
    exact hnone t (by rw [List.mem_tails]; exact ⟨pre, ht.symm⟩)
  refine ⟨hid, ?_⟩
  simp [updateImportPaths, hid]

/-- Instance of the amended C11: with the old name `Button`, the paths `./MyButton` and
`./ButtonGroup` are not rewritten. -/
theorem updateImportPaths_exact_only_witness :
    rewriteImports (str "Button") (str "button")
        (str "import M from './MyButton';\nimport G from \"./ButtonGroup\";") =
      str "import M from './MyButton';\nimport G from \"./ButtonGroup\";" ∧
    updateImportPaths
        (some (str "import M from './MyButton';\nimport G from \"./ButtonGroup\";")) true
        (str "Button") (str "button") (plainConfig (str "camel-to-kebab")) =
      (none, some false) :=
  updateImportPaths_exact_only (str "Button") (str "button")
    (str "import M from './MyButton';\nimport G from \"./ButtonGroup\";")
    (plainConfig (str "camel-to-kebab")) true (by decide) (by decide)
    ((noMatch_iff (str "Button") _ (by decide) (by decide)).mp (by decide))


/-- C12, as the claim states it, fails: the content `from "../common/Button'` holds no
occurrence quoted by one quote character on both sides, so all of its bytes lie outside
such occurrences, and it is changed. -/
theorem mixed_quotes_changed :
    (∀ (pre s : GoString) (q : Nat) (path : GoString),
      str "from \"../common/Button'" = pre ++ s → isQuote q = true →
      ¬ ImportAt q q path s) ∧
    rewriteImports (str "Button") (str "button") (str "from \"../common/Button'") =
      str "from \"../common/button'" ∧
    rewriteImports (str "Button") (str "button") (str "from \"../common/Button'") ≠
      str "from \"../common/Button'" := by
  refine ⟨?_, by decide, by decide⟩
  rintro pre s q path hc hq ⟨ws, post, hs, -, -, -⟩
  have h := congrArg (List.count q) hc
  rw [hs] at h
  simp only [isQuote, Bool.or_eq_true, beq_iff_eq] at hq
  rcases hq with rfl | rfl
  · have e : List.count 39 (str "from \"../common/Button'") = 1 := by decide
    rw [e] at h
    simp only [List.count_append, List.count_singleton_self] at h
    omega
  · have e : List.count 34 (str "from \"../common/Button'") = 1 := by decide
    rw [e] at h
    simp only [List.count_append, List.count_singleton_self] at h
    omega

/-- C12, amended: for all quote characters `q` and `q2` (equal or not), every quote-free
path prefix `p` that is empty or ends in `/`, every old name without quote characters and
every new name without `$`, the rewriting reads the content from left to right, turns an
occurrence of `from`, white space, `q`, `p`, the old name and `q2` into the same text with
the old name replaced by the new one (white space, prefix and both quotes kept, no
extension added) and goes on after it, and copies every byte at which no such occurrence
starts. -/
theorem rewriteImports_spec :
    (∀ (oldName newName ws p post : GoString) (q q2 : Nat),
      ws ≠ [] → (∀ c ∈ ws, isSpace c = true) → isQuote q = true → isQuote q2 = true →
      (∀ c ∈ p, isQuote c = false) → (p = [] ∨ p.getLast? = some 47) →
      (∀ c ∈ oldName, isQuote c = false) → 36 ∉ newName →
      rewriteImports oldName newName
          (str "from" ++ ws ++ [q] ++ p ++ oldName ++ [q2] ++ post) =
        str "from" ++ ws ++ [q] ++ p ++ newName ++ [q2] ++
          rewriteImports oldName newName post) ∧
    (∀ (oldName newName : GoString) (c : Nat) (cs : GoString),
      (¬ ∃ (ws p post : GoString) (q q2 : Nat),
        c :: cs = str "from" ++ ws ++ [q] ++ p ++ oldName ++ [q2] ++ post ∧ ws ≠ [] ∧
        (∀ c ∈ ws, isSpace c = true) ∧ isQuote q = true ∧ isQuote q2 = true ∧
        (∀ c ∈ p, isQuote c = false) ∧ (p = [] ∨ p.getLast? = some 47)) →
      rewriteImports oldName newName (c :: cs) = c :: rewriteImports oldName newName cs) ∧
    rewriteImports (str "Button") (str "button")
        (str "import { Button } from '../common/Button';\nimport X from \"./Other\";") =
      str "import { Button } from '../common/button';\nimport X from \"./Other\";" ∧
    updateImportPaths (some (str "import { Button } from '../common/Button';")) true
        (str "Button") (str "button") (plainConfig (str "camel-to-kebab")) =
      (some (str "import { Button } from '../common/button';"), some true) := by
  refine ⟨?_, ?_, by decide, by decide⟩
  · intro oldName newName ws p post q q2 hws hspace hq hq2 hp hlast hold hnew
    obtain ⟨g2, g3, hm, hg⟩ :=
      matchImportAt_complete oldName ws p post q q2 hws hspace hq hq2 hp hlast hold
    have hshape : str "from" ++ ws ++ [q] ++ p ++ oldName ++ [q2] ++ post =
        102 :: (str "rom" ++ ws ++ [q] ++ p ++ oldName ++ [q2] ++ post) := by
      have : str "from" = 102 :: str "rom" := by decide
      rw [this]; simp
    rw [hshape] at hm ⊢
    rw [rewriteImports_cons_some _ _ _ _ _ _ _ _ _ hm, expandReplacement_plain _ _ _ _ _ _ hnew,
      ← hg]
    simp
  · intro oldName newName c cs hno
    cases hm : matchImportAt oldName (c :: cs) with
    | none => exact rewriteImports_cons_none _ _ _ _ hm
    | some m =>
      exfalso
      obtain ⟨g1, g2, g3, g4, after⟩ := m
      obtain ⟨ws, q, q2, hg1, hg4, hws, hspace, hq, hq2, hs, hfree, hlast⟩ :=
        matchImportAt_some _ _ _ _ _ _ _ hm
      exact hno ⟨ws, g2 ++ g3, after, q, q2, by rw [hs, hg1, hg4]; simp, hws, hspace, hq,
        hq2, hfree, hlast⟩

/-! ## Exclusion by imports -/

theorem hasPrefix_append (pat rest : GoString) : hasPrefix (pat ++ rest) pat = true :=
  (hasPrefix_iff _ _).mpr ⟨rest, rfl⟩

/-- The function `containsSub` finds exactly the substrings. -/
theorem containsSub_iff (s pat : GoString) :
    containsSub s pat = true ↔ ∃ a b, s = a ++ pat ++ b := by
  induction s with
  | nil =>
    simp only [containsSub, hasPrefix_iff]
    constructor
    · rintro ⟨rest, h⟩; exact ⟨[], rest, by simpa using h⟩
    · rintro ⟨a, b, h⟩
      have h2 : a ++ pat ++ b = [] := h.symm
      simp only [List.append_eq_nil, List.append_assoc] at h2
      exact ⟨[], by simp [h2.2.1]⟩
  | cons c cs ih =>
    simp only [containsSub, Bool.or_eq_true, hasPrefix_iff, ih]
    constructor
    · rintro (⟨rest, h⟩ | ⟨a, b, h⟩)
      · exact ⟨[], rest, by simpa using h⟩
      · exact ⟨c :: a, b, by rw [h]; rfl⟩
    · rintro ⟨a, b, h⟩
      cases a with
      | nil => exact Or.inl ⟨b, by simpa using h⟩
      | cons d a =>
        simp only [List.cons_append, List.cons.injEq] at h
        exact Or.inr ⟨a, b, h.2⟩

/-- The test on the path looks for the text `/_components/`: for the relative path
`_components/Card.tsx`, which `processFiles` never passes, the file is read and the
function returns true with the import path `@/lib/x`. -/
theorem relative_components_file_excluded :
    isFileUnderComponents (str "_components/Card.tsx") = true ∧
    shouldExcludeByImports (fun _ => some (str "import { x } from '@/lib/x';"))
        (fun _ => [str "@/lib/x"]) (str "_components/Card.tsx") [str "@/lib"] =
      (true, str "@/lib/x", false) := by decide

/-- The function `shouldExcludeByImports` in terms of the list of paths the search of the
pattern `importRegex` gives: it returns true exactly when the file path does not both contain
`/_components/` (or `\_components\`) and contain `.tsx` or `.jsx`, the file can be read,
and one of the paths of the list contains one of the patterns; the reported path is then
the first such path of the list.  For a path that contains `/_components/` and `.tsx` or
`.jsx` it returns `(false, "", nil)` whatever reading the file would give. -/
theorem shouldExcludeByImports_spec :
    (∀ (read : GoString → Option GoString) (findImports : GoString → List GoString)
        (filePath : GoString) (patterns : List GoString),
      (shouldExcludeByImports read findImports filePath patterns).1 = true ↔
        (isComponentsFile filePath = false ∧
          ∃ content, read filePath = some content ∧
            ∃ path ∈ findImports content, ∃ pattern ∈ patterns,
              containsSub path pattern = true)) ∧
    (∀ (read : GoString → Option GoString) (findImports : GoString → List GoString)
        (filePath : GoString) (patterns : List GoString) (content : GoString),
      (shouldExcludeByImports read findImports filePath patterns).1 = true →
      read filePath = some content →
        ∃ before after,
          findImports content =
            before ++ (shouldExcludeByImports read findImports filePath patterns).2.1 ::
              after ∧
          (∀ path ∈ before, ∀ pattern ∈ patterns, containsSub path pattern = false) ∧
          ∃ pattern ∈ patterns,
            containsSub (shouldExcludeByImports read findImports filePath patterns).2.1
              pattern = true) ∧
    (∀ (read : GoString → Option GoString) (findImports : GoString → List GoString)
        (filePath : GoString) (patterns : List GoString),
      isComponentsFile filePath = true →
        shouldExcludeByImports read findImports filePath patterns = (false, [], false)) ∧
    (∀ (filePath : GoString), isComponentsFile filePath = true ↔
      ((∃ a b, filePath = a ++ str "/_components/" ++ b) ∨
        (∃ a b, filePath = a ++ str "\\_components\\" ++ b)) ∧
      ((∃ a b, filePath = a ++ str ".tsx" ++ b) ∨
        (∃ a b, filePath = a ++ str ".jsx" ++ b))) ∧
    shouldExcludeByImports (fun _ => some (str "import { x } from '@/lib/x';"))
        (fun _ => [str "@/lib/x"]) (str "/app/_components/Card.tsx") [str "@/lib"] =
      (false, [], false) ∧
    shouldExcludeByImports (fun _ => some (str "import { x } from '@/lib/x';"))
        (fun _ => [str "@/lib/x"]) (str "/app/components/Card.tsx") [str "@/lib"] =
      (true, str "@/lib/x", false) := by
  refine ⟨?_, ?_, ?_, ?_, by decide, by decide⟩
  · intro read findImports filePath patterns
    unfold shouldExcludeByImports
    by_cases hx : isComponentsFile filePath = true
    · simp [hx]
    · simp only [hx, Bool.false_eq_true, if_false, Bool.not_eq_true]
      cases hr : read filePath with
      | none => simp
      | some content =>
        simp only [Option.some.injEq, exists_eq_left', true_and]
        cases hf : (findImports content).find?
            (fun importPath => patterns.any (fun pattern => containsSub importPath pattern)) with
        | none =>
          simp only [Bool.false_eq_true, false_iff, not_exists, not_and]
          rw [List.find?_eq_none] at hf
          intro path hp pattern hpat hc
          exact hf path hp (List.any_eq_true.mpr ⟨pattern, hpat, hc⟩)
        | some ip =>
          simp only [true_iff]
          obtain ⟨hip, as, bs, hl, -⟩ := List.find?_eq_some.mp hf
          obtain ⟨pattern, hpat, hc⟩ := List.any_eq_true.mp hip
          exact ⟨ip, by rw [hl]; simp, pattern, hpat, hc⟩
  · intro read findImports filePath patterns content htrue hr
    unfold shouldExcludeByImports at htrue ⊢
    by_cases hx : isComponentsFile filePath = true
    · simp [hx] at htrue
    · simp only [hx, Bool.false_eq_true, if_false, hr] at htrue ⊢
      cases hf : (findImports content).find?
          (fun importPath => patterns.any (fun pattern => containsSub importPath pattern)) with
      | none => rw [hf] at htrue; simp at htrue
      | some ip =>
        simp only
        obtain ⟨hip, as, bs, hl, has⟩ := List.find?_eq_some.mp hf
        refine ⟨as, bs, hl, ?_, List.any_eq_true.mp hip⟩
        intro path hp pattern hpat
        have := has path hp
        simp only [Bool.not_eq_true', List.any_eq_false] at this
        simpa using this pattern hpat
  · intro read findImports filePath patterns hx
    simp [shouldExcludeByImports, hx]
  · intro filePath
    simp only [isComponentsFile, Bool.and_eq_true, Bool.or_eq_true, containsSub_iff]

/-! ## The run of `processFiles` in dry-run mode -/

theorem fileStep_dry {σ : Type} (w : World σ) (config : Config) (r : Run σ)
    (file : GoString) (hdry : config.DryRun = true) :
    (fileStep w config r file).state = r.state := by
  simp only [fileStep, hdry, Bool.not_true, Bool.false_eq_true, if_false]
  by_cases hp : r.panicked = true
  · simp [hp]
  · simp only [hp, if_false]
    cases fileDecision w config r.state file <;> rfl

theorem dirStep_dry {σ : Type} (w : World σ) (config : Config) (r : Run σ)
    (dirPath : GoString) (hdry : config.DryRun = true) :
    (dirStep w config r dirPath).state = r.state := by
  simp only [dirStep, hdry, Bool.not_true, Bool.false_eq_true, if_false]
  by_cases hp : r.panicked = true
  · simp [hp]
  · simp only [hp, if_false]
    cases dirDecision w config r.state dirPath <;> rfl

theorem foldl_state {σ : Type} (step : Run σ → GoString → Run σ)
    (h : ∀ r x, (step r x).state = r.state) (l : List GoString) (r : Run σ) :
    (l.foldl step r).state = r.state := by
  induction l generalizing r with
  | nil => rfl
  | cons x l ih => rw [List.foldl_cons, ih, h]

theorem runLoops_dry {σ : Type} (w : World σ) (config : Config)
    (files dirComponents : List GoString) (start : Run σ) (hdry : config.DryRun = true) :
    (runLoops w config files dirComponents start).state = start.state := by
  unfold runLoops
  rw [foldl_state _ (fun r x => dirStep_dry w config r x hdry),
    foldl_state _ (fun r x => fileStep_dry w config r x hdry)]

theorem importStep_dry {σ : Type} (w : World σ) (config : Config) (file : GoString)
    (acc : σ × Bool) (result : ConversionResult) (hdry : config.DryRun = true) :
    (importStep w config file acc result).1 = acc.1 := by
  unfold importStep
  cases w.readFile acc.1 file with
  | none => rfl
  | some content =>
    simp only [hdry, Bool.not_true, Bool.false_eq_true, if_false]
    split_ifs <;> rfl

theorem importPass_dry {σ : Type} (w : World σ) (config : Config)
    (results : List ConversionResult) (acc : σ × List GoString) (file : GoString)
    (hdry : config.DryRun = true) :
    (importPass w config results acc file).1 = acc.1 := by
  have : ∀ (l : List ConversionResult) (a : σ × Bool),
      (l.foldl (importStep w config file) a).1 = a.1 := by
    intro l
    induction l with
    | nil => intro a; rfl
    | cons x l ih =>
      intro a
      rw [List.foldl_cons, ih, importStep_dry w config file a x hdry]
  exact this results (acc.1, false)

theorem foldl_importPass_dry {σ : Type} (w : World σ) (config : Config)
    (results : List ConversionResult) (files : List GoString) (acc : σ × List GoString)
    (hdry : config.DryRun = true) :
    (files.foldl (importPass w config results) acc).1 = acc.1 := by
  induction files generalizing acc with
  | nil => rfl
  | cons f files ih => rw [List.foldl_cons, ih, importPass_dry w config results acc f hdry]

theorem finishRun_dry {σ : Type} (w : World σ) (root : GoString) (config : Config)
    (done : Run σ) (hdry : config.DryRun = true) :
    (finishRun w root config done).2 = done.state := by
  unfold finishRun
  by_cases hp : done.panicked = true
  · simp [hp]
  · simp only [hp, Bool.false_eq_true, if_false]
    by_cases hr : done.results.length > 0
    · simp only [hr, if_true]
      cases w.treeAt done.state (w.join root (pathDir config.TargetDir)) with
      | none => rfl
      | some projectTree => exact foldl_importPass_dry w config _ _ _ hdry
    · simp only [hr, if_false]

/-- In dry-run mode `processFiles` leaves the state of the file system as it found it. -/
theorem processFiles_dry {σ : Type} (w : World σ) (projectRoot : Option GoString)
    (config : Config) (st : σ) (hdry : config.DryRun = true) :
    (processFiles w projectRoot config st).2 = st := by
  unfold processFiles
  cases projectRoot with
  | none => rfl
  | some root =>
    simp only
    cases w.treeAt st (w.join root config.TargetDir) with
    | none => rfl
    | some tree =>
      simp only
      split_ifs with h0
      · rfl
      · rw [finishRun_dry w root config _ hdry, runLoops_dry w config _ _ _ hdry]
        rfl

/-- C15: in dry-run mode nothing on disk changes.  For every file system, every state of
it and every configuration with `DryRun = true`, `processFiles` leaves the state it
started in (it performs no rename and no write, whether it returns or panics), and
`updateImportPaths` writes no file: it only reports whether the content would change. -/
theorem dry_run_changes_nothing {σ : Type} (w : World σ) (projectRoot : Option GoString)
    (config : Config) (st : σ) (hdry : config.DryRun = true) :
    (processFiles w projectRoot config st).2 = st ∧
    ∀ (read : Option GoString) (writeOk : Bool) (oldName newName : GoString),
      (updateImportPaths read writeOk oldName newName config).1 = none ∧
      ∀ content : GoString, read = some content →
        (updateImportPaths read writeOk oldName newName config).2 =
          some (decide (rewriteImports oldName newName content ≠ content)) := by
  refine ⟨processFiles_dry w projectRoot config st hdry, ?_⟩
  intro read writeOk oldName newName
  cases read with
  | none => exact ⟨rfl, fun content h => by cases h⟩
  | some text =>
    by_cases hchange : rewriteImports oldName newName text ≠ text
    · refine ⟨by simp [updateImportPaths, hchange, hdry], ?_⟩
      intro content h
      cases h
      simp [updateImportPaths, hchange, hdry]
    · refine ⟨by simp [updateImportPaths, hchange], ?_⟩
      intro content h
      cases h
      simp [updateImportPaths, hchange]

/-- The dry run over the project with the directory component `IconButton` leaves the
files, their contents and the directories as they were. -/
theorem dry_run_changes_nothing_witness :
    (withDryRun componentsConfig true).DryRun = true ∧
    (processFiles flatWorld (some (str "/p")) (withDryRun componentsConfig true)
      (iconButtonState [])).2 = iconButtonState [] :=
  ⟨rfl, (dry_run_changes_nothing flatWorld (some (str "/p"))
    (withDryRun componentsConfig true) (iconButtonState []) rfl).1⟩

/-! ## The two-phase rename of a directory component -/

/-- C17: in apply mode a directory component that is to be converted is moved in two
phases, from its path to the temporary sibling `_temp_<name>_<nanos>` and from there to
its new path.  When both renames succeed the run continues in the state the second one
leaves, the entity is counted as processed and its result is kept for the import pass.
When the second rename fails, `processFiles` renames the temporary directory back to the
original path and continues in the state that leaves; the entity is counted as errored,
not as processed, and no result is kept for it, so no import is rewritten for it. -/
theorem dirStep_two_phase {σ : Type} (w : World σ) (config : Config) (r : Run σ)
    (dirPath : GoString) (result : ConversionResult) (hrun : r.panicked = false)
    (happly : config.DryRun = false)
    (hdec : dirDecision w config r.state dirPath = Decision.convert result) :
    (∀ st1 st2 : σ,
      w.rename r.state dirPath (tempDirPath w r.state dirPath) = (st1, true) →
      w.rename st1 (tempDirPath w r.state dirPath) result.NewPath = (st2, true) →
      dirStep w config r dirPath = r.processed st2 result) ∧
    (∀ st1 st2 : σ,
      w.rename r.state dirPath (tempDirPath w r.state dirPath) = (st1, true) →
      w.rename st1 (tempDirPath w r.state dirPath) result.NewPath = (st2, false) →
      dirStep w config r dirPath =
          r.errored (w.rename st2 (tempDirPath w r.state dirPath) dirPath).1 ∧
        (dirStep w config r dirPath).results = r.results ∧
        (dirStep w config r dirPath).counts.ProcessedFiles = r.counts.ProcessedFiles ∧
        (dirStep w config r dirPath).counts.ErrorFiles = r.counts.ErrorFiles + 1) := by
  have hstep : ∀ st1 st2 : σ, ∀ ok : Bool,
      w.rename r.state dirPath (tempDirPath w r.state dirPath) = (st1, true) →
      w.rename st1 (tempDirPath w r.state dirPath) result.NewPath = (st2, ok) →
      dirStep w config r dirPath =
        if ok then r.processed st2 result
        else r.errored (w.rename st2 (tempDirPath w r.state dirPath) dirPath).1 := by
    intro st1 st2 ok h1 h2
    unfold tempDirPath at h1 h2
    unfold dirStep tempDirPath
    simp only [hrun, happly, hdec, Bool.not_false, Bool.false_eq_true, if_false, if_true]
    rw [h1]
    simp only
    rw [h2]
    cases ok <;> rfl
  constructor
  · intro st1 st2 h1 h2
    rw [hstep st1 st2 true h1 h2]
    rfl
  · intro st1 st2 h1 h2
    rw [hstep st1 st2 false h1 h2]
    exact ⟨rfl, rfl, rfl, rfl⟩

/-- The directory `IconButton` of the project `/p`: with both renames succeeding it ends
at `icon-button`, with the second one refused it is back at its path and counted as an
error. -/
theorem dirStep_two_phase_witness :
    dirDecision flatWorld componentsConfig (iconButtonState []) iconButtonDir =
      Decision.convert iconButtonResult ∧
    dirStep flatWorld componentsConfig (freshRun (iconButtonState [])) iconButtonDir =
      (freshRun (iconButtonState [])).processed iconButtonMoved iconButtonResult ∧
    dirStep flatWorld componentsConfig
        (freshRun (iconButtonState [iconButtonResult.NewPath])) iconButtonDir =
      (freshRun (iconButtonState [iconButtonResult.NewPath])).errored
        (iconButtonState [iconButtonResult.NewPath]) :=
  ⟨by decide,
   (dirStep_two_phase flatWorld componentsConfig (freshRun (iconButtonState []))
      iconButtonDir iconButtonResult rfl rfl (by decide)).1
      (flatWorld.rename (iconButtonState []) iconButtonDir
        (tempDirPath flatWorld (iconButtonState []) iconButtonDir)).1
      iconButtonMoved (by decide) (by decide),
   ((dirStep_two_phase flatWorld componentsConfig
      (freshRun (iconButtonState [iconButtonResult.NewPath]))
      iconButtonDir iconButtonResult rfl rfl (by decide)).2
      (flatWorld.rename (iconButtonState [iconButtonResult.NewPath]) iconButtonDir
        (tempDirPath flatWorld (iconButtonState [iconButtonResult.NewPath])
          iconButtonDir)).1
      (flatWorld.rename (iconButtonState [iconButtonResult.NewPath]) iconButtonDir
        (tempDirPath flatWorld (iconButtonState [iconButtonResult.NewPath])
          iconButtonDir)).1
      (by decide) (by decide)).1.trans
      (congrArg (freshRun (iconButtonState [iconButtonResult.NewPath])).errored
        (by decide))⟩

/-! ## Runs over the project with the directory component `IconButton` -/

/-- The apply run moves the directory with its index file to `common/icon-button`, leaves
nothing at the old path or at the temporary path, and rewrites the import of
`home.tsx`. -/
theorem iconButton_applied :
    (processFiles flatWorld (some (str "/p")) componentsConfig (iconButtonState [])).2 =
      { iconButtonMoved with
          files :=
            [(str "/p/components/common/icon-button/index.tsx", str "export default 1"),
             (str "/p/components/pages/home.tsx",
              str "import IconButton from \x27../common/icon-button\x27")] } ∧
    (processFiles flatWorld (some (str "/p")) componentsConfig (iconButtonState [])).1 =
      Outcome.ok
        { emptyResult with
            TargetDir := str "components", TotalFiles := 3, ProcessedFiles := 1,
            SkippedFiles := 1, ImportUpdateFiles := [str "/p/components/pages/home.tsx"] } := by
  decide

/-- With the second rename refused, the apply run leaves the project as it found it and
reports the directory as an error: nothing is processed and no import is rewritten. -/
theorem iconButton_rolled_back :
    (processFiles flatWorld (some (str "/p")) componentsConfig
      (iconButtonState [iconButtonResult.NewPath])).2 =
      iconButtonState [iconButtonResult.NewPath] ∧
    (processFiles flatWorld (some (str "/p")) componentsConfig
      (iconButtonState [iconButtonResult.NewPath])).1 =
      Outcome.ok
        { emptyResult with
            TargetDir := str "components", TotalFiles := 3, SkippedFiles := 1,
            ErrorFiles := 1 } := by
  decide

/-! ## Dry run and apply run side by side -/

mutual
theorem walkTsxJsx_withDryRun (config : Config) (b : Bool) (path : GoString) (t : Tree) :
    walkTsxJsx (withDryRun config b) path t = walkTsxJsx config path t := by
  cases t with
  | file name => rfl
  | dir name entries =>
    simp only [walkTsxJsx]
    rw [walkTsxJsxEntries_withDryRun config b path entries]
    rfl
theorem walkTsxJsxEntries_withDryRun (config : Config) (b : Bool) (path : GoString)
    (f : Forest) :
    walkTsxJsxEntries (withDryRun config b) path f = walkTsxJsxEntries config path f := by
  cases f with
  | nil => rfl
  | cons entry more =>
    simp only [walkTsxJsxEntries]
    rw [walkTsxJsx_withDryRun config b _ entry,
      walkTsxJsxEntries_withDryRun config b path more]
end

mutual
theorem walkDirComponents_withDryRun (config : Config) (b : Bool) (path : GoString)
    (found : List GoString) (t : Tree) :
    walkDirComponents (withDryRun config b) path found t =
      walkDirComponents config path found t := by
  cases t with
  | file name => rfl
  | dir name entries =>
    simp only [walkDirComponents]
    rw [walkDirComponentsEntries_withDryRun config b path found entries]
    rfl
theorem walkDirComponentsEntries_withDryRun (config : Config) (b : Bool) (path : GoString)
    (found : List GoString) (f : Forest) :
    walkDirComponentsEntries (withDryRun config b) path found f =
      walkDirComponentsEntries config path found f := by
  cases f with
  | nil => rfl
  | cons entry more =>
    simp only [walkDirComponentsEntries]
    rw [walkDirComponents_withDryRun config b _ found entry,
      walkDirComponentsEntries_withDryRun config b path _ more]
end

theorem fileDecision_withDryRun {σ : Type} (w : World σ) (config : Config) (b : Bool)
    (st : σ) (file : GoString) :
    fileDecision w (withDryRun config b) st file = fileDecision w config st file := rfl

theorem dirDecision_withDryRun {σ : Type} (w : World σ) (config : Config) (b : Bool)
    (st : σ) (dirPath : GoString) :
    dirDecision w (withDryRun config b) st dirPath = dirDecision w config st dirPath := rfl

theorem fileStep_inStep {σ : Type} (w : World σ) (config : Config) (initial : σ)
    (d a : Run σ) (file : GoString) (h : InStep initial d a)
    (hsteady : (a.panicked ||
      (decide (fileDecision w (withDryRun config false) a.state file =
          fileDecision w (withDryRun config false) initial file) &&
        fileRenameOk w a.state (fileDecision w (withDryRun config false) a.state file))) =
      true) :
    InStep initial (fileStep w (withDryRun config true) d file)
      (fileStep w (withDryRun config false) a file) := by
  obtain ⟨hs, hp, hP, hS⟩ := h
  unfold fileStep
  cases hap : a.panicked with
  | true =>
    rw [hap] at hp
    simp only [hp, if_true]
    exact ⟨hs, hp.trans hap.symm, hP, hS⟩
  | false =>
    rw [hap] at hp
    simp only [hap, Bool.false_or, Bool.and_eq_true, decide_eq_true_eq] at hsteady
    obtain ⟨hdec, hok⟩ := hsteady
    have hd : fileDecision w (withDryRun config true) d.state file =
        fileDecision w (withDryRun config false) a.state file := by
      rw [hs]
      exact hdec.symm
    simp only [hp, Bool.false_eq_true, if_false]
    rw [hd]
    cases hdn : fileDecision w (withDryRun config false) a.state file with
    | ignored => exact ⟨hs, hp.trans hap.symm, hP, hS⟩
    | skip =>
      refine ⟨hs, hp.trans hap.symm, hP, ?_⟩
      simp only [Run.skipped, hS]
    | panic => exact ⟨hs, rfl, hP, hS⟩
    | convert result =>
      rw [hdn] at hok
      simp only [fileRenameOk] at hok
      have hr : w.rename a.state result.OldPath result.NewPath =
          ((w.rename a.state result.OldPath result.NewPath).1, true) := by
        rw [← hok]
      simp only [withDryRun, Bool.not_true, Bool.not_false, Bool.false_eq_true, if_false,
        if_true]
      rw [hr]
      refine ⟨hs, hp.trans hap.symm, ?_, hS⟩
      simp only [Run.processed, hP]

theorem dirStep_inStep {σ : Type} (w : World σ) (config : Config) (initial : σ)
    (d a : Run σ) (dirPath : GoString) (h : InStep initial d a)
    (hsteady : (a.panicked ||
      (decide (dirDecision w (withDryRun config false) a.state dirPath =
          dirDecision w (withDryRun config false) initial dirPath) &&
        dirRenameOk w a.state dirPath
          (dirDecision w (withDryRun config false) a.state dirPath))) = true) :
    InStep initial (dirStep w (withDryRun config true) d dirPath)
      (dirStep w (withDryRun config false) a dirPath) := by
  obtain ⟨hs, hp, hP, hS⟩ := h
  unfold dirStep
  cases hap : a.panicked with
  | true =>
    rw [hap] at hp
    simp only [hp, if_true]
    exact ⟨hs, hp.trans hap.symm, hP, hS⟩
  | false =>
    rw [hap] at hp
    simp only [hap, Bool.false_or, Bool.and_eq_true, decide_eq_true_eq] at hsteady
    obtain ⟨hdec, hok⟩ := hsteady
    have hd : dirDecision w (withDryRun config true) d.state dirPath =
        dirDecision w (withDryRun config false) a.state dirPath := by
      rw [hs]
      exact hdec.symm
    simp only [hp, Bool.false_eq_true, if_false]
    rw [hd]
    cases hdn : dirDecision w (withDryRun config false) a.state dirPath with
    | ignored => exact ⟨hs, hp.trans hap.symm, hP, hS⟩
    | skip =>
      refine ⟨hs, hp.trans hap.symm, hP, ?_⟩
      simp only [Run.skipped, hS]
    | panic => exact ⟨hs, rfl, hP, hS⟩
    | convert result =>
      rw [hdn] at hok
      simp only [dirRenameOk, tempDirPath, Bool.and_eq_true] at hok
      obtain ⟨hok1, hok2⟩ := hok
      have hr1 : w.rename a.state dirPath
            (w.join (pathDir dirPath) (tempDirName (pathBase dirPath) (w.now a.state))) =
          ((w.rename a.state dirPath
            (w.join (pathDir dirPath) (tempDirName (pathBase dirPath) (w.now a.state)))).1,
            true) := by
        rw [← hok1]
      have hr2 : w.rename (w.rename a.state dirPath
            (w.join (pathDir dirPath) (tempDirName (pathBase dirPath) (w.now a.state)))).1
            (w.join (pathDir dirPath) (tempDirName (pathBase dirPath) (w.now a.state)))
            result.NewPath =
          ((w.rename (w.rename a.state dirPath
            (w.join (pathDir dirPath) (tempDirName (pathBase dirPath) (w.now a.state)))).1
            (w.join (pathDir dirPath) (tempDirName (pathBase dirPath) (w.now a.state)))
            result.NewPath).1, true) := by
        rw [← hok2]
      simp only [withDryRun, Bool.not_true, Bool.not_false, Bool.false_eq_true, if_false,
        if_true]
      rw [hr1]
      simp only
      rw [hr2]
      refine ⟨hs, hp.trans hap.symm, ?_, hS⟩
      simp only [Run.processed, hP]

theorem foldl_fileStep_inStep {σ : Type} (w : World σ) (config : Config) (initial : σ)
    (files : List GoString) :
    ∀ d a : Run σ, InStep initial d a →
      steadyFiles w (withDryRun config false) initial a files = true →
      InStep initial (files.foldl (fileStep w (withDryRun config true)) d)
        (files.foldl (fileStep w (withDryRun config false)) a) := by
  induction files with
  | nil => intro d a h _; exact h
  | cons file rest ih =>
    intro d a h hsteady
    simp only [steadyFiles, Bool.and_eq_true] at hsteady
    simp only [List.foldl_cons]
    exact ih _ _ (fileStep_inStep w config initial d a file h hsteady.1) hsteady.2

theorem foldl_dirStep_inStep {σ : Type} (w : World σ) (config : Config) (initial : σ)
    (dirComponents : List GoString) :
    ∀ d a : Run σ, InStep initial d a →
      steadyDirs w (withDryRun config false) initial a dirComponents = true →
      InStep initial (dirComponents.foldl (dirStep w (withDryRun config true)) d)
        (dirComponents.foldl (dirStep w (withDryRun config false)) a) := by
  induction dirComponents with
  | nil => intro d a h _; exact h
  | cons dirPath rest ih =>
    intro d a h hsteady
    simp only [steadyDirs, Bool.and_eq_true] at hsteady
    simp only [List.foldl_cons]
    exact ih _ _ (dirStep_inStep w config initial d a dirPath h hsteady.1) hsteady.2

theorem reportedCounts_finishRun {σ : Type} (w : World σ) (root : GoString)
    (config : Config) (done : Run σ) :
    reportedCounts (finishRun w root config done).1 =
      if done.panicked then none
      else some (done.counts.ProcessedFiles, done.counts.SkippedFiles) := by
  unfold finishRun
  by_cases hp : done.panicked = true
  · simp [hp, reportedCounts]
  · simp only [hp, Bool.false_eq_true, if_false]
    by_cases hr : done.results.length > 0
    · simp only [hr, if_true]
      cases w.treeAt done.state (w.join root (pathDir config.TargetDir)) <;> rfl
    · simp only [hr, if_false]
      rfl

theorem reportedCounts_inStep {σ : Type} (w : World σ) (root : GoString)
    (dry apply : Config) (initial : σ) (d a : Run σ) (h : InStep initial d a) :
    reportedCounts (finishRun w root dry d).1 =
      reportedCounts (finishRun w root apply a).1 := by
  obtain ⟨_, hp, hP, hS⟩ := h
  rw [reportedCounts_finishRun, reportedCounts_finishRun, hp, hP, hS]

theorem processFiles_tree {σ : Type} (w : World σ) (root : GoString) (config : Config)
    (b : Bool) (st : σ) (tree : Tree)
    (htree : w.treeAt st (w.join root config.TargetDir) = some tree) :
    processFiles w (some root) (withDryRun config b) st =
      if (startRun config (findTsxJsxFiles (w.join root config.TargetDir) config tree)
          (findDirectoryComponents (w.join root config.TargetDir) config tree)
          st).counts.TotalFiles = 0 then
        (Outcome.ok
          (startRun config (findTsxJsxFiles (w.join root config.TargetDir) config tree)
            (findDirectoryComponents (w.join root config.TargetDir) config tree) st).counts,
         st)
      else
        finishRun w root (withDryRun config b)
          (runLoops w (withDryRun config b)
            (findTsxJsxFiles (w.join root config.TargetDir) config tree)
            (findDirectoryComponents (w.join root config.TargetDir) config tree)
            (startRun config (findTsxJsxFiles (w.join root config.TargetDir) config tree)
              (findDirectoryComponents (w.join root config.TargetDir) config tree) st)) := by
  have hfiles : findTsxJsxFiles (w.join root config.TargetDir) (withDryRun config b) tree =
      findTsxJsxFiles (w.join root config.TargetDir) config tree :=
    walkTsxJsx_withDryRun config b _ tree
  have hdirs :
      findDirectoryComponents (w.join root config.TargetDir) (withDryRun config b) tree =
        findDirectoryComponents (w.join root config.TargetDir) config tree :=
    walkDirComponents_withDryRun config b _ [] tree
  have htree2 : w.treeAt st (w.join root (withDryRun config b).TargetDir) = some tree :=
    htree
  unfold processFiles
  simp only [htree2]
  have htarget : (withDryRun config b).TargetDir = config.TargetDir := rfl
  rw [htarget, hfiles, hdirs]
  rfl

theorem processFiles_noTree {σ : Type} (w : World σ) (root : GoString) (config : Config)
    (b : Bool) (st : σ) (htree : w.treeAt st (w.join root config.TargetDir) = none) :
    processFiles w (some root) (withDryRun config b) st =
      (Outcome.ok { emptyResult with TargetDir := config.TargetDir }, st) := by
  have htree2 : w.treeAt st (w.join root (withDryRun config b).TargetDir) = none := htree
  unfold processFiles
  simp only [htree2]
  rfl

/-- C16 (counterexample): in a directory with the files `UserID.tsx` and `UserId.tsx`,
which both convert to `user-id.tsx`, the dry run reports two processed files and none
skipped, while the apply run, in which no rename fails, reports one processed file and
one skipped. -/
theorem same_target_counts_differ :
    reportedCounts (processFiles flatWorld (some (str "/p"))
      (withDryRun componentsConfig true) sameTargetState).1 = some (2, 0) ∧
    reportedCounts (processFiles flatWorld (some (str "/p"))
      (withDryRun componentsConfig false) sameTargetState).1 = some (1, 1) := by
  decide

/-- C16 (amended): when the apply run is steady, that is no rename fails and every file
and directory component is decided, at the time its loop reaches it, as it is decided in
the initial state, the dry run and the apply run from that state report the same
`ProcessedFiles` and `SkippedFiles`. -/
theorem steady_counts_agree {σ : Type} (w : World σ) (projectRoot : Option GoString)
    (config : Config) (st : σ) (hsteady : steadyRun w projectRoot config st = true) :
    reportedCounts (processFiles w projectRoot (withDryRun config true) st).1 =
      reportedCounts (processFiles w projectRoot (withDryRun config false) st).1 := by
  cases projectRoot with
  | none => rfl
  | some root =>
    cases htree : w.treeAt st (w.join root config.TargetDir) with
    | none =>
      rw [processFiles_noTree w root config true st htree,
        processFiles_noTree w root config false st htree]
    | some tree =>
      rw [processFiles_tree w root config true st tree htree,
        processFiles_tree w root config false st tree htree]
      simp only [steadyRun, htree, Bool.and_eq_true] at hsteady
      split_ifs with h0
      · rfl
      · apply reportedCounts_inStep w root _ _ st
        unfold runLoops
        exact foldl_dirStep_inStep w config st _ _ _
          (foldl_fileStep_inStep w config st _ _ _ ⟨rfl, rfl, rfl, rfl⟩ hsteady.1)
          hsteady.2

/-- The run over the project with the directory component `IconButton` is steady, and
both modes report one processed and one skipped entity. -/
theorem steady_counts_agree_witness :
    steadyRun flatWorld (some (str "/p")) componentsConfig (iconButtonState []) = true ∧
    reportedCounts (processFiles flatWorld (some (str "/p"))
      (withDryRun componentsConfig true) (iconButtonState [])).1 =
    reportedCounts (processFiles flatWorld (some (str "/p"))
      (withDryRun componentsConfig false) (iconButtonState [])).1 :=
  ⟨by decide, steady_counts_agree flatWorld (some (str "/p")) componentsConfig
    (iconButtonState []) (by decide)⟩

/-! ## The shortcuts of `camelToKebab`, and the two checkers -/

/-- C27: the two special cases at the top of `camelToKebab` (the literal `Index`, and a
capital letter followed by lowercase letters only) are redundant: for every string,
`camelToKebab` gives what the general scan alone, `camelToKebabGeneral`, gives. -/
theorem camelToKebab_shortcuts_redundant :
    (∀ s : GoString, camelToKebab s = camelToKebabGeneral s) ∧
    camelToKebabGeneral (str "Index") = str "index" ∧
    camelToKebabGeneral (str "Header") = str "header" :=
  ⟨camelToKebab_eq_general, by decide, by decide⟩

/-- Characterisation of the checker of `camelcase-finder`. -/
theorem finder_isCamelCase_iff (s : GoString) :
    Finder.isCamelCase s = true ↔
      ∃ c cs, s = c :: cs ∧ isUpper c = true ∧ 45 ∉ s ∧ 95 ∉ s := by
  cases s with
  | nil => simp [Finder.isCamelCase]
  | cons c cs =>
    simp only [Finder.isCamelCase]
    split_ifs with h3 h4 h5 h6
    · simp only [Bool.not_eq_true_eq_eq_false, Bool.not_eq_true] at h3
      simp [h3]
    · have h4m : 45 ∈ c :: cs := by simpa using h4
      simp [h4m]
    · have h5m : 95 ∈ c :: cs := by simpa using h5
      simp [h5m]
    · simp only [Bool.not_eq_true_eq_eq_false, Bool.not_eq_true, Bool.not_eq_false] at h3
      have h4m : 45 ∉ c :: cs := by simpa using h4
      have h5m : 95 ∉ c :: cs := by simpa using h5
      simp only [true_iff]
      exact ⟨c, cs, rfl, h3, h4m, h5m⟩
    · simp only [Bool.not_eq_true_eq_eq_false, Bool.not_eq_true, Bool.not_eq_false] at h3
      have h4m : 45 ∉ c :: cs := by simpa using h4
      have h5m : 95 ∉ c :: cs := by simpa using h5
      simp only [true_iff]
      exact ⟨c, cs, rfl, h3, h4m, h5m⟩

/-- C29: the two implementations of `isCamelCase` agree on every string: the one of
`rename/utils.go`, with its special cases, and the one of `camelcase-finder/main.go`. -/
theorem isCamelCase_agree (s : GoString) : isCamelCase s = Finder.isCamelCase s := by
  rw [Bool.eq_iff_iff, isCamelCase_iff, finder_isCamelCase_iff]

/-! ## Round trip B → A → B on names of letters -/

theorem intercalate_splitHyphen (s : GoString) :
    List.intercalate [45] (splitHyphen s) = s := by
  induction s with
  | nil => decide
  | cons c cs ih =>
    simp only [splitHyphen]
    by_cases hc : c = 45
    · simp only [hc, if_true]
      cases h : splitHyphen cs with
      | nil => exact absurd h (splitHyphen_ne_nil cs)
      | cons p ps =>
        rw [h] at ih
        rw [intercalate_hyphen_cons] at ih ⊢
        simp only [List.map_cons, List.flatten_cons, List.nil_append, List.cons_append]
        rw [ih]
    · simp only [hc, if_false]
      cases h : splitHyphen cs with
      | nil => exact absurd h (splitHyphen_ne_nil cs)
      | cons p ps =>
        rw [h] at ih
        simp only
        rw [intercalate_hyphen_cons] at ih ⊢
        rw [← ih]
        rfl

theorem isLowerToken_of_letters (t : GoString) (h : isLetterToken t = true) :
    isLowerToken t = true := by
  simp only [isLetterToken, Bool.and_eq_true, decide_eq_true_eq, List.all_eq_true] at h
  obtain ⟨hlen, hall⟩ := h
  match t, hlen, hall with
  | a :: b :: rest, _, hall =>
    rw [isLowerToken_iff]
    refine ⟨a, b, rest, rfl, hall a (by simp), hall b (by simp), ?_⟩
    intro c hc
    simp [isLowerAlnum, hall c (by simp [hc])]

/-- C28: for every name whose tokens, the parts `strings.Split(s, "-")` gives, each
consist of two or more lowercase ASCII letters and of which no two neighbouring tokens
are both recognized acronyms when uppercased, `camelToKebab (kebabToCamel s) = s`; such a
name is accepted by `isKebabCase`. -/
theorem letters_roundtrip (s : GoString)
    (htok : ∀ t ∈ splitHyphen s, isLetterToken t = true)
    (hadj : noAdjacentAcronyms ((splitHyphen s).map toUpper) = true) :
    isKebabCase s = true ∧ camelToKebab (kebabToCamel s) = s := by
  have hs := intercalate_splitHyphen s
  cases hsplit : splitHyphen s with
  | nil => exact absurd hsplit (splitHyphen_ne_nil s)
  | cons t ts =>
    rw [hsplit] at htok hadj hs
    have hlow : ∀ x ∈ t :: ts, isLowerToken x = true :=
      fun x hx => isLowerToken_of_letters x (htok x hx)
    constructor
    · rw [isKebabCase_iff_tokens]
      refine ⟨t :: ts, by simp, ?_, hs.symm⟩
      intro u hu
      have hall := isLowerToken_lowerAlnum u (hlow u hu)
      obtain ⟨a, b, rest, rfl, -⟩ := (isLowerToken_iff u).mp (hlow u hu)
      exact ⟨by simp, hall⟩
    · have h := kebab_camel_kebab t ts hlow hadj
      rw [hs] at h
      exact h

/-- Instance of C28 at `api-client-page`. -/
theorem letters_roundtrip_witness :
    kebabToCamel (str "api-client-page") = str "APIClientPage" ∧
    isKebabCase (str "api-client-page") = true ∧
    camelToKebab (kebabToCamel (str "api-client-page")) = str "api-client-page" :=
  ⟨by decide, letters_roundtrip (str "api-client-page") (by decide) (by decide)⟩

/-! ## Uppercase runs that are no acronyms -/

theorem scan_cons_nonupper (c : Nat) (cs : GoString) (hc : isUpper c = false) :
    scan (c :: cs) = encodeRune c ++ scan cs := by
  simp [scan, scanLoop, hc]

/-- The function `camelToKebab` in terms of the loop: the hyphen the loop writes before a
leading uppercase word is left out. -/
theorem camelToKebab_scan (c : Nat) (cs : GoString) :
    camelToKebab (c :: cs) =
      if isUpper c then (scan (c :: cs)).drop 1 else scan (c :: cs) := by
  rw [camelToKebab_eq_general]
  by_cases hc : isUpper c = true
  · rw [if_pos hc, camelToKebabGeneral_upper c cs hc]
  · rw [if_neg hc]
    simp only [Bool.not_eq_true] at hc
    rw [scan_cons_nonupper c cs hc]
    simp only [camelToKebabGeneral, hc, Bool.false_eq_true, if_false]
    rw [scanLoop_fuel (c :: cs).length cs.length cs (by simp) (le_refl _)]
    rfl

/-- What `findAcronym` returns does not depend on the text after the first byte that is
no uppercase letter. -/
theorem findAcronym_snoc (d : Nat) (p : GoString) (c : Nat) (hd : isUpper d = true)
    (hc : isUpper c = false) :
    ∃ w q : GoString, q.length ≤ p.length ∧
      ∀ rest : GoString, findAcronym (d :: (p ++ c :: rest)) = (w, q ++ c :: rest) := by
  have hsplit := List.takeWhile_append_dropWhile isUpper (d :: p)
  have hR : ∀ e ∈ (d :: p).takeWhile isUpper, isUpper e = true :=
    fun e he => List.mem_takeWhile_imp he
  have hlen := congrArg List.length hsplit
  simp only [List.length_append, List.length_cons] at hlen
  have hpos : 0 < ((d :: p).takeWhile isUpper).length := by
    simp [List.takeWhile, hd]
  generalize hRdef : (d :: p).takeWhile isUpper = R at hsplit hR hlen hpos
  generalize hxdef : (d :: p).dropWhile isUpper = x at hsplit hlen
  have hxhead : ∀ e, x.head? = some e → isUpper e = false := by
    intro e he
    cases x with
    | nil => simp at he
    | cons y ys =>
      simp only [List.head?_cons, Option.some.injEq] at he
      subst he
      have := List.head_dropWhile_not isUpper (d :: p) (by rw [hxdef]; simp)
      simp only [hxdef, List.head_cons] at this
      simpa using this
  have hshape : ∀ rest : GoString, d :: (p ++ c :: rest) = R ++ (x ++ c :: rest) := by
    intro rest
    rw [← List.append_assoc, hsplit]
    rfl
  have hhead : ∀ rest : GoString, ∀ e, (x ++ c :: rest).head? = some e → isUpper e = false := by
    intro rest e he
    cases x with
    | nil =>
      simp only [List.nil_append, List.head?_cons, Option.some.injEq] at he
      rw [← he]; exact hc
    | cons y ys => exact hxhead e (by simpa using he)
  have htd := fun rest => takeWhile_upper_append R (x ++ c :: rest) hR (hhead rest)
  cases x with
  | nil =>
    simp only [List.nil_append] at htd hshape
    by_cases hcond : (decide (R.length > 1) && isLower c) = true
    · refine ⟨R.dropLast, R.drop (R.length - 1), ?_, ?_⟩
      · simp only [Bool.and_eq_true, decide_eq_true_eq] at hcond
        simp only [List.length_drop, List.length_nil] at hlen ⊢
        omega
      · intro rest
        rw [hshape rest]
        unfold findAcronym
        rw [(htd rest).1, (htd rest).2]
        simp only [hcond, if_true]
    · refine ⟨R, [], Nat.zero_le _, ?_⟩
      intro rest
      rw [hshape rest]
      unfold findAcronym
      rw [(htd rest).1, (htd rest).2]
      simp only [hcond, Bool.false_eq_true, if_false, List.nil_append]
  | cons y ys =>
    simp only [List.cons_append] at htd hshape
    by_cases hcond : (decide (R.length > 1) && isLower y) = true
    · refine ⟨R.dropLast, R.drop (R.length - 1) ++ y :: ys, ?_, ?_⟩
      · simp only [Bool.and_eq_true, decide_eq_true_eq] at hcond
        simp only [List.length_append, List.length_drop, List.length_cons] at hlen ⊢
        omega
      · intro rest
        rw [hshape rest]
        unfold findAcronym
        rw [(htd rest).1, (htd rest).2]
        simp only [hcond, if_true, List.append_assoc, List.cons_append]
    · refine ⟨R, y :: ys, ?_, ?_⟩
      · simp only [List.length_cons] at hlen ⊢
        omega
      · intro rest
        rw [hshape rest]
        unfold findAcronym
        rw [(htd rest).1, (htd rest).2]
        simp only [hcond, Bool.false_eq_true, if_false, List.cons_append]

/-- The loop splits after a byte that is no uppercase letter. -/
theorem scan_append (n : Nat) :
    ∀ (p : GoString) (c : Nat) (rest : GoString), p.length ≤ n → isUpper c = false →
      scan (p ++ c :: rest) = scan (p ++ [c]) ++ scan rest := by
  induction n with
  | zero =>
    intro p c rest hp hc
    have : p = [] := List.eq_nil_of_length_eq_zero (by omega)
    subst this
    simp [scan_cons_nonupper c _ hc, scan_nil]
  | succ n ih =>
    intro p c rest hp hc
    cases p with
    | nil => simp [scan_cons_nonupper c _ hc, scan_nil]
    | cons d p =>
      simp only [List.length_cons, Nat.add_le_add_iff_right] at hp
      by_cases hd : isUpper d = true
      · obtain ⟨w, q, hq, hfa⟩ := findAcronym_snoc d p c hd hc
        simp only [List.cons_append]
        rw [scan_cons_upper d _ hd, scan_cons_upper d _ hd, hfa rest, hfa []]
        simp only
        rw [ih q c rest (by omega) hc]
        simp
      · simp only [Bool.not_eq_true] at hd
        simp only [List.cons_append]
        rw [scan_cons_nonupper d _ hd, scan_cons_nonupper d _ hd, ih p c rest hp hc]
        simp

theorem scan_ne_nil (c : Nat) (cs : GoString) (hc : isUpper c = true) :
    ∃ out, scan (c :: cs) = 45 :: out :=
  ⟨_, scan_cons_upper c cs hc⟩

/-- The function `camelToKebab` splits after a byte that is no uppercase letter. -/
theorem camelToKebab_append (p : GoString) (c : Nat) (rest : GoString)
    (hc : isUpper c = false) :
    camelToKebab (p ++ c :: rest) = camelToKebab (p ++ [c]) ++ scan rest := by
  have hs := scan_append p.length p c rest (le_refl _) hc
  cases p with
  | nil =>
    simp only [List.nil_append] at hs ⊢
    rw [camelToKebab_scan, camelToKebab_scan]
    simp only [hc, Bool.false_eq_true, if_false]
    exact hs
  | cons d p =>
    simp only [List.cons_append] at hs ⊢
    rw [camelToKebab_scan, camelToKebab_scan]
    by_cases hd : isUpper d = true
    · simp only [hd, if_true]
      obtain ⟨out, hout⟩ := scan_ne_nil d (p ++ [c]) hd
      rw [hs, hout]
      rfl
    · simp only [hd, Bool.false_eq_true, if_false]
      exact hs

theorem findAcronym_run (b : Nat) (tl post : GoString)
    (hrun : ∀ c ∈ b :: tl, isUpper c = true) (hpost : endsRun post = true) :
    findAcronym (b :: (tl ++ post)) = (b :: tl, post) := by
  rw [← List.cons_append]
  cases post with
  | nil =>
    rw [List.append_nil]
    exact findAcronym_end _ hrun
  | cons c rest =>
    simp only [endsRun] at hpost
    by_cases hc : isUpper c = true
    · simp only [hc, if_true] at hpost
      cases rest with
      | nil => simp at hpost
      | cons l x =>
        simp only at hpost
        exact findAcronym_run_word (b :: tl) c l x hrun (by simp) hc hpost
    · simp only [hc, Bool.false_eq_true, if_false, Bool.not_eq_true_eq_eq_false,
        Bool.not_eq_true] at hpost
      simp only [Bool.not_eq_true] at hc
      have h := takeWhile_upper_append (b :: tl) (c :: rest) hrun (by simp [hc])
      unfold findAcronym
      rw [h.1, h.2]
      simp [hpost]

/-- C21: an uppercase run that is no recognized acronym, of more than one letter or of
one, is emitted as one word.  For every input `pre ++ run ++ post` in which the run
`b :: tl` of uppercase letters begins after a byte that is no uppercase letter (or begins
the string) and is ended by `post` (the end of the string, a byte that is no letter, or
the uppercase letter given back to a following lowercase word), `camelToKebab` writes what
it writes for `pre`, a hyphen unless the run begins the string, the first letter of the
run in lower case, the other letters of the run unchanged, and then what the loop writes
for `post`. -/
theorem camelToKebab_upper_run (pre : GoString) (b : Nat) (tl post : GoString)
    (hpre : ∀ c, pre.getLast? = some c → isUpper c = false)
    (hrun : ∀ c ∈ b :: tl, isUpper c = true)
    (hacr : isAcronym (b :: tl) = false) (hpost : endsRun post = true) :
    camelToKebab (pre ++ (b :: tl ++ post)) =
      camelToKebab pre ++ (if pre = [] then [] else [45]) ++ lowerByte b :: tl ++
        scan post := by
  have hb := hrun b (List.mem_cons_self _ _)
  have hword : scan (b :: tl ++ post) = 45 :: (lowerByte b :: tl ++ scan post) := by
    rw [List.cons_append, scan_cons_upper b _ hb,
      findAcronym_run b tl post hrun hpost, emitWord_other b tl hb hacr,
      lowerByte_upper b hb]
  rcases List.eq_nil_or_concat pre with hnil | ⟨p, c, hpc⟩
  · subst hnil
    simp only [List.nil_append, if_true, List.append_nil]
    rw [List.cons_append, camelToKebab_scan, if_pos hb, ← List.cons_append, hword]
    rfl
  · rw [List.concat_eq_append] at hpc
    subst hpc
    have hc : isUpper c = false := hpre c (by simp)
    have hne : p ++ [c] ≠ [] := by simp
    rw [if_neg hne]
    have e : p ++ [c] ++ (b :: tl ++ post) = p ++ c :: (b :: tl ++ post) := by simp
    rw [e, camelToKebab_append p c _ hc, hword]
    simp

/-- The name `APIURLID` is one uppercase run that is no acronym, and `MyXYZFile` holds
the run `XYZ` before the word `File`. -/
theorem camelToKebab_upper_run_witness :
    camelToKebab (str "APIURLID") = str "aPIURLID" ∧
    camelToKebab (str "My" ++ (str "XYZ" ++ str "File")) =
      camelToKebab (str "My") ++ (if str "My" = [] then [] else [45]) ++
        lowerByte 88 :: str "YZ" ++ scan (str "File") ∧
    camelToKebab (str "MyXYZFile") = str "my-xYZ-file" :=
  ⟨by decide,
   camelToKebab_upper_run (str "My") 88 (str "YZ") (str "File") (by decide) (by decide)
     (by decide) (by decide),
   by decide⟩

/-! ## The values of `ConversionDirection` -/

theorem finishFileName_ok (env : Env) (filePath dir fileExt baseName newBaseName : GoString)
    (result : ConversionResult)
    (h : finishFileName env filePath dir fileExt baseName newBaseName = Outcome.ok result) :
    result.NewBaseName = newBaseName ∧ result.OldBaseName = baseName ∧
      result.OldPath = filePath ∧ result.NewPath = env.join dir (newBaseName ++ fileExt) := by
  unfold finishFileName at h
  dsimp only at h
  split_ifs at h
  simp only [Outcome.ok.injEq] at h
  subst h
  exact ⟨rfl, rfl, rfl, rfl⟩

theorem finishDirComponent_ok (env : Env) (dirPath dir dirName newDirName : GoString)
    (result : ConversionResult)
    (h : finishDirComponent env dirPath dir dirName newDirName = Outcome.ok result) :
    result.NewBaseName = newDirName ∧ result.OldBaseName = dirName ∧
      result.OldPath = dirPath ∧ result.NewPath = env.join dir newDirName := by
  unfold finishDirComponent at h
  dsimp only at h
  split_ifs at h
  simp only [Outcome.ok.injEq] at h
  subst h
  exact ⟨rfl, rfl, rfl, rfl⟩

theorem processFileName_ok (env : Env) (filePath : GoString) (config : Config)
    (result : ConversionResult) (h : processFileName env filePath config = Outcome.ok result) :
    if config.ConversionDirection = str "camel-to-kebab" then
      isCamelCase (baseNameOf filePath) = true ∧
        result.NewBaseName = camelToKebab (baseNameOf filePath)
    else
      isKebabCase (baseNameOf filePath) = true ∧
        result.NewBaseName = kebabToCamel (baseNameOf filePath) := by
  rw [processFileName_unfold] at h
  split_ifs at h with h1 h2 h3 h4 h5
  · rw [if_pos h2]
    exact ⟨by simpa using h3, (finishFileName_ok _ _ _ _ _ _ _ h).1⟩
  · rw [if_neg h2]
    exact ⟨by simpa using h5, (finishFileName_ok _ _ _ _ _ _ _ h).1⟩

theorem processDirComponent_ok (env : Env) (dirPath : GoString) (config : Config)
    (result : ConversionResult)
    (h : processDirComponent env dirPath config = Outcome.ok result) :
    if config.ConversionDirection = str "camel-to-kebab" then
      isCamelCase (splitPath (trimSuffixSlash dirPath)).2 = true ∧
        result.NewBaseName = camelToKebab (splitPath (trimSuffixSlash dirPath)).2
    else
      isKebabCase (splitPath (trimSuffixSlash dirPath)).2 = true ∧
        result.NewBaseName = kebabToCamel (splitPath (trimSuffixSlash dirPath)).2 := by
  unfold processDirComponent at h
  simp only at h
  split_ifs at h with h0 h1 h2 h3 h5
  · rw [if_pos h2]
    exact ⟨by simpa using h3, (finishDirComponent_ok _ _ _ _ _ _ h).1⟩
  · rw [if_neg h2]
    exact ⟨by simpa using h5, (finishDirComponent_ok _ _ _ _ _ _ h).1⟩

/-- C23, as the claim states it, fails: with `ConversionDirection = "camelToKebab"` the
CamelCase names `Button.tsx` and `IconButton` are refused as not being kebab-case, and the
kebab-case names `user-card.tsx` and `icon-button` are converted to CamelCase. -/
theorem documented_direction_reversed :
    processFileName (listEnv [str "src/Button.tsx"]) (str "src/Button.tsx")
        (plainConfig (str "camelToKebab")) = Outcome.error SkipReason.notKebabCase ∧
    processFileName (listEnv [str "src/user-card.tsx"]) (str "src/user-card.tsx")
        (plainConfig (str "camelToKebab")) =
      Outcome.ok
        { emptyResult with
            OldPath := str "src/user-card.tsx", NewPath := str "src/UserCard.tsx",
            OldBaseName := str "user-card", NewBaseName := str "UserCard" } ∧
    processDirComponent (listEnv [str "src/IconButton/index.tsx"]) (str "src/IconButton")
        (plainConfig (str "camelToKebab")) = Outcome.error SkipReason.notKebabCase ∧
    processDirComponent (listEnv [str "src/icon-button/index.tsx"]) (str "src/icon-button")
        (plainConfig (str "camelToKebab")) =
      Outcome.ok
        { emptyResult with
            OldPath := str "src/icon-button", NewPath := str "src/IconButton",
            OldBaseName := str "icon-button", NewBaseName := str "IconButton" } := by
  decide

/-- C23, amended: the values of `ConversionDirection` are `camel-to-kebab` and
`kebab-to-camel`.  With `camel-to-kebab`, a result of `processFileName` or of
`processDirComponent` means that the base name is CamelCase, and its new name is
`camelToKebab` of it; with `kebab-to-camel`, as with every value other than
`camel-to-kebab`, it means that the base name is kebab-case, and its new name is
`kebabToCamel` of it. -/
theorem direction_values (env : Env) (path : GoString) (config : Config)
    (result : ConversionResult) :
    (config.ConversionDirection = str "camel-to-kebab" →
      (processFileName env path config = Outcome.ok result →
        isCamelCase (baseNameOf path) = true ∧
          result.NewBaseName = camelToKebab (baseNameOf path)) ∧
      (processDirComponent env path config = Outcome.ok result →
        isCamelCase (splitPath (trimSuffixSlash path)).2 = true ∧
          result.NewBaseName = camelToKebab (splitPath (trimSuffixSlash path)).2)) ∧
    ((config.ConversionDirection = str "kebab-to-camel" ∨
        config.ConversionDirection ≠ str "camel-to-kebab") →
      (processFileName env path config = Outcome.ok result →
        isKebabCase (baseNameOf path) = true ∧
          result.NewBaseName = kebabToCamel (baseNameOf path)) ∧
      (processDirComponent env path config = Outcome.ok result →
        isKebabCase (splitPath (trimSuffixSlash path)).2 = true ∧
          result.NewBaseName = kebabToCamel (splitPath (trimSuffixSlash path)).2)) := by
  constructor
  · intro hdir
    constructor
    · intro hok
      have h := processFileName_ok env path config result hok
      rwa [if_pos hdir] at h
    · intro hok
      have h := processDirComponent_ok env path config result hok
      rwa [if_pos hdir] at h
  · intro hdir
    have hne : config.ConversionDirection ≠ str "camel-to-kebab" := by
      rcases hdir with h | h
      · rw [h]; decide
      · exact h
    constructor
    · intro hok
      have h := processFileName_ok env path config result hok
      rwa [if_neg hne] at h
    · intro hok
      have h := processDirComponent_ok env path config result hok
      rwa [if_neg hne] at h

/-- Instances of the amended C23: `Button.tsx` with `camel-to-kebab`, and the directory
`icon-button` with `kebab-to-camel`. -/
theorem direction_values_witness :
    processFileName (listEnv [str "src/Button.tsx"]) (str "src/Button.tsx")
        (plainConfig (str "camel-to-kebab")) = Outcome.ok buttonResult ∧
    isCamelCase (baseNameOf (str "src/Button.tsx")) = true ∧
    processDirComponent (listEnv [str "src/icon-button/index.tsx"]) (str "src/icon-button")
        (plainConfig (str "kebab-to-camel")) = Outcome.ok iconButtonCamelResult ∧
    isKebabCase (splitPath (trimSuffixSlash (str "src/icon-button"))).2 = true :=
  ⟨by decide,
   (((direction_values (listEnv [str "src/Button.tsx"]) (str "src/Button.tsx")
      (plainConfig (str "camel-to-kebab")) buttonResult).1 rfl).1 (by decide)).1,
   by decide,
   (((direction_values (listEnv [str "src/icon-button/index.tsx"]) (str "src/icon-button")
      (plainConfig (str "kebab-to-camel")) iconButtonCamelResult).2 (Or.inl rfl)).2
      (by decide)).1⟩

/-! ## Totality of `processFileName` and `camelToKebab` -/

theorem extRev_length (r acc : GoString) : (extRev r acc).length ≤ r.length + acc.length := by
  induction r generalizing acc with
  | nil => simp [extRev]
  | cons c r ih =>
    simp only [extRev]
    split_ifs with h1 h2
    · simp
    · simp only [List.length_cons]; omega
    · have := ih (c :: acc)
      simp only [List.length_cons] at this ⊢
      omega

/-- The slice `fileName[:len(fileName)-len(fileExt)]` is in bounds. -/
theorem fileExtOf_length (name : GoString) : (fileExtOf name).length ≤ name.length := by
  have := extRev_length name.reverse []
  simpa [fileExtOf] using this

/-- The calls of `processFileName` that panic: the debug output of the not-CamelCase skip
on an empty base name. -/
theorem processFileName_panic_iff (env : Env) (filePath : GoString) (config : Config) :
    processFileName env filePath config = Outcome.panic ↔
      (config.ExcludePatterns.any
          (fun pattern => containsSub (splitPath filePath).2 pattern) = false ∧
        config.ConversionDirection = str "camel-to-kebab" ∧ config.DebugMode = true ∧
        baseNameOf filePath = []) := by
  rw [processFileName_unfold]
  by_cases hex : config.ExcludePatterns.any
      (fun pattern => containsSub (splitPath filePath).2 pattern) = true
  · simp [hex]
  · simp only [hex, Bool.false_eq_true, if_false]
    simp only [Bool.not_eq_true] at hex
    by_cases hdir : config.ConversionDirection = str "camel-to-kebab"
    · simp only [hdir, if_true, true_and]
      cases hb : baseNameOf filePath with
      | nil =>
        have hc : isCamelCase [] = false := rfl
        cases hd : config.DebugMode <;> simp [hc, hex]
      | cons c cs =>
        by_cases hc : isCamelCase (c :: cs) = true
        · simp only [hc, Bool.not_true, Bool.false_eq_true, if_false, finishFileName]
          split_ifs <;> simp
        · simp [hc]
    · simp only [hdir, if_false, false_and, and_false, iff_false]
      unfold finishFileName
      dsimp only
      split_ifs <;> simp

/-- C30: `processFileName` is not total.  A call panics exactly when no exclusion pattern
matches, the direction is `camel-to-kebab`, `DebugMode` is on and the base name without
extension is empty, as for the file `.tsx`: the debug output indexes `baseName[0]`.
The other indexes and slices are in bounds, and the scan of `camelToKebab` advances and
terminates: the extension is no longer than the file name, `findAcronym` leaves a shorter
suffix, and the loop needs no more iterations than the suffix has bytes. -/
theorem processFileName_not_total :
    (∀ (env : Env) (filePath : GoString) (config : Config),
      processFileName env filePath config = Outcome.panic ↔
        (config.ExcludePatterns.any
            (fun pattern => containsSub (splitPath filePath).2 pattern) = false ∧
          config.ConversionDirection = str "camel-to-kebab" ∧ config.DebugMode = true ∧
          baseNameOf filePath = [])) ∧
    processFileName (listEnv [str "src/.tsx"]) (str "src/.tsx")
        (debugConfig (str "camel-to-kebab")) = Outcome.panic ∧
    processFileName (listEnv [str "src/.tsx"]) (str "src/.tsx")
        (plainConfig (str "camel-to-kebab")) = Outcome.error SkipReason.notCamelCase ∧
    (∀ name : GoString, (fileExtOf name).length ≤ name.length) ∧
    (∀ (c : Nat) (cs : GoString), isUpper c = true →
      (findAcronym (c :: cs)).2.length < (c :: cs).length) ∧
    (∀ (fuel : Nat) (rest : GoString), rest.length ≤ fuel →
      scanLoop fuel rest = scan rest) := by
  refine ⟨processFileName_panic_iff, by decide, by decide, fileExtOf_length, ?_, ?_⟩
  · intro c cs hc
    have := findAcronym_length c cs hc
    simp only [List.length_cons]
    omega
  · intro fuel rest h
    exact scanLoop_fuel fuel rest.length rest h (le_refl _)

/-! ## The text outside the matches of the pattern -/

/-- C24, as the claim states it, fails: the re-export `export * from './Old';` and the
comment `// from './Old'` hold no `import` at all, and both are rewritten, because the
pattern of `updateImportPaths` begins at `from` and is not anchored to a line or to the
word `import`. -/
theorem export_from_rewritten :
    containsSub (str "export * from \x27./Old\x27;") (str "import") = false ∧
    rewriteImports (str "Old") (str "old") (str "export * from \x27./Old\x27;") =
      str "export * from \x27./old\x27;" ∧
    updateImportPaths (some (str "export * from \x27./Old\x27;")) true (str "Old") (str "old")
        (plainConfig (str "camel-to-kebab")) =
      (some (str "export * from \x27./old\x27;"), some true) ∧
    containsSub (str "// from \x27./Old\x27") (str "import") = false ∧
    rewriteImports (str "Old") (str "old") (str "// from \x27./Old\x27") =
      str "// from \x27./old\x27" := by
  decide

/-- C24, amended: `updateImportPaths` changes text only inside the matches of its
pattern, `from`, white space, a quote, an optional path prefix, the old name and a quote,
wherever they stand in the content.  A text `pre` in which no match begins is copied
unchanged, also in front of a match; and of a match only the old name is replaced, by the
new name (one without `$`), after which the rewriting goes on behind the match. -/
theorem rewriteImports_outside (oldName newName pre rest : GoString)
    (hno : ∀ t ∈ pre.tails, t = [] ∨ matchImportAt oldName (t ++ rest) = none) :
    rewriteImports oldName newName (pre ++ rest) =
      pre ++ rewriteImports oldName newName rest ∧
    ∀ g1 g2 g3 g4 after : GoString,
      matchImportAt oldName rest = some (g1, g2, g3, g4, after) → 36 ∉ newName →
      rest = g1 ++ g2 ++ g3 ++ oldName ++ g4 ++ after ∧
      rewriteImports oldName newName (pre ++ rest) =
        pre ++ (g1 ++ g2 ++ g3 ++ newName ++ g4) ++
          rewriteImports oldName newName after := by
  have hframe : rewriteImports oldName newName (pre ++ rest) =
      pre ++ rewriteImports oldName newName rest := by
    induction pre with
    | nil => rfl
    | cons c pre ih =>
      have hc := (hno (c :: pre) (by simp)).resolve_left (by simp)
      rw [List.cons_append] at hc ⊢
      rw [rewriteImports_cons_none _ _ _ _ hc,
        ih (fun t ht => hno t (by
          rw [List.tails_cons]; exact List.mem_cons_of_mem _ ht))]
      rfl
  refine ⟨hframe, ?_⟩
  intro g1 g2 g3 g4 after hm hnew
  obtain ⟨ws, q, q2, hg1, hg4, hws, hspace, hq, hq2, hs, hfree, hlast⟩ :=
    matchImportAt_some _ _ _ _ _ _ _ hm
  refine ⟨hs, ?_⟩
  rw [hframe]
  cases rest with
  | nil => simp [matchImportAt, hasPrefix, str] at hm
  | cons c cs =>
    rw [rewriteImports_cons_some _ _ _ _ _ _ _ _ _ hm,
      expandReplacement_plain _ _ _ _ _ _ hnew]
    simp

/-- Instance of the amended C24: in `export * from './Old';` the text `export * ` before
the match is copied and the match has its name replaced. -/
theorem rewriteImports_outside_witness :
    rewriteImports (str "Old") (str "old") (str "export * " ++ str "from \x27./Old\x27;") =
      str "export * " ++ rewriteImports (str "Old") (str "old") (str "from \x27./Old\x27;") ∧
    rewriteImports (str "Old") (str "old") (str "from \x27./Old\x27;") =
      str "from \x27./old\x27;" :=
  ⟨(rewriteImports_outside (str "Old") (str "old") (str "export * ")
      (str "from \x27./Old\x27;")
      (fun t ht =>
        ((by decide : ∀ t ∈ (str "export * ").tails,
            t = [] ∨ (matchImportAt (str "Old") (t ++ str "from \x27./Old\x27;")).isNone = true)
          t ht).imp id Option.isNone_iff_eq_none.mp)).1,
   by decide⟩

/-! ## The counters of a run -/

theorem fileDecision_ignored_iff {σ : Type} (w : World σ) (config : Config) (st : σ)
    (file : GoString) :
    fileDecision w config st file = Decision.ignored ↔ isIndexFile file = true := by
  unfold fileDecision
  split_ifs with h1 h2 h3
  · simp [h1]
  · simp [h1]
  · simp [h1]
  · cases processFileName (w.env st) file config <;> simp [h1]

theorem dirDecision_ne_ignored {σ : Type} (w : World σ) (config : Config) (st : σ)
    (dirPath : GoString) : dirDecision w config st dirPath ≠ Decision.ignored := by
  unfold dirDecision
  cases processDirComponent (w.env st) dirPath config <;> simp

/-- One file of the file loop is counted once, unless it is an index file. -/
theorem fileStep_tally {σ : Type} (w : World σ) (config : Config) (r : Run σ)
    (file : GoString) (h : (fileStep w config r file).panicked = false) :
    r.panicked = false ∧
    (fileStep w config r file).counts.TotalFiles = r.counts.TotalFiles ∧
    (fileStep w config r file).counts.ProcessedFiles +
        (fileStep w config r file).counts.SkippedFiles +
        (fileStep w config r file).counts.ErrorFiles =
      r.counts.ProcessedFiles + r.counts.SkippedFiles + r.counts.ErrorFiles +
        (if isIndexFile file then 0 else 1) := by
  unfold fileStep at h ⊢
  cases hp : r.panicked with
  | true => simp [hp] at h
  | false =>
    simp only [hp, Bool.false_eq_true, if_false] at h ⊢
    refine ⟨trivial, ?_⟩
    have hi := fileDecision_ignored_iff w config r.state file
    cases hd : fileDecision w config r.state file with
    | ignored =>
      rw [hd] at hi
      simp [hi.mp rfl]
    | skip =>
      rw [hd] at hi
      have hni : isIndexFile file = false := by
        cases hx : isIndexFile file with
        | false => rfl
        | true => exact absurd (hi.mpr hx) (by simp)
      simp only [Run.skipped, hni, Bool.false_eq_true, if_false]
      exact ⟨trivial, by omega⟩
    | panic =>
      rw [hd] at h
      simp at h
    | convert result =>
      rw [hd] at hi
      have hni : isIndexFile file = false := by
        cases hx : isIndexFile file with
        | false => rfl
        | true => exact absurd (hi.mpr hx) (by simp)
      simp only [hni, Bool.false_eq_true, if_false]
      cases config.DryRun with
      | true =>
        simp only [Run.processed, Bool.not_true, Bool.false_eq_true, if_false]
        exact ⟨trivial, by omega⟩
      | false =>
        simp only [Bool.not_false, if_true]
        rcases hr : w.rename r.state result.OldPath result.NewPath with ⟨st, ok⟩
        cases ok with
        | true =>
          simp only [Run.processed]
          exact ⟨trivial, by omega⟩
        | false =>
          simp only [Run.errored]
          exact ⟨trivial, by omega⟩

/-- One directory component of the directory loop is counted once. -/
theorem dirStep_tally {σ : Type} (w : World σ) (config : Config) (r : Run σ)
    (dirPath : GoString) (h : (dirStep w config r dirPath).panicked = false) :
    r.panicked = false ∧
    (dirStep w config r dirPath).counts.TotalFiles = r.counts.TotalFiles ∧
    (dirStep w config r dirPath).counts.ProcessedFiles +
        (dirStep w config r dirPath).counts.SkippedFiles +
        (dirStep w config r dirPath).counts.ErrorFiles =
      r.counts.ProcessedFiles + r.counts.SkippedFiles + r.counts.ErrorFiles + 1 := by
  unfold dirStep at h ⊢
  cases hp : r.panicked with
  | true => simp [hp] at h
  | false =>
    simp only [hp, Bool.false_eq_true, if_false] at h ⊢
    refine ⟨trivial, ?_⟩
    have hi := dirDecision_ne_ignored w config r.state dirPath
    cases hd : dirDecision w config r.state dirPath with
    | ignored => exact absurd hd hi
    | skip =>
      simp only [Run.skipped]
      exact ⟨trivial, by omega⟩
    | panic =>
      rw [hd] at h
      simp at h
    | convert result =>
      simp only
      cases config.DryRun with
      | true =>
        simp only [Run.processed, Bool.not_true, Bool.false_eq_true, if_false]
        exact ⟨trivial, by omega⟩
      | false =>
        simp only [Bool.not_false, if_true]
        rcases hr1 : w.rename r.state dirPath
          (w.join (pathDir dirPath) (tempDirName (pathBase dirPath) (w.now r.state)))
          with ⟨st1, ok1⟩
        cases ok1 with
        | false =>
          simp only [Run.errored]
          exact ⟨trivial, by omega⟩
        | true =>
          simp only
          rcases hr2 : w.rename st1
            (w.join (pathDir dirPath) (tempDirName (pathBase dirPath) (w.now r.state)))
            result.NewPath with ⟨st2, ok2⟩
          cases ok2 with
          | true =>
            simp only [Run.processed]
            exact ⟨trivial, by omega⟩
          | false =>
            simp only [Run.errored]
            exact ⟨trivial, by omega⟩

theorem foldl_fileStep_tally {σ : Type} (w : World σ) (config : Config)
    (files : List GoString) :
    ∀ r : Run σ, (files.foldl (fileStep w config) r).panicked = false →
      r.panicked = false ∧
      (files.foldl (fileStep w config) r).counts.TotalFiles = r.counts.TotalFiles ∧
      (files.foldl (fileStep w config) r).counts.ProcessedFiles +
          (files.foldl (fileStep w config) r).counts.SkippedFiles +
          (files.foldl (fileStep w config) r).counts.ErrorFiles +
          ((files.filter isIndexFile).length : Int) =
        r.counts.ProcessedFiles + r.counts.SkippedFiles + r.counts.ErrorFiles +
          (files.length : Int) := by
  induction files with
  | nil => intro r h; exact ⟨h, rfl, by simp⟩
  | cons file rest ih =>
    intro r h
    simp only [List.foldl_cons] at h ⊢
    obtain ⟨h1, h2, h3⟩ := ih _ h
    obtain ⟨g1, g2, g3⟩ := fileStep_tally w config r file h1
    refine ⟨g1, h2.trans g2, ?_⟩
    by_cases hi : isIndexFile file = true
    · simp only [hi, if_true] at g3
      simp only [List.filter_cons, hi, if_true, List.length_cons, Nat.cast_add, Nat.cast_one]
      omega
    · simp only [hi, Bool.false_eq_true, if_false] at g3
      simp only [List.filter_cons, hi, Bool.false_eq_true, if_false, List.length_cons,
        Nat.cast_add, Nat.cast_one]
      omega

theorem foldl_dirStep_tally {σ : Type} (w : World σ) (config : Config)
    (dirComponents : List GoString) :
    ∀ r : Run σ, (dirComponents.foldl (dirStep w config) r).panicked = false →
      r.panicked = false ∧
      (dirComponents.foldl (dirStep w config) r).counts.TotalFiles = r.counts.TotalFiles ∧
      (dirComponents.foldl (dirStep w config) r).counts.ProcessedFiles +
          (dirComponents.foldl (dirStep w config) r).counts.SkippedFiles +
          (dirComponents.foldl (dirStep w config) r).counts.ErrorFiles =
        r.counts.ProcessedFiles + r.counts.SkippedFiles + r.counts.ErrorFiles +
          (dirComponents.length : Int) := by
  induction dirComponents with
  | nil => intro r h; exact ⟨h, rfl, by simp⟩
  | cons dirPath rest ih =>
    intro r h
    simp only [List.foldl_cons] at h ⊢
    obtain ⟨h1, h2, h3⟩ := ih _ h
    obtain ⟨g1, g2, g3⟩ := dirStep_tally w config r dirPath h1
    refine ⟨g1, h2.trans g2, ?_⟩
    simp only [List.length_cons, Nat.cast_add, Nat.cast_one]
    omega

theorem finishRun_ok {σ : Type} (w : World σ) (root : GoString) (config : Config)
    (done : Run σ) (result : ConversionResult)
    (h : (finishRun w root config done).1 = Outcome.ok result) :
    done.panicked = false ∧ result.TotalFiles = done.counts.TotalFiles ∧
      result.ProcessedFiles = done.counts.ProcessedFiles ∧
      result.SkippedFiles = done.counts.SkippedFiles ∧
      result.ErrorFiles = done.counts.ErrorFiles := by
  unfold finishRun at h
  cases hp : done.panicked with
  | true => simp [hp] at h
  | false =>
    simp only [hp, Bool.false_eq_true, if_false] at h
    refine ⟨by trivial, ?_⟩
    split_ifs at h with hr
    · cases ht : w.treeAt done.state (w.join root (pathDir config.TargetDir)) with
      | none =>
        rw [ht] at h
        simp only [Outcome.ok.injEq] at h
        subst h
        exact ⟨rfl, rfl, rfl, rfl⟩
      | some projectTree =>
        rw [ht] at h
        simp only [Outcome.ok.injEq] at h
        subst h
        exact ⟨rfl, rfl, rfl, rfl⟩
    · simp only [Outcome.ok.injEq] at h
      subst h
      exact ⟨rfl, rfl, rfl, rfl⟩

/-- C26: for every run of `processFiles` that finds its target directory and returns, the
returned counters satisfy `ProcessedFiles + SkippedFiles + ErrorFiles` plus the number of
scanned files named `index.tsx` or `index.jsx` equals `TotalFiles`, and `TotalFiles` is the
number of `.tsx`/`.jsx` files found plus the number of directory components found. -/
theorem processFiles_counters {σ : Type} (w : World σ) (root : GoString) (config : Config)
    (st : σ) (tree : Tree) (result : ConversionResult)
    (htree : w.treeAt st (w.join root config.TargetDir) = some tree)
    (hok : (processFiles w (some root) config st).1 = Outcome.ok result) :
    result.TotalFiles =
      ((findTsxJsxFiles (w.join root config.TargetDir) config tree).length : Int) +
        ((findDirectoryComponents (w.join root config.TargetDir) config tree).length : Int) ∧
    result.ProcessedFiles + result.SkippedFiles + result.ErrorFiles +
        (((findTsxJsxFiles (w.join root config.TargetDir) config tree).filter
          isIndexFile).length : Int) =
      result.TotalFiles := by
  unfold processFiles at hok
  simp only [htree] at hok
  generalize findTsxJsxFiles (w.join root config.TargetDir) config tree = files at hok ⊢
  generalize findDirectoryComponents (w.join root config.TargetDir) config tree = dirs
    at hok ⊢
  split_ifs at hok with h0
  · simp only [Outcome.ok.injEq] at hok
    subst hok
    simp only [startRun, emptyResult] at h0 ⊢
    have hf : files.length = 0 := by omega
    have hfil : (files.filter isIndexFile).length = 0 := by
      have := List.length_filter_le isIndexFile files
      omega
    refine ⟨by trivial, ?_⟩
    rw [hfil]
    omega
  · obtain ⟨hp, hT, hP, hS, hE⟩ := finishRun_ok w root config _ result hok
    unfold runLoops at hp hT hP hS hE
    obtain ⟨hp2, dT, dsum⟩ := foldl_dirStep_tally w config dirs _ hp
    obtain ⟨-, fT, fsum⟩ := foldl_fileStep_tally w config files _ hp2
    rw [hT, hP, hS, hE, dT, fT]
    have hstart : (startRun config files dirs st).counts.TotalFiles =
        (files.length : Int) + (dirs.length : Int) := rfl
    have hzero : (startRun config files dirs st).counts.ProcessedFiles +
        (startRun config files dirs st).counts.SkippedFiles +
        (startRun config files dirs st).counts.ErrorFiles = 0 := rfl
    refine ⟨hstart, ?_⟩
    rw [hstart]
    omega

/-- The apply run over the project with the directory component `IconButton`: two files
and one directory component are found, the directory is processed, `home.tsx` is skipped,
and the index file is counted in `TotalFiles` only. -/
theorem processFiles_counters_witness :
    flatWorld.treeAt (iconButtonState [])
        (flatWorld.join (str "/p") componentsConfig.TargetDir) = some iconButtonTree ∧
    (processFiles flatWorld (some (str "/p")) componentsConfig (iconButtonState [])).1 =
      Outcome.ok iconButtonCounts ∧
    iconButtonCounts.ProcessedFiles + iconButtonCounts.SkippedFiles +
        iconButtonCounts.ErrorFiles +
        (((findTsxJsxFiles (flatWorld.join (str "/p") componentsConfig.TargetDir)
          componentsConfig iconButtonTree).filter isIndexFile).length : Int) =
      iconButtonCounts.TotalFiles :=
  ⟨rfl, by decide,
   (processFiles_counters flatWorld (str "/p") componentsConfig (iconButtonState [])
      iconButtonTree iconButtonCounts rfl (by decide)).2⟩

/-! ## The run of `TestProcessFiles` -/

set_option maxRecDepth 100000 in
/-- C25: the apply run of `TestProcessFiles` does not leave `Button.tsx` in place.  On a
file system that distinguishes case, after the run with direction `camel-to-kebab` and no
exclusion patterns on the project of `SetupTest`, `os.Stat` fails for `Button.tsx`, which
the test asserts to exist still: the file has been renamed to `button.tsx` and counted as
processed, together with the directory `IconButton`. -/
theorem button_renamed_on_apply :
    (processFiles flatWorld (some (str "/t")) configActual testProject).2.stat
      (str "/t/components/common/Button.tsx") = false ∧
    (processFiles flatWorld (some (str "/t")) configActual testProject).2.stat
      (str "/t/components/common/button.tsx") = true ∧
    reportedCounts (processFiles flatWorld (some (str "/t")) configActual testProject).1 =
      some (2, 1) := by
  decide

theorem processFileName_button (env : Env) (dir : GoString)
    (hdir : dir = [] ∨ dir.getLast? = some 47) :
    processFileName env (dir ++ str "Button.tsx") configActual =
      if env.stat (env.join dir (str "button.tsx")) &&
          decide (env.join dir (str "button.tsx") ≠ dir ++ str "Button.tsx") then
        Outcome.error SkipReason.targetExists
      else
        Outcome.ok
          { emptyResult with
              OldPath := dir ++ str "Button.tsx",
              NewPath := env.join dir (str "button.tsx"),
              OldBaseName := str "Button", NewBaseName := str "button" } := by
  have hs := splitPath_append dir (str "Button.tsx") hdir (by decide)
  have hbase : baseNameOf (dir ++ str "Button.tsx") = str "Button" := by
    unfold baseNameOf
    rw [hs]
    dsimp only
    decide
  have hext : fileExtOf (str "Button.tsx") = str ".tsx" := by decide
  have hcamel : isCamelCase (str "Button") = true := by decide
  have hkebab : str "button" ++ str ".tsx" = str "button.tsx" := by decide
  have hk : camelToKebab (str "Button") = str "button" := by decide
  rw [processFileName_unfold, hbase, hs]
  simp only [configActual, plainConfig, List.any_nil, Bool.false_eq_true, if_false, if_true,
    hcamel, Bool.not_true, finishFileName, hext, hk, hkebab, emptyResult]

set_option maxRecDepth 100000 in
/-- When `Button.tsx` is skipped: in the apply run with direction `camel-to-kebab` and no
exclusion patterns, `processFileName` refuses `Button.tsx` exactly when `os.Stat` succeeds
for `button.tsx` in its directory, and gives the result that renames it otherwise.  On the
project of `TestProcessFiles`, on a file system that distinguishes case, `Button.tsx` is
renamed to `button.tsx` and counted as processed; on one that does not, `os.Stat` finds
`button.tsx`, and `Button.tsx` is skipped and keeps its path.  On both, `IconButton/` is
renamed to `icon-button/`. -/
theorem button_skipped_only_if_target_found :
    (∀ (env : Env) (dir : GoString), (dir = [] ∨ dir.getLast? = some 47) →
      processFileName env (dir ++ str "Button.tsx") configActual =
        if env.stat (env.join dir (str "button.tsx")) &&
            decide (env.join dir (str "button.tsx") ≠ dir ++ str "Button.tsx") then
          Outcome.error SkipReason.targetExists
        else
          Outcome.ok
            { emptyResult with
                OldPath := dir ++ str "Button.tsx",
                NewPath := env.join dir (str "button.tsx"),
                OldBaseName := str "Button", NewBaseName := str "button" }) ∧
    ((processFiles flatWorld (some (str "/t")) configActual testProject).2.paths.contains
        (str "/t/components/common/Button.tsx") = false ∧
      (processFiles flatWorld (some (str "/t")) configActual testProject).2.paths.contains
        (str "/t/components/common/button.tsx") = true ∧
      (processFiles flatWorld (some (str "/t")) configActual testProject).2.paths.contains
        (str "/t/components/common/icon-button") = true ∧
      (processFiles flatWorld (some (str "/t")) configActual testProject).2.paths.contains
        (str "/t/components/common/icon-button/index.tsx") = true ∧
      (processFiles flatWorld (some (str "/t")) configActual testProject).2.paths.contains
        (str "/t/components/common/IconButton") = false ∧
      reportedCounts (processFiles flatWorld (some (str "/t")) configActual testProject).1 =
        some (2, 1)) ∧
    ((processFiles foldWorld (some (str "/t")) configActual testProject).2.paths.contains
        (str "/t/components/common/Button.tsx") = true ∧
      (processFiles foldWorld (some (str "/t")) configActual testProject).2.paths.contains
        (str "/t/components/common/button.tsx") = false ∧
      (processFiles foldWorld (some (str "/t")) configActual testProject).2.paths.contains
        (str "/t/components/common/icon-button") = true ∧
      (processFiles foldWorld (some (str "/t")) configActual testProject).2.paths.contains
        (str "/t/components/common/icon-button/index.tsx") = true ∧
      (processFiles foldWorld (some (str "/t")) configActual testProject).2.paths.contains
        (str "/t/components/common/IconButton") = false ∧
      reportedCounts (processFiles foldWorld (some (str "/t")) configActual testProject).1 =
        some (1, 2)) :=
  ⟨processFileName_button, by decide, by decide⟩

/-! ## Bytes that are passed through -/

theorem hyphensInserted_refl (s : GoString) : HyphensInserted s s := by
  induction s with
  | nil => exact HyphensInserted.done
  | cons c s ih => exact HyphensInserted.keep c s s ih

theorem hyphensInserted_append (a x b y : GoString) (h1 : HyphensInserted a x)
    (h2 : HyphensInserted b y) : HyphensInserted (a ++ b) (x ++ y) := by
  induction h1 with
  | done => exact h2
  | hyphen s out _ ih => exact HyphensInserted.hyphen _ _ ih
  | keep c s out _ ih => exact HyphensInserted.keep c _ _ ih
  | lower c s out hc _ ih => exact HyphensInserted.lower c _ _ hc ih

theorem hyphensInserted_toLower (w : GoString) : HyphensInserted w (toLower w) := by
  induction w with
  | nil => exact HyphensInserted.done
  | cons c w ih =>
    by_cases hc : isUpper c = true
    · exact HyphensInserted.lower c w _ hc ih
    · simp only [Bool.not_eq_true] at hc
      have : toLower (c :: w) = c :: toLower w := by
        simp [toLower, lowerByte_other c hc]
      rw [this]
      exact HyphensInserted.keep c w _ ih

/-- The two slices `findAcronym` returns make up the suffix it was given. -/
theorem findAcronym_split (s : GoString) : (findAcronym s).1 ++ (findAcronym s).2 = s := by
  have h := List.takeWhile_append_dropWhile isUpper s
  unfold findAcronym
  cases hd : s.dropWhile isUpper with
  | nil => rw [hd] at h; simpa using h
  | cons d ds =>
    rw [hd] at h
    dsimp only
    split_ifs with hc
    · show (s.takeWhile isUpper).dropLast ++
          ((s.takeWhile isUpper).drop ((s.takeWhile isUpper).length - 1) ++ d :: ds) = s
      rw [← List.append_assoc, List.dropLast_eq_take, List.take_append_drop]
      exact h
    · exact h

theorem findAcronym_head (c : Nat) (cs : GoString) (hc : isUpper c = true) :
    (findAcronym (c :: cs)).1 = c :: (findAcronym (c :: cs)).1.drop 1 := by
  have ht : (c :: cs).takeWhile isUpper = c :: cs.takeWhile isUpper := by
    simp [List.takeWhile, hc]
  unfold findAcronym
  rw [ht]
  cases (c :: cs).dropWhile isUpper with
  | nil => rfl
  | cons d ds =>
    dsimp only
    split_ifs with h
    · simp only [Bool.and_eq_true, decide_eq_true_eq, List.length_cons] at h
      cases htw : cs.takeWhile isUpper with
      | nil => rw [htw] at h; simp at h
      | cons e es => simp
    · rfl

theorem emitWord_inserted (c : Nat) (w : GoString) (hc : isUpper c = true)
    (hw : w = c :: w.drop 1) : HyphensInserted w (emitWord c w) := by
  have hc2 := (isUpper_iff c).mp hc
  have h1 : (c + 256 - 65 + 97) % 256 = c + 32 := by omega
  have h2 : c + 32 < 128 := by omega
  unfold emitWord
  split_ifs with ha hl
  · exact hyphensInserted_toLower w
  · rw [h1]
    have : encodeRune (c + 32) = [c + 32] := by simp [encodeRune, h2]
    rw [this, ← lowerByte_upper c hc]
    conv => lhs; rw [hw]
    exact HyphensInserted.lower c _ _ hc (hyphensInserted_refl _)
  · rw [h1]
    have : encodeRune (c + 32) = [c + 32] := by simp [encodeRune, h2]
    rw [this, ← lowerByte_upper c hc]
    have hnil : w.drop 1 = [] := by
      rw [List.drop_eq_nil_iff]
      omega
    conv => lhs; rw [hw, hnil]
    exact HyphensInserted.lower c _ _ hc HyphensInserted.done

/-- On ASCII text the loop only inserts hyphens and lowers uppercase letters. -/
theorem scan_inserted (n : Nat) :
    ∀ s : GoString, s.length ≤ n → (∀ c ∈ s, c < 128) → HyphensInserted s (scan s) := by
  induction n with
  | zero =>
    intro s hs _
    have : s = [] := List.eq_nil_of_length_eq_zero (by omega)
    subst this
    exact HyphensInserted.done
  | succ n ih =>
    intro s hs hascii
    cases s with
    | nil => exact HyphensInserted.done
    | cons c cs =>
      simp only [List.length_cons, Nat.add_le_add_iff_right] at hs
      by_cases hc : isUpper c = true
      · rw [scan_cons_upper c cs hc]
        apply HyphensInserted.hyphen
        have hsplit := findAcronym_split (c :: cs)
        have hlen := findAcronym_length c cs hc
        have hrest : ∀ d ∈ (findAcronym (c :: cs)).2, d < 128 := by
          intro d hd
          apply hascii
          rw [← hsplit]
          exact List.mem_append_right _ hd
        have h := hyphensInserted_append _ _ _ _
          (emitWord_inserted c (findAcronym (c :: cs)).1 hc (findAcronym_head c cs hc))
          (ih (findAcronym (c :: cs)).2 (by omega) hrest)
        rw [hsplit] at h
        exact h
      · simp only [Bool.not_eq_true] at hc
        rw [scan_cons_other c cs hc (hascii c (List.mem_cons_self _ _))]
        exact HyphensInserted.keep c cs _
          (ih cs hs (fun d hd => hascii d (List.mem_cons_of_mem _ hd)))

/-- The bytes other than hyphens are as many in the output as in the input. -/
theorem hyphensInserted_count (s out : GoString) (h : HyphensInserted s out) :
    (out.filter (fun c => c != 45)).length = (s.filter (fun c => c != 45)).length := by
  induction h with
  | done => rfl
  | hyphen s out _ ih => simpa using ih
  | keep c s out _ ih =>
    by_cases hc : c = 45
    · simp [hc, ih]
    · simp [List.filter_cons, hc, ih]
  | lower c s out hc _ ih =>
    have hc2 := (isUpper_iff c).mp hc
    have h1 : c ≠ 45 := by omega
    have h2 : lowerByte c ≠ 45 := by rw [lowerByte_upper c hc]; omega
    simp [List.filter_cons, h1, h2, ih]

/-- On ASCII text `camelToKebab` only inserts hyphens and lowers uppercase letters. -/
theorem camelToKebab_inserted (s : GoString) (hascii : ∀ c ∈ s, c < 128) :
    HyphensInserted s (camelToKebab s) := by
  cases s with
  | nil => exact HyphensInserted.done
  | cons c cs =>
    rw [camelToKebab_scan]
    by_cases hc : isUpper c = true
    · rw [if_pos hc, scan_cons_upper c cs hc]
      simp only [List.drop_succ_cons, List.drop_zero]
      have hsplit := findAcronym_split (c :: cs)
      have hrest : ∀ d ∈ (findAcronym (c :: cs)).2, d < 128 := by
        intro d hd
        apply hascii
        rw [← hsplit]
        exact List.mem_append_right _ hd
      have h := hyphensInserted_append _ _ _ _
        (emitWord_inserted c (findAcronym (c :: cs)).1 hc (findAcronym_head c cs hc))
        (scan_inserted _ (findAcronym (c :: cs)).2 (le_refl _) hrest)
      rw [hsplit] at h
      exact h
    · rw [if_neg hc]
      exact scan_inserted _ (c :: cs) (le_refl _) hascii

/-- C22: `camelToKebab` does not pass every byte through.  On ASCII text the output is
the input with hyphens inserted and uppercase letters lowered, nothing else changed; but
a byte of a multi-byte UTF-8 character is written with `WriteRune(rune(s[i]))`, which
encodes it again: `Café` (the bytes of `Caf`, then `C3 A9`) is accepted by `isCamelCase`
and becomes `caf` followed by `C3 83 C2 A9`, which is not the input with hyphens inserted
and letters lowered. -/
theorem camelToKebab_mangles_non_ascii :
    isCamelCase (str "Caf" ++ [0xC3, 0xA9]) = true ∧
    camelToKebab (str "Caf" ++ [0xC3, 0xA9]) = str "caf" ++ [0xC3, 0x83, 0xC2, 0xA9] ∧
    ¬ HyphensInserted (str "Caf" ++ [0xC3, 0xA9])
        (camelToKebab (str "Caf" ++ [0xC3, 0xA9])) ∧
    (∀ s : GoString, (∀ c ∈ s, c < 128) → HyphensInserted s (camelToKebab s)) := by
  refine ⟨by decide, by decide, ?_, camelToKebab_inserted⟩
  intro h
  have hcount := hyphensInserted_count _ _ h
  revert hcount
  decide

/-! ## The matches of `importRegex` -/

theorem spaceOptions_suffix (s x : GoString) (h : x ∈ spaceOptions s) : x <:+ s := by
  simp only [spaceOptions, List.mem_reverse, List.mem_map] at h
  obtain ⟨k, -, rfl⟩ := h
  exact List.drop_suffix _ _

theorem clauseOptions_suffix (s x : GoString) (h : x ∈ clauseOptions s) : x <:+ s := by
  simp only [clauseOptions, List.mem_append, List.mem_reverse, List.mem_map] at h
  rcases h with h | ⟨k, -, rfl⟩
  · match s, h with
    | 123 :: t, h =>
      simp only at h
      cases hd : t.dropWhile (fun c => c != 125) with
      | nil => rw [hd] at h; simp at h
      | cons d rest =>
        rw [hd] at h
        simp only [List.mem_singleton] at h
        rw [h]
        have h1 : rest <:+ d :: rest := List.suffix_cons d rest
        have h2 : d :: rest <:+ t := hd ▸ List.dropWhile_suffix _
        exact (h1.trans h2).trans (List.suffix_cons 123 t)
  · exact List.drop_suffix _ _

theorem matchFromClause_suffix (s path rest : GoString)
    (h : matchFromClause s = some (path, rest)) : rest <:+ s := by
  unfold matchFromClause at h
  by_cases h1 : s.takeWhile isSpace ≠ [] ∧ hasPrefix (s.dropWhile isSpace) (str "from") = true
  · rw [if_pos h1] at h
    cases hq : ((s.dropWhile isSpace).drop 4).dropWhile isSpace with
    | nil => rw [hq] at h; simp at h
    | cons q t =>
      rw [hq] at h
      dsimp only at h
      by_cases h2 : ((s.dropWhile isSpace).drop 4).takeWhile isSpace ≠ [] ∧ isQuote q = true
      · rw [if_pos h2] at h
        cases ht : t.dropWhile (fun c => !isQuote c) with
        | nil => rw [ht] at h; simp at h
        | cons q2 r =>
          rw [ht] at h
          dsimp only at h
          by_cases h3 : t.takeWhile (fun c => !isQuote c) ≠ []
          · rw [if_pos h3] at h
            simp only [Option.some.injEq, Prod.mk.injEq] at h
            rw [← h.2]
            have e1 : r <:+ q2 :: r := List.suffix_cons q2 r
            have e2 : q2 :: r <:+ t := ht ▸ List.dropWhile_suffix _
            have e3 : t <:+ q :: t := List.suffix_cons q t
            have e4 : q :: t <:+ (s.dropWhile isSpace).drop 4 :=
              hq ▸ List.dropWhile_suffix _
            have e5 : (s.dropWhile isSpace).drop 4 <:+ s.dropWhile isSpace :=
              List.drop_suffix _ _
            have e6 : s.dropWhile isSpace <:+ s := List.dropWhile_suffix _
            exact ((((e1.trans e2).trans e3).trans e4).trans e5).trans e6
          · rw [if_neg h3] at h
            simp at h
      · rw [if_neg h2] at h
        simp at h
  · rw [if_neg h1] at h
    simp at h

/-- A match of `importRegex` is not empty: the text after it is shorter, by the six
bytes of the word `import` at least. -/
theorem matchImportStmt_length (s path rest : GoString)
    (h : matchImportStmt s = some (path, rest)) : rest.length + 6 ≤ s.length := by
  unfold matchImportStmt at h
  split_ifs at h with hp
  obtain ⟨r, hr⟩ := (hasPrefix_iff _ _).mp hp
  have hlen : (str "import").length = 6 := by decide
  have hdrop : s.drop 6 = r := by
    rw [hr, ← hlen, List.drop_left]
  rw [hdrop] at h
  obtain ⟨a, ha, h2⟩ := List.exists_of_findSome?_eq_some h
  obtain ⟨x, hx, h3⟩ := List.exists_of_findSome?_eq_some h2
  have e := ((matchFromClause_suffix x path rest h3).trans
    (clauseOptions_suffix a x hx)).trans (spaceOptions_suffix r a ha)
  have := e.length_le
  rw [hr, List.length_append, hlen]
  omega

/-- The search of `FindAllStringSubmatch` ends: more steps than the text has bytes change
nothing. -/
theorem findImportsLoop_fuel (f : Nat) :
    ∀ (g : Nat) (atLineStart : Bool) (s : GoString), s.length ≤ f → s.length ≤ g →
      findImportsLoop f atLineStart s = findImportsLoop g atLineStart s := by
  induction f with
  | zero =>
    intro g b s hf _
    have : s = [] := List.eq_nil_of_length_eq_zero (by omega)
    subst this
    cases g <;> rfl
  | succ f ih =>
    intro g b s hf hg
    cases s with
    | nil => cases g <;> rfl
    | cons c cs =>
      cases g with
      | zero => simp at hg
      | succ g =>
        simp only [List.length_cons, Nat.add_le_add_iff_right] at hf hg
        simp only [findImportsLoop]
        cases hm : (if b = true then matchImportStmt (c :: cs) else none) with
        | none => exact ih g _ cs hf hg
        | some m =>
          obtain ⟨path, rest⟩ := m
          have hm2 : matchImportStmt (c :: cs) = some (path, rest) := by
            split_ifs at hm
            exact hm
          have hl := matchImportStmt_length _ _ _ hm2
          simp only [List.length_cons] at hl
          simp only
          rw [ih g false rest (by omega) (by omega)]

theorem findAllImports_fuel (fuel : Nat) (content : GoString) (h : content.length ≤ fuel) :
    findImportsLoop fuel true content = findAllImports content :=
  findImportsLoop_fuel fuel content.length true content h (le_refl _)

/-! ## Paths under a `_components` directory -/

theorem pathElements_ne_nil (s : GoString) : pathElements s ≠ [] := by
  cases s with
  | nil => simp [pathElements]
  | cons c cs =>
    simp only [pathElements]
    split_ifs
    · simp
    · split <;> simp

theorem pathElements_append (a b : GoString) :
    pathElements (a ++ 47 :: b) = pathElements a ++ pathElements b := by
  induction a with
  | nil => simp [pathElements]
  | cons c a ih =>
    simp only [List.cons_append, pathElements]
    by_cases hc : c = 47
    · simp [hc, ih]
    · simp only [hc, if_false, ih]
      cases h : pathElements a with
      | nil => exact absurd h (pathElements_ne_nil a)
      | cons p ps =>
        simp only [List.append_eq]
        rw [ih, h]
        rfl

theorem pathElements_of_not_mem (p : GoString) (h : 47 ∉ p) : pathElements p = [p] := by
  induction p with
  | nil => rfl
  | cons c p ih =>
    simp only [List.mem_cons, not_or] at h
    have hc : c ≠ 47 := fun e => h.1 e.symm
    simp [pathElements, hc, ih h.2]

theorem intercalate_slash_cons (t : GoString) (ts : List GoString) :
    List.intercalate [47] (t :: ts) = t ++ (ts.map (fun u => 47 :: u)).flatten := by
  induction ts generalizing t with
  | nil => simp [List.intercalate]
  | cons u us ih =>
    have := ih u
    simp only [List.intercalate, List.intersperse, List.flatten_cons, List.map_cons] at this ⊢
    rw [this]
    simp

theorem intercalate_pathElements (s : GoString) :
    List.intercalate [47] (pathElements s) = s := by
  induction s with
  | nil => decide
  | cons c cs ih =>
    simp only [pathElements]
    by_cases hc : c = 47
    · simp only [hc, if_true]
      cases h : pathElements cs with
      | nil => exact absurd h (pathElements_ne_nil cs)
      | cons p ps =>
        rw [h] at ih
        rw [intercalate_slash_cons] at ih ⊢
        simp only [List.map_cons, List.flatten_cons, List.nil_append, List.cons_append]
        rw [ih]
    · simp only [hc, if_false]
      cases h : pathElements cs with
      | nil => exact absurd h (pathElements_ne_nil cs)
      | cons p ps =>
        rw [h] at ih
        simp only
        rw [intercalate_slash_cons] at ih ⊢
        rw [← ih]
        rfl

/-- An element of a path other than the last one stands between the start of the path or
a `/` and a `/`. -/
theorem mem_dropLast_intercalate (elements : List GoString) (e : GoString)
    (h : e ∈ elements.dropLast) :
    ∃ a b, List.intercalate [47] elements = a ++ e ++ 47 :: b ∧
      (a = [] ∨ a.getLast? = some 47) := by
  induction elements with
  | nil => simp at h
  | cons x rest ih =>
    cases rest with
    | nil => simp at h
    | cons y more =>
      have hshape : List.intercalate [47] (x :: y :: more) =
          x ++ 47 :: List.intercalate [47] (y :: more) := by
        rw [intercalate_slash_cons, intercalate_slash_cons]
        simp
      simp only [List.dropLast_cons₂, List.mem_cons] at h
      rcases h with rfl | h
      · exact ⟨[], _, by rw [hshape]; rfl, Or.inl rfl⟩
      · obtain ⟨a, b, hab, ha⟩ := ih h
        refine ⟨x ++ 47 :: a, b, by rw [hshape, hab]; simp, Or.inr ?_⟩
        rcases ha with rfl | ha
        · simp
        · rw [List.getLast?_append_of_ne_nil _ (by simp)]
          cases a with
          | nil => simp at ha
          | cons d ds =>
            rw [List.getLast?_cons_cons]
            exact ha

theorem fileExtOf_suffix (name : GoString) : fileExtOf name <:+ name := by
  have key : ∀ r acc : GoString, extRev r acc = [] ∨
      ∃ r1 r2, r = r1 ++ 46 :: r2 ∧ extRev r acc = 46 :: (r1.reverse ++ acc) := by
    intro r
    induction r with
    | nil => intro acc; exact Or.inl rfl
    | cons c r ih =>
      intro acc
      simp only [extRev]
      by_cases h1 : c = 47
      · simp [h1]
      · by_cases h2 : c = 46
        · right
          exact ⟨[], r, by simp [h2], by simp [h1, h2]⟩
        · rcases ih (c :: acc) with h | ⟨r1, r2, hr, he⟩
          · left; simp [h1, h2, h]
          · right
            exact ⟨c :: r1, r2, by simp [hr], by simp [h1, h2, he]⟩
  unfold fileExtOf
  rcases key name.reverse [] with h | ⟨r1, r2, hr, he⟩
  · rw [h]; exact List.nil_suffix
  · rw [he]
    have : name = r2.reverse ++ 46 :: r1.reverse := by
      have := congrArg List.reverse hr
      simpa using this
    rw [this, List.append_nil]
    exact List.suffix_append _ _

/-- On the paths `processFiles` passes, absolute paths with `/` as separator and the
extension `.tsx` or `.jsx`, the test of `shouldExcludeByImports` on the path is the test
for a file under a `_components` directory. -/
theorem isComponentsFile_eq_under (filePath : GoString) (habs : filePath.head? = some 47)
    (hsep : 92 ∉ filePath) (hext : isTsxJsx filePath = true) :
    isComponentsFile filePath = isFileUnderComponents filePath := by
  have hextsub : (containsSub filePath (str ".tsx") || containsSub filePath (str ".jsx")) =
      true := by
    simp only [isTsxJsx, Bool.or_eq_true, beq_iff_eq] at hext
    simp only [Bool.or_eq_true, containsSub_iff]
    obtain ⟨a, ha⟩ := fileExtOf_suffix filePath
    rcases hext with h | h
    · left; exact ⟨a, [], by rw [← h, List.append_nil, ha]⟩
    · right; exact ⟨a, [], by rw [← h, List.append_nil, ha]⟩
  have hback : containsSub filePath (str "\\_components\\") = false := by
    cases hc : containsSub filePath (str "\\_components\\") with
    | false => rfl
    | true =>
      obtain ⟨a, b, hab⟩ := (containsSub_iff _ _).mp hc
      exfalso
      apply hsep
      rw [hab]
      have : (92 : Nat) ∈ str "\\_components\\" := by decide
      exact List.mem_append_left _ (List.mem_append_right _ this)
  have hunder : isFileUnderComponents filePath =
      (pathElements filePath).dropLast.contains (str "_components") := by
    unfold isFileUnderComponents
    unfold isTsxJsx at hext
    rw [hext, Bool.true_and]
  have hmem : ∀ elements : List GoString,
      elements.contains (str "_components") = true ↔ str "_components" ∈ elements := by
    intro elements
    simp
  unfold isComponentsFile
  rw [hextsub, hback, Bool.or_false, Bool.and_true, hunder, Bool.eq_iff_iff,
    containsSub_iff, hmem]
  constructor
  · rintro ⟨a, b, hab⟩
    have hsplit : str "/_components/" = 47 :: (str "_components" ++ [47]) := by decide
    have hshape : filePath = a ++ 47 :: (str "_components" ++ 47 :: b) := by
      rw [hab, hsplit]; simp
    rw [hshape, pathElements_append, pathElements_append,
      pathElements_of_not_mem (str "_components") (by decide)]
    cases hb : pathElements b with
    | nil => exact absurd hb (pathElements_ne_nil b)
    | cons y ys =>
      rw [← List.append_assoc, List.dropLast_append_of_ne_nil _ (by simp)]
      simp
  · intro hmem
    obtain ⟨a, b, hab, ha⟩ := mem_dropLast_intercalate _ _ hmem
    rw [intercalate_pathElements] at hab
    have hsplit : str "/_components/" = 47 :: (str "_components" ++ [47]) := by decide
    rcases ha with rfl | ha
    · exfalso
      rw [hab] at habs
      have hc : str "_components" = 95 :: str "components" := by decide
      rw [hc] at habs
      simp at habs
    · obtain ⟨a2, rfl⟩ : ∃ a2, a = a2 ++ [47] := by
        obtain ⟨r, hr⟩ := getLast?_eq_some_reverse a 47 ha
        exact ⟨r.reverse, by
          have := congrArg List.reverse hr
          simpa using this⟩
      exact ⟨a2, b, by rw [hab, hsplit]; simp⟩

/-! ## An import statement that `shouldExcludeByImports` misses -/

/-- C13: `shouldExcludeByImports` does not see every line-anchored import statement.
Each of the lines `import a from '@/lib/x'` and `import b from './b'` alone is matched by
the pattern `importRegex`, with the paths `@/lib/x` and `./b`.  In the content of both lines,
written without semicolons, the group `[^{;]*` of the pattern runs over the end of the
first line: the search gives one match, with the path `./b`.  So for the file
`/p/src/Card.tsx`, which is under no `_components` directory, and the exclusion pattern
`@/lib`, the function returns false, although the first statement of the file has a path
that contains the pattern; with semicolons it returns true and reports `@/lib/x`.  On the
paths `processFiles` passes, the test on the path is the test for a `.tsx` or `.jsx` file
under a `_components` directory. -/
theorem shouldExcludeByImports_misses_statement :
    findAllImports (str "import a from \x27@/lib/x\x27") = [str "@/lib/x"] ∧
    findAllImports (str "import b from \x27./b\x27") = [str "./b"] ∧
    findAllImports (str "import a from \x27@/lib/x\x27\nimport b from \x27./b\x27") =
      [str "./b"] ∧
    isFileUnderComponents (str "/p/src/Card.tsx") = false ∧
    containsSub (str "@/lib/x") (str "@/lib") = true ∧
    shouldExcludeByImports
        (fun _ => some (str "import a from \x27@/lib/x\x27\nimport b from \x27./b\x27"))
        findAllImports (str "/p/src/Card.tsx") [str "@/lib"] = (false, [], false) ∧
    shouldExcludeByImports
        (fun _ => some (str "import a from \x27@/lib/x\x27;\nimport b from \x27./b\x27;"))
        findAllImports (str "/p/src/Card.tsx") [str "@/lib"] =
      (true, str "@/lib/x", false) ∧
    (∀ filePath : GoString, filePath.head? = some 47 → 92 ∉ filePath →
      isTsxJsx filePath = true →
      isComponentsFile filePath = isFileUnderComponents filePath) := by
  refine ⟨by decide, by decide, by decide, by decide, by decide, by decide, by decide,
    isComponentsFile_eq_under⟩

end Rename
